import Mathlib

/-!
# Arbitrary-precision integer (`bigint/big_integer.cpp`)

A shallow embedding of the sign-magnitude big integer of `big_integer.cpp`.

* A limb is a `uint32_t`, modelled as a `Nat` below `2 ^ 32`; every store into a
  limb reduces modulo `2 ^ 32`, every `uint64_t` intermediate modulo `2 ^ 64`.
* The limb vector `_data` is a `List Nat`, least-significant limb first.
* `std::vector::operator[]` is unchecked.  In the routines that index a vector
  with an index that is not bounded by that vector's own length
  (`sub_in_pos`, `add_in_pos`, `operator*=`, the long-division loop, the loops of
  `bit_operation` and `operator>>=`) an index past the end yields
  `Err.out_of_bounds`.
* A shift count is the `int` argument of `operator<<=` and `operator>>=` taken
  non-negative, a `Nat`; `size - big_shift` in `operator>>=` is a `size_t`
  difference and wraps around modulo `2 ^ 64`.
* An index loop `for (i = 0; ...; i++)` over `lhs[i + pos]` is written as a
  recursion over the suffix of `lhs` that starts at index `i + pos`: the head of
  the suffix is `lhs[i + pos]`, an empty suffix means that `i + pos` is past the
  end of the vector.
* A mutating member function is a function from the old value of `*this` (and its
  arguments) to `Except Err` of the new value; `Err.invalid_argument` is the one
  exception the source throws.
* A `char` of a `std::string` is a `Char`; only comparisons with `'-'`, `'0'`, `'9'`
  and the difference `ch - '0'` are taken of it.
* The `while` loop of `to_string` runs under a step budget; the theorems show that
  a budget above the magnitude is enough.
-/

namespace BigInteger

/-! ## Constants and native helpers -/

abbrev EXP : Nat := 32
abbrev BASE : Nat := 4294967296
abbrev INT_MOD : Nat := 1000000000
abbrev INT_BASE : Nat := 10
abbrev DIGITS_CNT : Nat := 9
abbrev UINT32_MAX : Nat := 4294967295
/-- Modulus of `uint64_t` arithmetic. -/
abbrev U64 : Nat := 18446744073709551616

/-- What can go wrong inside an operation. -/
inductive Err where
  /-- A `std::invalid_argument` was thrown. -/
  | invalid_argument
  /-- A vector was indexed past its end (undefined behaviour in the source). -/
  | out_of_bounds
  /-- A native integer division by zero (undefined behaviour in the source). -/
  | division_by_zero
deriving DecidableEq, Repr

deriving instance DecidableEq for Except

/-- Function `exp(base, power)`: repeated `uint32_t` multiplication. -/
def exp (base : Nat) : Nat → Nat
  | 0 => 1
  | power + 1 => (exp base power * base) % BASE

/-- Cast `ui_cast`: keep the low 32 bits. -/
def ui_cast (value : Nat) : Nat := value % BASE

/-- The type `big_integer`: limbs least-significant first, `_sign` true for negatives. -/
structure big_integer where
  _data : List Nat
  _sign : Bool
deriving DecidableEq, Repr

/-- The default constructor `big_integer()`. -/
def zero : big_integer := ⟨[], false⟩

def length (a : big_integer) : Nat := a._data.length

/-- Unchecked `_data[index]`; past the end is undefined behaviour. -/
def rd (v : List Nat) (index : Nat) : Except Err Nat :=
  match v.get? index with
  | some x => .ok x
  | none => .error .out_of_bounds

/-- Method `trim`: pop most-significant limbs while the last one is zero. -/
def trim_data (d : List Nat) : List Nat := d.rdropWhile (fun x => x == 0)

def trim (a : big_integer) : big_integer := ⟨trim_data a._data, a._sign⟩

def eq_zero (a : big_integer) : Bool := length a == 0

/-- Loop of `abs_great_or_eq`, `i` running from `length()` down to `1`;
both vectors have the same length there, so `i - 1` is in range for both. -/
def abs_great_or_eq_loop (a b : List Nat) : Nat → Bool
  | 0 => true
  | i + 1 =>
    if a.getD i 0 != b.getD i 0 then decide (a.getD i 0 > b.getD i 0)
    else abs_great_or_eq_loop a b i

def abs_great_or_eq (a rhs : big_integer) : Bool :=
  if length a != length rhs then decide (length a > length rhs)
  else abs_great_or_eq_loop a._data rhs._data (length a)

/-- Loop of `mul_uint` over the limbs `a[i], a[i+1], ...`; `carry` is a `uint64_t`. -/
def mul_uint_loop (b : Nat) : List Nat → Nat → List Nat
  | [], carry => if carry != 0 then [ui_cast carry] else []
  | x :: xs, carry =>
    let tmp := (x * b + carry) % U64
    ui_cast tmp :: mul_uint_loop b xs (tmp >>> EXP)

/-- Function `mul_uint(a, b)`; the result has the default sign `false`. -/
def mul_uint (a : big_integer) (b : Nat) : big_integer :=
  ⟨mul_uint_loop b a._data 0, false⟩

/-- Constructor `big_integer(long long a)`, for `-2^63 ≤ a < 2^63`. -/
def of_long_long (a : Int) : big_integer :=
  if a != 0 then
    let b := (a % (U64 : Int)).toNat
    let sign := decide (a < 0)
    let b := if sign then (U64 - b) % U64 else b
    ⟨if b >>> EXP != 0 then [ui_cast b, ui_cast (b >>> EXP)] else [ui_cast b], sign⟩
  else zero

/-- Constructor `big_integer(unsigned long long a)`, for `a < 2^64`. -/
def of_unsigned_long_long (a : Nat) : big_integer :=
  trim ⟨[ui_cast a, ui_cast (a >>> EXP)], false⟩

/-- Helper `add(a, b)`: the 32-bit sum and the carry out. -/
def add (a b : Nat) : Nat × Nat := ((a + b) % BASE, if UINT32_MAX - b < a then 1 else 0)

/-- Helper `sub(a, b)`: the 32-bit difference and the borrow out. -/
def sub (a b : Nat) : Nat × Nat := ((a + BASE - b) % BASE, if a < b then 1 else 0)

/-- Loop of `sub_in_pos`.  First argument: the limbs of `lhs` from index `i + pos`
upward; second: the limbs of `rhs` from index `i` upward.  Returns the rewritten
limbs and the final `carry`. -/
def sub_in_pos_loop : List Nat → List Nat → Nat → Except Err (List Nat × Nat)
  | [], rhs, carry =>
    if rhs ≠ [] ∨ carry > 0 then .error .out_of_bounds else .ok ([], carry)
  | x :: xs, rhs, carry =>
    if rhs ≠ [] ∨ carry > 0 then
      let p := sub x carry
      let carry := p.2
      let p := match rhs with
        | r :: _ => sub p.1 r
        | [] => p
      let carry := max p.2 carry
      match sub_in_pos_loop xs rhs.tail carry with
      | .ok (rest, c) => .ok (p.1 :: rest, c)
      | .error e => .error e
    else .ok (x :: xs, carry)

/-- Function `sub_in_pos(lhs, rhs, pos)`: the new limbs of `lhs` and the returned flag. -/
def sub_in_pos (lhs rhs : List Nat) (pos : Nat) : Except Err (List Nat × Bool) :=
  match sub_in_pos_loop (lhs.drop pos) rhs 0 with
  | .ok (rest, c) => .ok (lhs.take pos ++ rest, c != 0)
  | .error e => .error e

/-- Iterations of `add_in_pos` once `i + pos == lhs.length()`: each one first
pushes a zero limb.  Adding a carry into a fresh zero limb cannot carry again
(`UINT32_MAX - carry < 0` is false), so after the last limb of `rhs` at most one
more iteration runs. -/
def add_in_pos_grow (ignore_last_carry : Bool) : List Nat → Nat → List Nat
  | [], carry =>
    if carry != 0 && !ignore_last_carry then [(add 0 carry).1] else []
  | r :: rs, carry =>
    let p := add 0 carry
    let carry := p.2
    let p := add p.1 r
    let carry := max p.2 carry
    p.1 :: add_in_pos_grow ignore_last_carry rs carry

/-- Loop of `add_in_pos`, on the limbs of `lhs` from index `i + pos` upward
(with `i + pos ≤ lhs.length()`) and the limbs of `rhs` from index `i` upward. -/
def add_in_pos_loop (ignore_last_carry : Bool) : List Nat → List Nat → Nat → List Nat
  | [], rhs, carry => add_in_pos_grow ignore_last_carry rhs carry
  | x :: xs, rhs, carry =>
    if rhs ≠ [] ∨ (carry != 0 && !ignore_last_carry) then
      let p := add x carry
      let carry := p.2
      let p := match rhs with
        | r :: _ => add p.1 r
        | [] => p
      let carry := max p.2 carry
      p.1 :: add_in_pos_loop ignore_last_carry xs rhs.tail carry
    else x :: xs

/-- Function `add_in_pos<ignore_last_carry>(lhs, rhs, pos)`.  With
`pos > lhs.length()` the first iteration indexes past the end. -/
def add_in_pos (ignore_last_carry : Bool) (lhs rhs : List Nat) (pos : Nat) :
    Except Err (List Nat) :=
  if pos ≤ lhs.length then
    .ok (lhs.take pos ++ add_in_pos_loop ignore_last_carry (lhs.drop pos) rhs 0)
  else if rhs = [] then .ok lhs
  else .error .out_of_bounds

/-! ## Sign-aware addition and subtraction -/

/-- The magnitude branch of `add_with_ignore`: `add_in_pos<false>(*this, rhs, 0); trim();`. -/
def add_abs (self rhs : big_integer) : Except Err big_integer :=
  match add_in_pos false self._data rhs._data 0 with
  | .ok d => .ok (trim ⟨d, self._sign⟩)
  | .error e => .error e

/-- The magnitude branch `sub_in_pos(*this, rhs, 0); trim();` of `sub_with_ignore`. -/
def sub_abs_ge (self rhs : big_integer) : Except Err big_integer :=
  match sub_in_pos self._data rhs._data 0 with
  | .ok (d, _) => .ok (trim ⟨d, self._sign⟩)
  | .error e => .error e

/-- The magnitude branch of `sub_with_ignore<ignore_sign>`.  When
`abs_great_or_eq(rhs)` fails the source copies `rhs` into `tmp` and calls
`tmp.sub_with_ignore<ignore_sign>(*this)`: in that call the sign test gives the
answer it gave in the caller and `tmp.abs_great_or_eq(*this)` holds
(`abs_great_or_eq_swap`), so the call is `sub_in_pos(tmp, *this, 0); trim();`.
Then `tmp._sign ^= !ignore_sign`, `swap(*this, tmp)` and the final `trim()`. -/
def sub_abs (ignore_sign : Bool) (self rhs : big_integer) : Except Err big_integer :=
  if abs_great_or_eq self rhs then sub_abs_ge self rhs
  else
    match sub_abs_ge rhs self with
    | .ok tmp => .ok (trim ⟨tmp._data, xor tmp._sign (!ignore_sign)⟩)
    | .error e => .error e

/-- Method `add_with_ignore<ignore_sign>(rhs)`; `sub_with_ignore<true>` skips its sign test. -/
def add_with_ignore (ignore_sign : Bool) (self rhs : big_integer) : Except Err big_integer :=
  if !ignore_sign && self._sign != rhs._sign then sub_abs true self rhs
  else add_abs self rhs

/-- Method `sub_with_ignore<ignore_sign>(rhs)`; `add_with_ignore<true>` skips its sign test. -/
def sub_with_ignore (ignore_sign : Bool) (self rhs : big_integer) : Except Err big_integer :=
  if !ignore_sign && self._sign != rhs._sign then add_abs self rhs
  else sub_abs ignore_sign self rhs

/-- Operators `+=` and binary `+` (which copies its left operand and applies `+=`). -/
def plus (a b : big_integer) : Except Err big_integer := add_with_ignore false a b

/-- Operators `-=` and binary `-`. -/
def minus (a b : big_integer) : Except Err big_integer := sub_with_ignore false a b

/-! ## Multiplication -/

/-- Inner loop of `operator*=` for one limb `ai = _data[i]`.  First list: the limbs of
`result` from index `i + j` upward; second: the limbs of `rhs` from index `j` upward;
`carry` is a `uint64_t`. -/
def mul_row (ai : Nat) : List Nat → List Nat → Nat → Except Err (List Nat)
  | [], rhs, carry =>
    if rhs ≠ [] ∨ carry > 0 then .error .out_of_bounds else .ok []
  | x :: xs, rhs, carry =>
    if rhs ≠ [] ∨ carry > 0 then
      let cur := (x + ai * rhs.headD 0 + carry) % U64
      match mul_row ai xs rhs.tail (cur >>> EXP) with
      | .ok rest => .ok (ui_cast cur :: rest)
      | .error e => .error e
    else .ok (x :: xs)

/-- Outer loop of `operator*=`.  First list: the limbs of `*this` from index `i`
upward; last: the limbs of `result` from index `i` upward. -/
def mul_rows : List Nat → List Nat → List Nat → Except Err (List Nat)
  | [], _, result => .ok result
  | a :: as, rhs, result =>
    match mul_row a result rhs 0 with
    | .error e => .error e
    | .ok row =>
      match mul_rows as rhs row.tail with
      | .ok rest => .ok (row.take 1 ++ rest)
      | .error e => .error e

/-- Operators `*=` and binary `*`. -/
def times (a b : big_integer) : Except Err big_integer :=
  match mul_rows a._data b._data (List.replicate (length a + length b) 0) with
  | .ok d => .ok (trim ⟨d, xor a._sign b._sign⟩)
  | .error e => .error e

/-! ## Division by one limb -/

/-- Loop of `div_uint`, from the most-significant limb down: the limbs above the
head are divided first and hand down their remainder `carry`. -/
def div_uint_loop (rhs : Nat) : List Nat → Except Err (List Nat × Nat)
  | [] => .ok ([], 0)
  | x :: xs =>
    match div_uint_loop rhs xs with
    | .error e => .error e
    | .ok (q, carry) =>
      if rhs = 0 then .error .division_by_zero
      else
        let cur := (x + carry * BASE) % U64
        .ok ((cur / rhs) % BASE :: q, cur % rhs)

/-- Method `div_uint(rhs)`. -/
def div_uint (a : big_integer) (rhs : Nat) : Except Err big_integer :=
  match div_uint_loop rhs a._data with
  | .ok (q, _) => .ok (trim ⟨q, a._sign⟩)
  | .error e => .error e

/-! ## Comparisons -/

/-- Operator `==`. -/
def eq (a b : big_integer) : Bool :=
  (eq_zero a && eq_zero b) || (a._sign == b._sign && a._data == b._data)

/-- Loop of `operator>`, `i` running from `length()` down to `1` (equal lengths). -/
def gt_loop (a b : List Nat) (sign : Bool) : Nat → Bool
  | 0 => false
  | i + 1 =>
    if a.getD i 0 != b.getD i 0 then xor (decide (a.getD i 0 > b.getD i 0)) sign
    else gt_loop a b sign i

/-- Operator `>`. -/
def gt (a b : big_integer) : Bool :=
  if a._sign != b._sign then !a._sign
  else if a._data.length != b._data.length then
    xor (decide (a._data.length > b._data.length)) a._sign
  else gt_loop a._data b._data a._sign (length a)

def le (a b : big_integer) : Bool := !(gt a b)
def ge (a b : big_integer) : Bool := !(gt b a)
def ne (a b : big_integer) : Bool := !(eq a b)
def lt (a b : big_integer) : Bool := !(ge a b)

/-! ## Long division -/

/-- The correction test of the trial digit, in `uint64_t` arithmetic. -/
def q_too_big (poss_q poss_r v2 u3 : Nat) : Bool :=
  poss_q == BASE || decide ((poss_q * v2) % U64 > (BASE * poss_r + u3) % U64)

/-- Main loop of `abstract_division`, `j` running from `len_diff + 1` down to `1`.
`divisor_len ≥ 2` here, so the index expressions do not wrap and the two asserts
hold.  The limbs `divisor[divisor_len - 2]` and `dividend[j + divisor_len - 3]` lie
below limbs that were already read. -/
def division_loop (divisor : List Nat) (divisor_len : Nat) :
    Nat → List Nat → List Nat → Except Err (List Nat × List Nat)
  | 0, dividend, q => .ok (dividend, q)
  | j' + 1, dividend, q => do
    let j := j' + 1
    let u1 ← rd dividend (j + divisor_len - 1)
    let u2 ← rd dividend (j + divisor_len - 2)
    let two_digits := ((u1 <<< EXP) % U64 + u2) % U64
    let v1 ← rd divisor (divisor_len - 1)
    if v1 = 0 then throw Err.division_by_zero
    let poss_q := two_digits / v1
    let poss_r := two_digits % v1
    let v2 ← rd divisor (divisor_len - 2)
    let u3 ← rd dividend (j + divisor_len - 3)
    let poss_q :=
      if q_too_big poss_q poss_r v2 u3 then
        let poss_q := (poss_q + U64 - 1) % U64
        let poss_r := (poss_r + v1) % U64
        if decide (poss_r < BASE) && q_too_big poss_q poss_r v2 u3 then
          (poss_q + U64 - 1) % U64
        else poss_q
      else poss_q
    let try_subtrahend := mul_uint ⟨divisor, false⟩ (ui_cast poss_q)
    let (dividend, flag) ← sub_in_pos dividend try_subtrahend._data (j - 1)
    if flag then
      let poss_q := (poss_q + U64 - 1) % U64
      let dividend ← add_in_pos true dividend divisor (j - 1)
      division_loop divisor divisor_len j' dividend (q ++ [ui_cast poss_q])
    else
      division_loop divisor divisor_len j' dividend (q ++ [ui_cast poss_q])

/-- Method `abstract_division<return_remainder>(rhs)`: the new value of `*this`.
`length() - divisor_len` does not wrap: `divisor > dividend` failed, and `operator>`
compares the lengths first. -/
def abstract_division (return_remainder : Bool) (self rhs : big_integer) :
    Except Err big_integer :=
  if eq rhs (of_long_long 0) then .error .invalid_argument
  else if length rhs == 1 then do
    let r0 ← rd rhs._data 0
    if return_remainder then
      let p ← div_uint self r0
      let p : big_integer := ⟨p._data, xor p._sign rhs._sign⟩
      let m ← times p rhs
      minus self m
    else
      let t ← div_uint self r0
      pure ⟨t._data, xor t._sign rhs._sign⟩
  else
    let dividend : big_integer := ⟨self._data, false⟩
    let divisor : big_integer := ⟨rhs._data, false⟩
    if gt divisor dividend then
      .ok (if return_remainder then self else of_long_long 0)
    else do
      let back ← rd rhs._data (length rhs - 1)
      let d := BASE / (back + 1)
      let divisor_len := length rhs
      let len_diff := length self - divisor_len
      let dividend := if d != 1 then mul_uint dividend (ui_cast d) else dividend
      let divisor := if d != 1 then mul_uint divisor (ui_cast d) else divisor
      let dividend : big_integer :=
        if length dividend == len_diff + divisor_len then ⟨dividend._data ++ [0], dividend._sign⟩
        else dividend
      let (w, q) ← division_loop divisor._data divisor_len (len_diff + 1) dividend._data []
      if return_remainder then
        let r ← div_uint ⟨w, self._sign⟩ (ui_cast d)
        pure (trim r)
      else
        pure (trim ⟨q.reverse, xor self._sign rhs._sign⟩)

/-- Operators `/=` and binary `/`. -/
def divide (a b : big_integer) : Except Err big_integer := abstract_division false a b

/-- Operators `%=` and binary `%`. -/
def modulo (a b : big_integer) : Except Err big_integer := abstract_division true a b

/-- The statement `a /= b` (`return_remainder = false`) or `a %= b` as a step on the
variable `a`: its value afterwards and the exception that escaped, if any.  The one
`throw` of `abstract_division` is its first statement, before `*this` is written, so
an exception that escapes leaves the variable as it was.  (After an undefined
behaviour, `out_of_bounds` or `division_by_zero`, the first component means nothing.) -/
def divide_assign (return_remainder : Bool) (a b : big_integer) :
    big_integer × Option Err :=
  match abstract_division return_remainder a b with
  | .ok r => (r, none)
  | .error e => (a, some e)

/-- The expression `(a / b) * b + (a % b) == a`. -/
def division_law (a b : big_integer) : Except Err Bool := do
  let q ← divide a b
  let r ← modulo a b
  let p ← times q b
  let s ← plus p r
  pure (eq s a)

/-! ## Decimal text -/

/-- Inner loop of the string constructor over the characters of one chunk;
`tmp` is a `uint32_t`. -/
def parse_chunk : List Char → Nat → Except Err Nat
  | [], tmp => .ok tmp
  | ch :: rest, tmp =>
    if ch < '0' ∨ '9' < ch then .error .invalid_argument
    else parse_chunk rest ((tmp * INT_BASE % BASE + (ch.toNat - '0'.toNat)) % BASE)

/-- Chunk loop `for (; i < str.size(); i += DIGITS_CNT)` of the string constructor.
The first argument counts the iterations still to run: the loop is entered with
`i < str.size()` and advances by `DIGITS_CNT`, so it runs
`⌈(str.size() - i) / DIGITS_CNT⌉` times. -/
def parse_loop (str : List Char) : Nat → Nat → big_integer → Except Err big_integer
  | 0, _, result => .ok result
  | n + 1, i, result =>
    match parse_chunk ((str.drop i).take (min DIGITS_CNT (str.length - i))) 0 with
    | .error e => .error e
    | .ok tmp =>
      let result :=
        if str.length - i ≥ DIGITS_CNT then mul_uint result INT_MOD
        else mul_uint result (exp INT_BASE (str.length - i))
      match plus result (of_unsigned_long_long tmp) with
      | .error e => .error e
      | .ok result => parse_loop str n (i + DIGITS_CNT) result

/-- Constructor `big_integer(const std::string&)`.  `str[0]` of an empty string is
the terminating `'\0'`. -/
def of_string (str : List Char) : Except Err big_integer :=
  let sign := str.head? == some '-'
  let i := if sign then 1 else 0
  if i == str.length then .error .invalid_argument
  else
    match parse_loop str ((str.length - i + (DIGITS_CNT - 1)) / DIGITS_CNT) i zero with
    | .error e => .error e
    | .ok result => .ok (trim ⟨result._data, sign⟩)

/-- The constructor applied to a string literal. -/
def parse (s : String) : Except Err big_integer := of_string s.data

/-- The character of a decimal digit. -/
def digit_char (d : Nat) : Char := Char.ofNat (d + 48)

/-- Decimal digits of `n`, least-significant first, at most `fuel` of them. -/
def dec_digits : Nat → Nat → List Nat
  | 0, _ => []
  | fuel + 1, n => if n < 10 then [n] else n % 10 :: dec_digits fuel (n / 10)

/-- Library function `std::to_string(uint32_t)`: the decimal digits of `n`,
most-significant first (a 32-bit value has at most ten). -/
def std_to_string (n : Nat) : List Char := ((dec_digits 10 n).reverse).map digit_char

/-- The `while` loop of `to_string`; `s` is built least-significant digit first.
`none`: the loop was still running when the step budget ran out. -/
def to_string_loop : Nat → big_integer → List Char → Option (Except Err (List Char))
  | 0, tmp_integer, s =>
    if ne tmp_integer (of_long_long 0) || s.isEmpty then none else some (.ok s)
  | fuel + 1, tmp_integer, s =>
    if ne tmp_integer (of_long_long 0) || s.isEmpty then
      match modulo tmp_integer (of_unsigned_long_long INT_MOD) with
      | .error e => some (.error e)
      | .ok reminder =>
        let reminder_uint := if length reminder != 0 then reminder._data.headD 0 else 0
        match divide tmp_integer (of_unsigned_long_long INT_MOD) with
        | .error e => some (.error e)
        | .ok tmp_integer =>
          let str_to_add := (std_to_string reminder_uint).reverse
          let str_to_add :=
            if ne tmp_integer (of_long_long 0) then
              str_to_add ++ List.replicate (DIGITS_CNT - str_to_add.length) '0'
            else str_to_add
          to_string_loop fuel tmp_integer (s ++ str_to_add)
    else some (.ok s)

/-- Function `to_string(a)`, run for at most `fuel` iterations of its loop. -/
def to_string (fuel : Nat) (a : big_integer) : Option (Except Err (List Char)) :=
  match to_string_loop fuel a [] with
  | some (.ok s) => some (.ok ((if a._sign && !eq_zero a then s ++ ['-'] else s).reverse))
  | r => r

/-! ## Unary operators, increment and decrement -/

/-- Unary `operator-`: a copy with the sign flag flipped. -/
def negate (a : big_integer) : big_integer := ⟨a._data, !a._sign⟩

/-- Loop of `operator++` in its `!_sign` branch, on the limbs from index `i` upward.
`_data[i] + carry` adds two `uint32_t` values, so the sum is taken modulo `2 ^ 32`
before it is widened to the `uint64_t sum`.  Returns the limbs and the final `carry`. -/
def increment_loop : List Nat → Nat → List Nat × Nat
  | [], carry => ([], carry)
  | x :: xs, carry =>
    if carry > 0 then
      let sum := (x + carry) % BASE
      let r := increment_loop xs (ui_cast (sum >>> EXP))
      (ui_cast sum :: r.1, r.2)
    else (x :: xs, carry)

/-- The `!_sign` branch of `operator++`. -/
def increment_nonneg (a : big_integer) : big_integer :=
  let r := increment_loop a._data 1
  ⟨if r.2 > 0 then r.1 ++ [ui_cast r.2] else r.1, a._sign⟩

/-- Loop of `operator--` in its `!_sign`, non-zero branch; `_data[i] - carry` is a
`uint32_t` difference, taken modulo `2 ^ 32` before it is widened. -/
def decrement_loop : List Nat → Nat → List Nat
  | [], _ => []
  | x :: xs, carry =>
    if carry > 0 then
      let sum := (x + BASE - carry) % BASE
      ui_cast sum :: decrement_loop xs (ui_cast (sum >>> EXP))
    else x :: xs

/-- The `!_sign` branch of `operator--`. -/
def decrement_nonneg (a : big_integer) : big_integer :=
  if eq_zero a then trim ⟨a._data ++ [1], true⟩
  else trim ⟨decrement_loop a._data 1, a._sign⟩

/-- Pre-increment `operator++()`.  On a negative value it clears the sign and calls
`operator--`, which then runs its `!_sign` branch. -/
def increment (a : big_integer) : big_integer :=
  if !a._sign then increment_nonneg a
  else
    let t := decrement_nonneg ⟨a._data, false⟩
    if !eq_zero t then ⟨t._data, true⟩ else t

/-- Pre-decrement `operator--()`.  On a negative value it clears the sign and calls
`operator++`, which then runs its `!_sign` branch. -/
def decrement (a : big_integer) : big_integer :=
  if !a._sign then decrement_nonneg a
  else
    let t := increment_nonneg ⟨a._data, false⟩
    ⟨t._data, true⟩

/-- Post-increment `operator++(int)`: the returned copy and the new value of `*this`. -/
def post_increment (a : big_integer) : big_integer × big_integer := (a, increment a)

/-- Post-decrement `operator--(int)`: the returned copy and the new value of `*this`. -/
def post_decrement (a : big_integer) : big_integer × big_integer := (a, decrement a)

/-! ## Bitwise operators and shifts -/

/-- Operator `~`: a copy with the sign flag flipped, then `--` on it. -/
def complement (a : big_integer) : big_integer := decrement ⟨a._data, !a._sign⟩

/-- Static `bit_negation(a)`: every limb is replaced by its 32-bit complement `~i`,
then `--a` when the sign flag is set and `++a` otherwise. -/
def bit_negation (a : big_integer) : big_integer :=
  let inverted : big_integer := ⟨a._data.map (fun i => UINT32_MAX - i), a._sign⟩
  if a._sign then decrement inverted else increment inverted

/-- Call `std::vector::resize(n)`: cut to `n` limbs, or pad with zero limbs. -/
def resize (d : List Nat) (n : Nat) : List Nat :=
  d.take n ++ List.replicate (n - d.length) 0

/-- Loop of `bit_operation`:
`for (i = 0; i < len; i++) _data[i] = operation(_data[i], (i < b.length()) ? b[i] : 0)`.
The first argument counts the iterations left; the lists are the limbs of `*this` and
of `b` from index `i` upward.  No limb of `*this` left means `i` is past its end. -/
def bit_operation_loop (operation : Nat → Nat → Nat) :
    Nat → List Nat → List Nat → Except Err (List Nat)
  | 0, data, _ => .ok data
  | _ + 1, [], _ => .error .out_of_bounds
  | n + 1, x :: xs, b =>
    match bit_operation_loop operation n xs b.tail with
    | .ok rest => .ok (operation x (b.headD 0) :: rest)
    | .error e => .error e

/-- Template `bit_operation<Operation>(rhs)`.  Only `*this` is resized to the common
length before its conversion; `b`, the copy of `rhs`, keeps its own length and the loop
reads `0` for the limbs it lacks.  The sign flags are combined as the integers 0 and 1. -/
def bit_operation (operation : Nat → Nat → Nat) (self rhs : big_integer) :
    Except Err big_integer :=
  let len := max (length self) (length rhs)
  let resized : big_integer := ⟨resize self._data len, self._sign⟩
  let converted := if resized._sign then bit_negation resized else resized
  let b := if rhs._sign then bit_negation rhs else rhs
  match bit_operation_loop operation len converted._data b._data with
  | .error e => .error e
  | .ok data =>
    let sign := operation (if converted._sign then 1 else 0) (if rhs._sign then 1 else 0) != 0
    let combined : big_integer := ⟨data, sign⟩
    .ok (trim (if sign then bit_negation combined else combined))

/-- Operator `&` (`operator&=` on a copy, with `std::bit_and<uint32_t>`). -/
def bit_and (a b : big_integer) : Except Err big_integer := bit_operation Nat.land a b

/-- Operator `|` (`operator|=` on a copy, with `std::bit_or<uint32_t>`). -/
def bit_or (a b : big_integer) : Except Err big_integer := bit_operation Nat.lor a b

/-- Operator `^` (`operator^=` on a copy, with `std::bit_xor<uint32_t>`). -/
def bit_xor (a b : big_integer) : Except Err big_integer := bit_operation Nat.xor a b

/-- First loop of `operator<<=`, for the loop variable running from the first argument
down to 1; both shifts act on `uint32_t`, so the left shift is taken modulo `2 ^ 32`.
After `resize(length() + big_shift + 1)` every index used is below the vector size. -/
def shl_loop (big_shift small_shift : Nat) : Nat → List Nat → List Nat
  | 0, data => data
  | i + 1, data =>
    let data := data.set (i + 1 + big_shift)
      (data.getD (i + 1 + big_shift) 0 |||
        (data.getD i 0 >>> min (EXP - 1) (EXP - small_shift)))
    let data := data.set (i + 1 + big_shift - 1) ((data.getD i 0 <<< small_shift) % BASE)
    shl_loop big_shift small_shift i data

/-- Second loop of `operator<<=`: `for (i = big_shift; i > 0; i--) _data[i - 1] = 0`. -/
def shl_clear : Nat → List Nat → List Nat
  | 0, data => data
  | i + 1, data => shl_clear i (data.set i 0)

/-- Operator `<<` (`operator<<=` on a copy) for a shift count `rhs ≥ 0`. -/
def shl (a : big_integer) (rhs : Nat) : big_integer :=
  let size := length a
  let big_shift := rhs / EXP
  let small_shift := rhs % EXP
  let data := resize a._data (length a + big_shift + 1)
  let data := shl_loop big_shift small_shift size data
  let data := shl_clear big_shift data
  trim ⟨data, a._sign⟩

/-- Loop of `operator>>=`; the fourth argument counts the iterations left, the fifth is
the loop variable `i`.  The read `_data[i + big_shift]` is checked against the vector
size; the write to `_data[i]` is then in range as well. -/
def shr_loop (big_shift small_shift complete : Nat) :
    Nat → Nat → List Nat → Except Err (List Nat)
  | 0, _, data => .ok data
  | n + 1, i, data =>
    match rd data (i + big_shift) with
    | .error e => .error e
    | .ok x =>
      let data := data.set i (x >>> small_shift)
      let next :=
        if i + big_shift + 1 < data.length then data.getD (i + big_shift + 1) 0 else complete
      let data := data.set i
        (data.getD i 0 ||| ((next <<< min (EXP - 1) (EXP - small_shift)) % BASE))
      shr_loop big_shift small_shift complete n (i + 1) data

/-- Operator `>>` (`operator>>=` on a copy) for a shift count `rhs ≥ 0`.  The bound
`size - big_shift` of the loop and of the final `resize` is a `size_t` difference: it
wraps around modulo `2 ^ 64` when `big_shift` exceeds `size`. -/
def shr (a : big_integer) (rhs : Nat) : Except Err big_integer :=
  let size := length a
  let converted := if a._sign then bit_negation a else a
  let big_shift := rhs / EXP
  let small_shift := rhs % EXP
  let complete := if converted._sign then ui_cast (BASE - 1) else 0
  let bound := if big_shift ≤ size then size - big_shift else size + U64 - big_shift
  match shr_loop big_shift small_shift complete bound 0 converted._data with
  | .error e => .error e
  | .ok data =>
    let shifted : big_integer := ⟨resize data bound, converted._sign⟩
    .ok (trim (if shifted._sign then bit_negation shifted else shifted))

/-- The expression `~(a & b) == ((~a) | (~b))`. -/
def de_morgan_law (a b : big_integer) : Except Err Bool := do
  let x ← bit_and a b
  let y ← bit_or (complement a) (complement b)
  pure (eq (complement x) y)

/-- The expression `((a << k) >> k) == a`. -/
def shift_law (a : big_integer) (k : Nat) : Except Err Bool := do
  let r ← shr (shl a k) k
  pure (eq r a)

/-! ## The integer a representation stands for -/

/-- The magnitude of a limb vector: base `2 ^ 32`, least-significant limb first. -/
def mag : List Nat → Nat
  | [] => 0
  | x :: xs => x + BASE * mag xs

/-- The integer value of a big integer. -/
def value (a : big_integer) : Int :=
  if a._sign then -(mag a._data : Int) else (mag a._data : Int)

/-- Every limb fits a `uint32_t`. -/
def limbs_ok (d : List Nat) : Prop := ∀ x ∈ d, x < BASE

instance (d : List Nat) : Decidable (limbs_ok d) := by
  unfold limbs_ok; infer_instance

/-- The normalization invariant: 32-bit limbs, no most-significant zero limb. -/
def normalized (a : big_integer) : Prop :=
  limbs_ok a._data ∧ a._data.getLast? ≠ some 0

instance (a : big_integer) : Decidable (normalized a) := by
  unfold normalized; infer_instance

/-! ## What a decimal text denotes -/

/-- A decimal digit character. -/
def is_digit (c : Char) : Prop := '0' ≤ c ∧ c ≤ '9'

instance (c : Char) : Decidable (is_digit c) := by
  unfold is_digit; infer_instance

/-- The number a digit string denotes in base 10, most-significant digit first. -/
def decimal_value (cs : List Char) : Nat :=
  cs.foldl (fun acc c => acc * 10 + (c.toNat - 48)) 0

/-- The digits of a numeral: the text without its leading minus sign, if it has one. -/
def digits_of (s : List Char) : List Char :=
  if s.head? = some '-' then s.tail else s

/-- Well-formed decimal text: an optional leading `-`, then one or more digits. -/
def well_formed (s : List Char) : Prop :=
  digits_of s ≠ [] ∧ ∀ c ∈ digits_of s, is_digit c

instance (s : List Char) : Decidable (well_formed s) := by
  unfold well_formed; infer_instance

/-- The integer a well-formed decimal text denotes. -/
def denoted (s : List Char) : Int :=
  if s.head? = some '-' then -(decimal_value (digits_of s) : Int)
  else (decimal_value (digits_of s) : Int)

/-- Canonical decimal text of `n`: digits only, at least one, no leading zero unless
the text is `0`, denoting `n`. -/
def canonical_decimal (s : List Char) (n : Nat) : Prop :=
  s ≠ [] ∧ (∀ c ∈ s, is_digit c) ∧ (s.head? = some '0' → s = ['0']) ∧ decimal_value s = n

theorem mag_append (l1 l2 : List Nat) :
    mag (l1 ++ l2) = mag l1 + BASE ^ l1.length * mag l2 := by
  induction l1 with
  | nil => simp [mag]
  | cons x xs ih =>
    show x + BASE * mag (xs ++ l2) = x + BASE * mag xs + BASE ^ (xs.length + 1) * mag l2
    rw [ih, pow_succ]
    ring

theorem limbs_ok_cons {x : Nat} {xs : List Nat} :
    limbs_ok (x :: xs) ↔ x < BASE ∧ limbs_ok xs := by
  simp [limbs_ok]

theorem limbs_ok_nil : limbs_ok [] := by simp [limbs_ok]

theorem limbs_ok_append {l1 l2 : List Nat} :
    limbs_ok (l1 ++ l2) ↔ limbs_ok l1 ∧ limbs_ok l2 := by
  simp only [limbs_ok, List.mem_append]
  constructor
  · intro h; exact ⟨fun x hx => h x (Or.inl hx), fun x hx => h x (Or.inr hx)⟩
  · rintro ⟨h1, h2⟩ x (hx | hx)
    · exact h1 x hx
    · exact h2 x hx

theorem mag_lt (l : List Nat) (h : limbs_ok l) : mag l < BASE ^ l.length := by
  induction l with
  | nil => simp [mag]
  | cons x xs ih =>
    rw [limbs_ok_cons] at h
    have h1 := ih h.2
    have h2 := h.1
    simp only [mag, List.length_cons, pow_succ]
    generalize BASE ^ xs.length = P at *
    simp only [BASE] at *
    omega

theorem mag_trim_data (d : List Nat) : mag (trim_data d) = mag d := by
  induction d using List.reverseRecOn with
  | nil => rfl
  | append_singleton l x ih =>
    unfold trim_data at *
    rw [List.rdropWhile_concat]
    split
    · rename_i h
      have hx : x = 0 := by simpa using h
      subst hx
      rw [ih, mag_append]
      simp [mag]
    · rfl

theorem limbs_ok_trim_data (d : List Nat) (h : limbs_ok d) : limbs_ok (trim_data d) := by
  intro x hx
  exact h x ((List.rdropWhile_prefix (fun x => x == 0) d).subset hx)

theorem getLast_trim_data (d : List Nat) : (trim_data d).getLast? ≠ some 0 := by
  intro h
  have hne : trim_data d ≠ [] := by
    intro h0; rw [h0] at h; simp at h
  have := List.rdropWhile_last_not (fun x => x == 0) d hne
  rw [List.getLast?_eq_getLast _ hne] at h
  simp only [Option.some.injEq] at h
  unfold trim_data at h
  rw [h] at this
  simp at this

theorem trim_data_of_normal (d : List Nat) (h : d.getLast? ≠ some 0) : trim_data d = d := by
  unfold trim_data
  rw [List.rdropWhile_eq_self_iff]
  intro hl hp
  apply h
  rw [List.getLast?_eq_getLast _ hl]
  simpa using hp

theorem length_trim_data_le (d : List Nat) : (trim_data d).length ≤ d.length :=
  (List.rdropWhile_prefix (fun x => x == 0) d).length_le

/-! ## Limb addition and subtraction -/

theorem add_two_spec (x carry r : Nat) (hx : x < BASE) (hr : r < BASE) (hc : carry ≤ 1) :
    (add (add x carry).1 r).1 + BASE * max (add (add x carry).1 r).2 (add x carry).2
        = x + carry + r
      ∧ max (add (add x carry).1 r).2 (add x carry).2 ≤ 1
      ∧ (add (add x carry).1 r).1 < BASE := by
  simp only [add, BASE, UINT32_MAX] at *
  split_ifs <;> omega

theorem add_one_spec (x carry : Nat) (hx : x < BASE) (hc : carry ≤ 1) :
    (add x carry).1 + BASE * max (add x carry).2 (add x carry).2 = x + carry
      ∧ max (add x carry).2 (add x carry).2 ≤ 1 ∧ (add x carry).1 < BASE := by
  simp only [add, BASE, UINT32_MAX] at *
  split_ifs <;> omega

theorem add_in_pos_grow_spec (rhs : List Nat) (hr : limbs_ok rhs) :
    ∀ carry, carry ≤ 1 →
      mag (add_in_pos_grow false rhs carry) = mag rhs + carry
        ∧ limbs_ok (add_in_pos_grow false rhs carry) := by
  induction rhs with
  | nil =>
    intro carry hc
    have : carry = 0 ∨ carry = 1 := by omega
    rcases this with rfl | rfl <;> simp [add_in_pos_grow, mag, limbs_ok, add]
  | cons r rs ih =>
    intro carry hc
    rw [limbs_ok_cons] at hr
    obtain ⟨h1, h2, h3⟩ := add_two_spec 0 carry r (by simp [BASE]) hr.1 hc
    obtain ⟨ih1, ih2⟩ := ih hr.2 _ h2
    simp only [add_in_pos_grow, mag, ih1, limbs_ok_cons]
    refine ⟨?_, h3, ih2⟩
    simp only [BASE] at *
    omega

theorem add_in_pos_loop_spec (lhs : List Nat) :
    ∀ rhs carry, limbs_ok lhs → limbs_ok rhs → carry ≤ 1 →
      mag (add_in_pos_loop false lhs rhs carry) = mag lhs + mag rhs + carry
        ∧ limbs_ok (add_in_pos_loop false lhs rhs carry) := by
  induction lhs with
  | nil =>
    intro rhs carry _ hr hc
    have := add_in_pos_grow_spec rhs hr carry hc
    simpa [add_in_pos_loop, mag] using this
  | cons x xs ih =>
    intro rhs carry hl hr hc
    rw [limbs_ok_cons] at hl
    cases rhs with
    | nil =>
      by_cases h0 : carry = 0
      · subst h0
        simp [add_in_pos_loop, mag, limbs_ok_cons, hl.1, hl.2]
      · obtain ⟨h1, h2, h3⟩ := add_one_spec x carry hl.1 hc
        obtain ⟨ih1, ih2⟩ := ih [] _ hl.2 limbs_ok_nil h2
        simp only [add_in_pos_loop, ne_eq, not_true_eq_false, false_or, bne_iff_ne, h0,
          not_false_eq_true, Bool.not_false, Bool.and_true, decide_True, if_true, List.tail_nil,
          mag, ih1, limbs_ok_cons]
        refine ⟨?_, h3, ih2⟩
        simp only [mag, BASE] at *
        omega
    | cons r rs =>
      rw [limbs_ok_cons] at hr
      obtain ⟨h1, h2, h3⟩ := add_two_spec x carry r hl.1 hr.1 hc
      obtain ⟨ih1, ih2⟩ := ih rs _ hl.2 hr.2 h2
      simp only [add_in_pos_loop, ne_eq, reduceCtorEq, not_false_eq_true, true_or, if_true,
        List.tail_cons, mag, ih1, limbs_ok_cons]
      refine ⟨?_, h3, ih2⟩
      simp only [BASE] at *
      omega

theorem add_in_pos_zero (lhs rhs : List Nat) :
    add_in_pos false lhs rhs 0 = .ok (add_in_pos_loop false lhs rhs 0) := by
  simp [add_in_pos]

theorem sub_two_spec (x carry r : Nat) (hx : x < BASE) (hr : r < BASE) (hc : carry ≤ 1) :
    (sub (sub x carry).1 r).1 + carry + r
        = x + BASE * max (sub (sub x carry).1 r).2 (sub x carry).2
      ∧ max (sub (sub x carry).1 r).2 (sub x carry).2 ≤ 1
      ∧ (sub (sub x carry).1 r).1 < BASE := by
  simp only [sub, BASE] at *
  split_ifs <;> omega

theorem sub_one_spec (x carry : Nat) (hx : x < BASE) (hc : carry ≤ 1) :
    (sub x carry).1 + carry = x + BASE * max (sub x carry).2 (sub x carry).2
      ∧ max (sub x carry).2 (sub x carry).2 ≤ 1 ∧ (sub x carry).1 < BASE := by
  simp only [sub, BASE] at *
  split_ifs <;> omega

theorem sub_in_pos_loop_spec (lhs : List Nat) :
    ∀ rhs carry, limbs_ok lhs → limbs_ok rhs → carry ≤ 1 → rhs.length ≤ lhs.length →
      mag rhs + carry ≤ mag lhs →
      ∃ res, sub_in_pos_loop lhs rhs carry = .ok (res, 0)
        ∧ mag res + mag rhs + carry = mag lhs ∧ limbs_ok res ∧ res.length = lhs.length := by
  induction lhs with
  | nil =>
    intro rhs carry _ _ _ hlen hle
    have hr : rhs = [] := by simpa using hlen
    subst hr
    simp only [mag] at hle
    have hc0 : carry = 0 := by omega
    subst hc0
    exact ⟨[], by simp [sub_in_pos_loop], by simp [mag], limbs_ok_nil, rfl⟩
  | cons x xs ih =>
    intro rhs carry hl hr hc hlen hle
    rw [limbs_ok_cons] at hl
    cases rhs with
    | nil =>
      by_cases h0 : carry = 0
      · subst h0
        exact ⟨x :: xs, by simp [sub_in_pos_loop], by simp [mag],
          limbs_ok_cons.2 hl, rfl⟩
      · obtain ⟨h1, h2, h3⟩ := sub_one_spec x carry hl.1 hc
        have hle' : mag ([] : List Nat) + max (sub x carry).2 (sub x carry).2 ≤ mag xs := by
          simp only [mag, BASE] at *
          omega
        obtain ⟨res, e, hm, hok, hlen'⟩ := ih [] _ hl.2 limbs_ok_nil h2 (by simp) hle'
        refine ⟨(sub x carry).1 :: res, ?_, ?_, limbs_ok_cons.2 ⟨h3, hok⟩, by simp [hlen']⟩
        · have hpos : carry > 0 := by omega
          simp only [sub_in_pos_loop, ne_eq, not_true_eq_false, hpos, or_true, if_true,
            List.tail_nil, e]
        · simp only [mag, BASE] at *
          omega
    | cons r rs =>
      rw [limbs_ok_cons] at hr
      obtain ⟨h1, h2, h3⟩ := sub_two_spec x carry r hl.1 hr.1 hc
      have hle' : mag rs + max (sub (sub x carry).1 r).2 (sub x carry).2 ≤ mag xs := by
        simp only [mag, BASE] at *
        omega
      obtain ⟨res, e, hm, hok, hlen'⟩ :=
        ih rs _ hl.2 hr.2 h2 (by simpa using hlen) hle'
      refine ⟨(sub (sub x carry).1 r).1 :: res, ?_, ?_, limbs_ok_cons.2 ⟨h3, hok⟩,
        by simp [hlen']⟩
      · simp only [sub_in_pos_loop, ne_eq, reduceCtorEq, not_false_eq_true, true_or, if_true,
          List.tail_cons, e]
      · simp only [mag, BASE] at *
        omega

/-! ## Magnitude comparison -/

theorem mag_ge_of_normal (d : List Nat) (hne : d ≠ []) (h : d.getLast? ≠ some 0) :
    BASE ^ (d.length - 1) ≤ mag d := by
  induction d using List.reverseRecOn with
  | nil => exact absurd rfl hne
  | append_singleton l x _ =>
    rw [List.getLast?_concat] at h
    have hx : 1 ≤ x := by
      rcases Nat.eq_zero_or_pos x with h0 | h0
      · exact absurd (by rw [h0]) h
      · exact h0
    rw [mag_append]
    simp only [List.length_append, List.length_singleton, Nat.add_sub_cancel, mag, mul_zero,
      add_zero]
    calc BASE ^ l.length = BASE ^ l.length * 1 := by ring
      _ ≤ BASE ^ l.length * x := Nat.mul_le_mul_left _ hx
      _ ≤ mag l + BASE ^ l.length * x := Nat.le_add_left _ _

theorem length_le_of_mag_le (a b : List Nat) (ha : limbs_ok a)
    (hb : b.getLast? ≠ some 0) (h : mag b ≤ mag a) : b.length ≤ a.length := by
  by_contra hlt
  have hlt : a.length < b.length := by omega
  have hbne : b ≠ [] := by
    intro h0; rw [h0] at hlt; simp at hlt
  have h1 := mag_lt a ha
  have h2 := mag_ge_of_normal b hbne hb
  have h3 : BASE ^ a.length ≤ BASE ^ (b.length - 1) :=
    Nat.pow_le_pow_right (by simp [BASE]) (by omega)
  omega

theorem cmp_top (P A B x y : Nat) (hA : A < P) (hB : B < P) (hxy : x ≠ y) :
    (B + P * y ≤ A + P * x) ↔ y < x := by
  constructor
  · intro h
    by_contra hc
    have hlt : x + 1 ≤ y := by omega
    have := Nat.mul_le_mul_left P hlt
    rw [Nat.mul_succ] at this
    omega
  · intro h
    have hlt : y + 1 ≤ x := h
    have := Nat.mul_le_mul_left P hlt
    rw [Nat.mul_succ] at this
    omega

theorem mag_take_succ (a : List Nat) (i : Nat) (hi : i < a.length) :
    mag (a.take (i + 1)) = mag (a.take i) + BASE ^ i * a.getD i 0 := by
  rw [List.take_succ, mag_append, List.length_take, Nat.min_eq_left (le_of_lt hi)]
  simp [List.getD_eq_getElem?_getD, List.getElem?_eq_getElem hi, mag]

theorem abs_great_or_eq_loop_spec (a b : List Nat) (ha : limbs_ok a) (hb : limbs_ok b) :
    ∀ i, i ≤ a.length → i ≤ b.length →
      abs_great_or_eq_loop a b i = decide (mag (b.take i) ≤ mag (a.take i)) := by
  intro i
  induction i with
  | zero => intro _ _; simp [abs_great_or_eq_loop, mag]
  | succ i ih =>
    intro hia hib
    have hA : mag (a.take i) < BASE ^ i := by
      have := mag_lt (a.take i) (fun x hx => ha x (List.mem_of_mem_take hx))
      rwa [List.length_take, Nat.min_eq_left (by omega)] at this
    have hB : mag (b.take i) < BASE ^ i := by
      have := mag_lt (b.take i) (fun x hx => hb x (List.mem_of_mem_take hx))
      rwa [List.length_take, Nat.min_eq_left (by omega)] at this
    rw [mag_take_succ a i (by omega), mag_take_succ b i (by omega)]
    simp only [abs_great_or_eq_loop]
    by_cases hxy : a.getD i 0 = b.getD i 0
    · rw [ih (by omega) (by omega)]
      simp only [hxy, bne_self_eq_false, Bool.false_eq_true, if_false,
        Nat.add_le_add_iff_right]
    · have := cmp_top (BASE ^ i) _ _ _ _ hA hB hxy
      simp only [bne_iff_ne, ne_eq, hxy, not_false_eq_true, if_true, gt_iff_lt]
      exact decide_eq_decide.2 this.symm

theorem abs_great_or_eq_spec (a b : big_integer) (ha : normalized a) (hb : normalized b) :
    abs_great_or_eq a b = decide (mag b._data ≤ mag a._data) := by
  unfold abs_great_or_eq length
  by_cases hlen : a._data.length = b._data.length
  · simp only [hlen, bne_self_eq_false, Bool.false_eq_true, if_false]
    have := abs_great_or_eq_loop_spec a._data b._data ha.1 hb.1 b._data.length
      (by omega) (by omega)
    rw [this]
    conv_lhs => rw [← hlen, List.take_length, hlen, List.take_length]
  · simp only [bne_iff_ne, ne_eq, hlen, not_false_eq_true, if_true, gt_iff_lt]
    apply decide_eq_decide.2
    constructor
    · intro hlt
      by_contra hc
      have := length_le_of_mag_le b._data a._data hb.1 ha.2 (by omega)
      omega
    · intro hle
      have := length_le_of_mag_le a._data b._data ha.1 hb.2 hle
      omega

theorem abs_great_or_eq_loop_swap (a b : List Nat) :
    ∀ i, abs_great_or_eq_loop a b i = false → abs_great_or_eq_loop b a i = true := by
  intro i
  induction i with
  | zero => intro h; simp [abs_great_or_eq_loop] at h
  | succ i ih =>
    intro h
    simp only [abs_great_or_eq_loop] at h ⊢
    by_cases hxy : a.getD i 0 = b.getD i 0
    · simp only [hxy, bne_self_eq_false, Bool.false_eq_true, if_false] at h ⊢
      exact ih h
    · have hyx : ¬ b.getD i 0 = a.getD i 0 := fun e => hxy e.symm
      simp only [bne_iff_ne, ne_eq, hxy, hyx, not_false_eq_true, if_true, gt_iff_lt,
        decide_eq_false_iff_not, decide_eq_true_eq] at h ⊢
      omega

/-- The recursive call of `sub_with_ignore` on the swapped operands takes the
in-place branch: when `a.abs_great_or_eq(b)` fails, `b.abs_great_or_eq(a)` holds. -/
theorem abs_great_or_eq_swap (a b : big_integer) (h : abs_great_or_eq a b = false) :
    abs_great_or_eq b a = true := by
  unfold abs_great_or_eq at h ⊢
  by_cases hlen : length a = length b
  · simp only [hlen, bne_self_eq_false, Bool.false_eq_true, if_false] at h ⊢
    exact abs_great_or_eq_loop_swap _ _ _ h
  · have hlen' : ¬ length b = length a := fun e => hlen e.symm
    simp only [bne_iff_ne, ne_eq, hlen, hlen', not_false_eq_true, if_true, gt_iff_lt,
      decide_eq_false_iff_not, decide_eq_true_eq] at h ⊢
    omega

/-! ## Sign-aware addition and subtraction -/

theorem trim_normalized (a : big_integer) (h : limbs_ok a._data) : normalized (trim a) :=
  ⟨limbs_ok_trim_data _ h, getLast_trim_data _⟩

theorem add_abs_spec (a b : big_integer) (ha : limbs_ok a._data) (hb : limbs_ok b._data) :
    ∃ r, add_abs a b = .ok r ∧ r._sign = a._sign
      ∧ mag r._data = mag a._data + mag b._data ∧ normalized r := by
  obtain ⟨h1, h2⟩ := add_in_pos_loop_spec a._data b._data 0 ha hb (by omega)
  refine ⟨trim ⟨add_in_pos_loop false a._data b._data 0, a._sign⟩, ?_, rfl, ?_, ?_⟩
  · simp [add_abs, add_in_pos_zero]
  · simp only [trim, mag_trim_data, h1, add_zero]
  · exact trim_normalized _ h2

theorem sub_abs_ge_spec (a b : big_integer) (ha : limbs_ok a._data) (hb : limbs_ok b._data)
    (hlen : b._data.length ≤ a._data.length) (hle : mag b._data ≤ mag a._data) :
    ∃ r, sub_abs_ge a b = .ok r ∧ r._sign = a._sign
      ∧ mag r._data + mag b._data = mag a._data ∧ normalized r := by
  obtain ⟨res, e, hm, hok, _⟩ :=
    sub_in_pos_loop_spec a._data b._data 0 ha hb (by omega) hlen (by omega)
  refine ⟨trim ⟨res, a._sign⟩, ?_, rfl, ?_, trim_normalized _ hok⟩
  · simp [sub_abs_ge, sub_in_pos, e]
  · simp only [trim, mag_trim_data]
    omega

theorem sub_abs_spec (ign : Bool) (a b : big_integer) (ha : normalized a) (hb : normalized b) :
    ∃ r, sub_abs ign a b = .ok r ∧ normalized r
      ∧ ((mag b._data ≤ mag a._data ∧ r._sign = a._sign
            ∧ mag r._data + mag b._data = mag a._data)
        ∨ (mag a._data < mag b._data ∧ r._sign = xor b._sign (!ign)
            ∧ mag r._data + mag a._data = mag b._data)) := by
  unfold sub_abs
  rw [abs_great_or_eq_spec a b ha hb]
  by_cases hle : mag b._data ≤ mag a._data
  · obtain ⟨r, e, hs, hm, hn⟩ := sub_abs_ge_spec a b ha.1 hb.1
      (length_le_of_mag_le _ _ ha.1 hb.2 hle) hle
    exact ⟨r, by simp [hle, e], hn, Or.inl ⟨hle, hs, hm⟩⟩
  · have hlt : mag a._data < mag b._data := by omega
    obtain ⟨r, e, hs, hm, hn⟩ := sub_abs_ge_spec b a hb.1 ha.1
      (length_le_of_mag_le _ _ hb.1 ha.2 (by omega)) (by omega)
    refine ⟨trim ⟨r._data, xor r._sign (!ign)⟩, by simp [hle, e], trim_normalized _ hn.1,
      Or.inr ⟨hlt, by simp [trim, hs], ?_⟩⟩
    simp only [trim, mag_trim_data]
    exact hm

theorem value_eq (r : big_integer) : value r =
    if r._sign then -(mag r._data : Int) else (mag r._data : Int) := rfl

theorem plus_spec (a b : big_integer) (ha : normalized a) (hb : normalized b) :
    ∃ r, plus a b = .ok r ∧ value r = value a + value b ∧ normalized r := by
  unfold plus add_with_ignore
  by_cases hs : a._sign = b._sign
  · obtain ⟨r, e, hsg, hm, hn⟩ := add_abs_spec a b ha.1 hb.1
    refine ⟨r, by simp [hs, e], ?_, hn⟩
    simp only [value_eq, hsg, hm, ← hs]
    split <;> push_cast <;> ring
  · obtain ⟨r, e, hn, h⟩ := sub_abs_spec true a b ha hb
    refine ⟨r, by simp [hs, e], ?_, hn⟩
    simp only [value_eq]
    rcases h with ⟨hle, hsg, hm⟩ | ⟨hlt, hsg, hm⟩
    · rw [hsg]
      cases hsa : a._sign <;> cases hsb : b._sign <;> simp_all <;> omega
    · simp only [Bool.not_true, Bool.xor_false] at hsg
      rw [hsg]
      cases hsa : a._sign <;> cases hsb : b._sign <;> simp_all <;> omega

theorem minus_spec (a b : big_integer) (ha : normalized a) (hb : normalized b) :
    ∃ r, minus a b = .ok r ∧ value r = value a - value b ∧ normalized r := by
  unfold minus sub_with_ignore
  by_cases hs : a._sign = b._sign
  · obtain ⟨r, e, hn, h⟩ := sub_abs_spec false a b ha hb
    refine ⟨r, by simp [hs, e], ?_, hn⟩
    simp only [value_eq]
    rcases h with ⟨hle, hsg, hm⟩ | ⟨hlt, hsg, hm⟩
    · rw [hsg]
      cases hsa : a._sign <;> cases hsb : b._sign <;> simp_all <;> omega
    · simp only [Bool.not_false, Bool.xor_true] at hsg
      rw [hsg]
      cases hsa : a._sign <;> cases hsb : b._sign <;> simp_all <;> omega
  · obtain ⟨r, e, hsg, hm, hn⟩ := add_abs_spec a b ha.1 hb.1
    refine ⟨r, by simp [hs, e], ?_, hn⟩
    simp only [value_eq, hsg, hm]
    cases hsa : a._sign <;> cases hsb : b._sign <;> simp_all
    omega

/-! ## Multiplication -/

theorem mag_replicate_zero (n : Nat) : mag (List.replicate n 0) = 0 := by
  induction n with
  | zero => rfl
  | succ n ih => simp [List.replicate_succ, mag, ih]

theorem limbs_ok_replicate_zero (n : Nat) : limbs_ok (List.replicate n 0) := by
  intro x hx
  rw [List.eq_of_mem_replicate hx]
  simp [BASE]

theorem limb_mul_le (a r : Nat) (ha : a < BASE) (hr : r < BASE) :
    a * r ≤ 18446744065119617025 := by
  have h1 : a ≤ 4294967295 := by simp only [BASE] at ha; omega
  have h2 : r ≤ 4294967295 := by simp only [BASE] at hr; omega
  calc a * r ≤ 4294967295 * 4294967295 := Nat.mul_le_mul h1 h2
    _ = 18446744065119617025 := by norm_num

theorem mul_row_spec (ai : Nat) (hai : ai < BASE) (res : List Nat) :
    ∀ rhs carry, limbs_ok res → limbs_ok rhs → carry < BASE → rhs.length ≤ res.length →
      mag res + ai * mag rhs + carry < BASE ^ res.length →
      ∃ out, mul_row ai res rhs carry = .ok out
        ∧ mag out = mag res + ai * mag rhs + carry ∧ limbs_ok out
        ∧ out.length = res.length := by
  induction res with
  | nil =>
    intro rhs carry _ _ _ hlen hlt
    have hr : rhs = [] := by simpa using hlen
    subst hr
    simp only [mag, List.length_nil, pow_zero] at hlt
    have hc0 : carry = 0 := by omega
    subst hc0
    exact ⟨[], by simp [mul_row], by simp [mag], limbs_ok_nil, rfl⟩
  | cons x xs ih =>
    intro rhs carry hres hrhs hc hlen hlt
    rw [limbs_ok_cons] at hres
    cases rhs with
    | nil =>
      by_cases h0 : carry = 0
      · subst h0
        exact ⟨x :: xs, by simp [mul_row], by simp [mag], limbs_ok_cons.2 hres, rfl⟩
      · have hx := hres.1
        have hcur : (x + ai * 0 + carry) % U64 = x + carry := by
          simp only [BASE, U64] at *
          omega
        have hlt' : mag xs + ai * mag ([] : List Nat) + (x + carry) / BASE
            < BASE ^ xs.length := by
          simp only [mag, List.length_cons, pow_succ, mul_zero, add_zero] at hlt ⊢
          generalize BASE ^ xs.length = P at *
          simp only [BASE] at *
          omega
        obtain ⟨out, e, hm, hok, hl⟩ := ih [] ((x + carry) / BASE) hres.2 limbs_ok_nil
          (by simp only [BASE] at *; omega) (by simp) hlt'
        refine ⟨(x + carry) % BASE :: out, ?_, ?_, limbs_ok_cons.2 ⟨?_, hok⟩, by simp [hl]⟩
        · have hpos : carry > 0 := by omega
          simp only [mul_row, ne_eq, not_true_eq_false, hpos, or_true, if_true,
            List.headD_nil, hcur, List.tail_nil, Nat.shiftRight_eq_div_pow, ui_cast]
          rw [show (2 : Nat) ^ EXP = BASE by norm_num [EXP, BASE], e]
        · simp only [mag, hm, mul_zero, add_zero]
          simp only [BASE]
          omega
        · exact Nat.mod_lt _ (by simp [BASE])
    | cons r rs =>
      rw [limbs_ok_cons] at hrhs
      have hx := hres.1
      have hr := hrhs.1
      have hprod := limb_mul_le ai r hai hr
      have hcur : (x + ai * r + carry) % U64 = x + ai * r + carry := by
        generalize ai * r = t at *
        simp only [BASE, U64] at *
        omega
      have hexp : ai * mag (r :: rs) = ai * r + BASE * (ai * mag rs) := by
        simp only [mag]; ring
      have hlt' : mag xs + ai * mag rs + (x + ai * r + carry) / BASE < BASE ^ xs.length := by
        rw [hexp] at hlt
        simp only [mag, List.length_cons, pow_succ] at hlt
        generalize BASE ^ xs.length = P at *
        generalize ai * r = t at *
        generalize ai * mag rs = M at *
        simp only [BASE] at *
        omega
      obtain ⟨out, e, hm, hok, hl⟩ := ih rs ((x + ai * r + carry) / BASE) hres.2 hrhs.2
        (by generalize ai * r = t at *; simp only [BASE] at *; omega)
        (by simpa using hlen) hlt'
      refine ⟨(x + ai * r + carry) % BASE :: out, ?_, ?_, limbs_ok_cons.2 ⟨?_, hok⟩,
        by simp [hl]⟩
      · simp only [mul_row, ne_eq, reduceCtorEq, not_false_eq_true, true_or, if_true,
          List.headD_cons, hcur, List.tail_cons, Nat.shiftRight_eq_div_pow, ui_cast]
        rw [show (2 : Nat) ^ EXP = BASE by norm_num [EXP, BASE], e]
      · rw [hexp]
        simp only [mag, hm]
        generalize ai * r = t at *
        generalize ai * mag rs = M at *
        simp only [BASE]
        omega
      · exact Nat.mod_lt _ (by simp [BASE])

theorem mul_rows_spec (as : List Nat) :
    ∀ rhs result, limbs_ok as → limbs_ok rhs → limbs_ok result →
      result.length = as.length + rhs.length → mag result < BASE ^ rhs.length →
      ∃ out, mul_rows as rhs result = .ok out
        ∧ mag out = mag result + mag as * mag rhs ∧ limbs_ok out := by
  induction as with
  | nil =>
    intro rhs result _ _ hres _ _
    exact ⟨result, by simp [mul_rows], by simp [mag], hres⟩
  | cons a as ih =>
    intro rhs result has hrhs hres hlen hlt
    rw [limbs_ok_cons] at has
    have hM := mag_lt rhs hrhs
    have hprod : a * mag rhs ≤ 4294967295 * mag rhs :=
      Nat.mul_le_mul_right _ (by have := has.1; simp only [BASE] at this; omega)
    have hpow : BASE ^ (rhs.length + 1) ≤ BASE ^ result.length :=
      Nat.pow_le_pow_right (by simp [BASE]) (by rw [hlen]; simp; omega)
    have hfit : mag result + a * mag rhs + 0 < BASE ^ result.length := by
      rw [pow_succ] at hpow
      generalize BASE ^ rhs.length = P at *
      generalize BASE ^ result.length = Q at *
      generalize a * mag rhs = t at *
      simp only [BASE] at *
      omega
    obtain ⟨row, e, hm, hok, hl⟩ := mul_row_spec a has.1 result rhs 0 hres hrhs
      (by simp [BASE]) (by rw [hlen]; omega) hfit
    cases row with
    | nil =>
      simp only [List.length_nil] at hl
      rw [hlen] at hl
      simp only [List.length_cons] at hl
      omega
    | cons d0 rest =>
      rw [limbs_ok_cons] at hok
      have hlen' : rest.length = as.length + rhs.length := by
        simp only [List.length_cons] at hl
        rw [hlen] at hl
        simp only [List.length_cons] at hl
        omega
      have hlt' : mag rest < BASE ^ rhs.length := by
        simp only [mag, add_zero] at hm
        generalize BASE ^ rhs.length = P at *
        generalize a * mag rhs = t at *
        have := hok.1
        simp only [BASE] at *
        omega
      obtain ⟨out, e2, hm2, hok2⟩ := ih rhs rest has.2 hrhs hok.2 hlen' hlt'
      refine ⟨d0 :: out, ?_, ?_, limbs_ok_cons.2 ⟨hok.1, hok2⟩⟩
      · simp [mul_rows, e, e2]
      · simp only [mag, add_zero] at hm
        have hexp : mag (a :: as) * mag rhs = a * mag rhs + BASE * (mag as * mag rhs) := by
          simp only [mag]; ring
        rw [hexp]
        simp only [mag, hm2]
        generalize a * mag rhs = t at *
        generalize mag as * mag rhs = M at *
        simp only [BASE] at *
        omega

theorem times_spec (a b : big_integer) (ha : limbs_ok a._data) (hb : limbs_ok b._data) :
    ∃ r, times a b = .ok r ∧ r._sign = xor a._sign b._sign
      ∧ mag r._data = mag a._data * mag b._data ∧ normalized r := by
  obtain ⟨out, e, hm, hok⟩ := mul_rows_spec a._data b._data
    (List.replicate (length a + length b) 0) ha hb (limbs_ok_replicate_zero _)
    (by simp [length]) (by rw [mag_replicate_zero]; exact Nat.pos_pow_of_pos _ (by simp [BASE]))
  refine ⟨trim ⟨out, xor a._sign b._sign⟩, by simp [times, e], rfl, ?_, trim_normalized _ hok⟩
  simp only [trim, mag_trim_data, hm, mag_replicate_zero, zero_add]

theorem times_value (a b : big_integer) (ha : limbs_ok a._data) (hb : limbs_ok b._data) :
    ∃ r, times a b = .ok r ∧ value r = value a * value b ∧ normalized r := by
  obtain ⟨r, e, hs, hm, hn⟩ := times_spec a b ha hb
  refine ⟨r, e, ?_, hn⟩
  simp only [value_eq, hs, hm]
  cases a._sign <;> cases b._sign <;> simp

/-! ## Multiplication and division by one limb -/

theorem mul_uint_loop_spec (b : Nat) (hb : b < BASE) (xs : List Nat) :
    ∀ carry, limbs_ok xs → carry < BASE →
      mag (mul_uint_loop b xs carry) = mag xs * b + carry
        ∧ limbs_ok (mul_uint_loop b xs carry) := by
  induction xs with
  | nil =>
    intro carry _ hc
    by_cases h0 : carry = 0
    · subst h0; simp [mul_uint_loop, mag, limbs_ok_nil]
    · have : carry % BASE = carry := Nat.mod_eq_of_lt hc
      simp [mul_uint_loop, h0, mag, ui_cast, this, limbs_ok, hc]
  | cons x xs ih =>
    intro carry hl hc
    rw [limbs_ok_cons] at hl
    have hprod := limb_mul_le x b hl.1 hb
    have htmp : (x * b + carry) % U64 = x * b + carry := by
      generalize x * b = t at *
      simp only [BASE, U64] at *
      omega
    have hcar : (x * b + carry) / BASE < BASE := by
      generalize x * b = t at *
      simp only [BASE] at *
      omega
    obtain ⟨ih1, ih2⟩ := ih ((x * b + carry) / BASE) hl.2 hcar
    simp only [mul_uint_loop, htmp, Nat.shiftRight_eq_div_pow, ui_cast]
    rw [show (2 : Nat) ^ EXP = BASE by norm_num [EXP, BASE]]
    refine ⟨?_, limbs_ok_cons.2 ⟨Nat.mod_lt _ (by simp [BASE]), ih2⟩⟩
    have hexp : mag (x :: xs) * b = x * b + BASE * (mag xs * b) := by
      simp only [mag]; ring
    rw [hexp]
    simp only [mag, ih1]
    generalize x * b = t at *
    generalize mag xs * b = M at *
    simp only [BASE]
    omega

theorem mul_uint_spec (a : big_integer) (b : Nat) (ha : limbs_ok a._data) (hb : b < BASE) :
    mag (mul_uint a b)._data = mag a._data * b ∧ limbs_ok (mul_uint a b)._data
      ∧ (mul_uint a b)._sign = false := by
  obtain ⟨h1, h2⟩ := mul_uint_loop_spec b hb a._data 0 ha (by simp [BASE])
  exact ⟨by simpa [mul_uint] using h1, h2, rfl⟩

theorem div_uint_loop_spec (rhs : Nat) (h0 : 0 < rhs) (hr : rhs < BASE) (xs : List Nat)
    (hl : limbs_ok xs) :
    ∃ q, div_uint_loop rhs xs = .ok (q, mag xs % rhs) ∧ mag q = mag xs / rhs
      ∧ limbs_ok q ∧ q.length = xs.length := by
  induction xs with
  | nil => exact ⟨[], by simp [div_uint_loop, mag], by simp [mag], limbs_ok_nil, rfl⟩
  | cons x xs ih =>
    rw [limbs_ok_cons] at hl
    obtain ⟨q, e, hq, hok, hlen⟩ := ih hl.2
    have hc : mag xs % rhs < rhs := Nat.mod_lt _ h0
    have hsplit : mag xs = rhs * mag q + mag xs % rhs := by
      rw [hq]; exact (Nat.div_add_mod _ _).symm
    set c := mag xs % rhs with hcdef
    have hcB : (c + 1) * BASE ≤ rhs * BASE := Nat.mul_le_mul_right _ hc
    have hcur_lt : x + c * BASE < rhs * BASE := by
      have := hl.1
      rw [Nat.add_mul] at hcB
      omega
    have hcur : (x + c * BASE) % U64 = x + c * BASE := by
      apply Nat.mod_eq_of_lt
      have : rhs * BASE ≤ BASE * BASE := Nat.mul_le_mul_right _ (le_of_lt hr)
      have h2 : BASE * BASE = U64 := by norm_num [BASE, U64]
      omega
    have hdig : (x + c * BASE) / rhs < BASE := by
      rw [Nat.div_lt_iff_lt_mul h0]
      rw [Nat.mul_comm BASE rhs]
      exact hcur_lt
    have hmag : mag (x :: xs) = (x + c * BASE) + rhs * (BASE * mag q) := by
      simp only [mag]
      rw [hsplit]
      ring
    refine ⟨(x + c * BASE) / rhs :: q, ?_, ?_, limbs_ok_cons.2 ⟨hdig, hok⟩, by simp [hlen]⟩
    · have hne : rhs ≠ 0 := by omega
      simp only [div_uint_loop, e, hne, if_false, hcur, Nat.mod_eq_of_lt hdig]
      rw [hmag, Nat.add_mul_mod_self_left]
    · rw [hmag, Nat.add_mul_div_left _ _ h0]
      simp only [mag]

theorem div_uint_spec (a : big_integer) (rhs : Nat) (h0 : 0 < rhs) (hr : rhs < BASE)
    (ha : limbs_ok a._data) :
    ∃ r, div_uint a rhs = .ok r ∧ r._sign = a._sign ∧ mag r._data = mag a._data / rhs
      ∧ normalized r := by
  obtain ⟨q, e, hq, hok, _⟩ := div_uint_loop_spec rhs h0 hr a._data ha
  refine ⟨trim ⟨q, a._sign⟩, by simp [div_uint, e], rfl, ?_, trim_normalized _ hok⟩
  simp only [trim, mag_trim_data, hq]

theorem of_unsigned_long_long_spec (n : Nat) (h : n < BASE) :
    mag (of_unsigned_long_long n)._data = n ∧ normalized (of_unsigned_long_long n)
      ∧ (of_unsigned_long_long n)._sign = false
      ∧ (of_unsigned_long_long n)._data = if n = 0 then [] else [n] := by
  have h1 : n % BASE = n := Nat.mod_eq_of_lt h
  have h2 : n >>> EXP = 0 := by
    rw [Nat.shiftRight_eq_div_pow]
    exact Nat.div_eq_of_lt (by simpa [EXP, BASE] using h)
  have hd : (of_unsigned_long_long n)._data = if n = 0 then [] else [n] := by
    simp only [of_unsigned_long_long, trim, ui_cast, h1, h2, Nat.zero_mod, trim_data]
    by_cases hn : n = 0
    · subst hn; simp [List.rdropWhile]
    · simp [List.rdropWhile, hn]
  refine ⟨?_, ⟨?_, ?_⟩, rfl, hd⟩
  · rw [hd]; split <;> simp_all [mag]
  · rw [hd]; split <;> simp_all [limbs_ok]
  · rw [hd]; split <;> simp_all

theorem exp_ten (k : Nat) (hk : k ≤ 9) : exp INT_BASE k = 10 ^ k := by
  interval_cases k <;> rfl

/-! ## Decimal digits -/

theorem is_digit_iff (c : Char) : is_digit c ↔ 48 ≤ c.toNat ∧ c.toNat ≤ 57 := by
  unfold is_digit
  rw [Char.le_def, Char.le_def, UInt32.le_def, UInt32.le_def]
  rfl

theorem not_digit_iff (c : Char) : (c < '0' ∨ '9' < c) ↔ ¬ is_digit c := by
  unfold is_digit
  rw [not_and_or, Char.not_le, Char.not_le]

theorem decimal_fold (cs : List Char) : ∀ acc,
    cs.foldl (fun acc c => acc * 10 + (c.toNat - 48)) acc
      = acc * 10 ^ cs.length + decimal_value cs := by
  induction cs with
  | nil => intro acc; simp [decimal_value]
  | cons c cs ih =>
    intro acc
    simp only [List.foldl_cons, decimal_value, List.length_cons, pow_succ]
    rw [ih, ih (0 * 10 + (c.toNat - 48))]
    ring

theorem decimal_value_cons (c : Char) (cs : List Char) :
    decimal_value (c :: cs) = (c.toNat - 48) * 10 ^ cs.length + decimal_value cs := by
  simp only [decimal_value, List.foldl_cons]
  rw [decimal_fold]
  simp [decimal_value]

theorem decimal_value_append (a b : List Char) :
    decimal_value (a ++ b) = decimal_value a * 10 ^ b.length + decimal_value b := by
  simp only [decimal_value, List.foldl_append]
  rw [decimal_fold]
  simp [decimal_value]

theorem decimal_value_lt (cs : List Char) (h : ∀ c ∈ cs, is_digit c) :
    decimal_value cs < 10 ^ cs.length := by
  induction cs with
  | nil => simp [decimal_value]
  | cons c cs ih =>
    have hc := (is_digit_iff c).1 (h c (List.mem_cons_self _ _))
    have := ih (fun x hx => h x (List.mem_cons_of_mem _ hx))
    rw [decimal_value_cons, List.length_cons, pow_succ]
    have h9 : c.toNat - 48 ≤ 9 := by omega
    have := Nat.mul_le_mul_right (10 ^ cs.length) h9
    omega

theorem parse_chunk_ok (cs : List Char) : ∀ tmp, (∀ c ∈ cs, is_digit c) →
    tmp * 10 ^ cs.length + decimal_value cs < BASE →
    parse_chunk cs tmp = .ok (tmp * 10 ^ cs.length + decimal_value cs) := by
  induction cs with
  | nil => intro tmp _ _; simp [parse_chunk, decimal_value]
  | cons c cs ih =>
    intro tmp h hlt
    have hd := h c (List.mem_cons_self _ _)
    have hc := (is_digit_iff c).1 hd
    have hnd : ¬ (c < '0' ∨ '9' < c) := by rw [not_digit_iff]; exact not_not.2 hd
    rw [decimal_value_cons, List.length_cons, pow_succ] at hlt
    have hpos : 1 ≤ 10 ^ cs.length := Nat.one_le_pow _ _ (by norm_num)
    have hstep : (tmp * 10 + (c.toNat - 48)) * 10 ^ cs.length + decimal_value cs < BASE := by
      have : (tmp * 10 + (c.toNat - 48)) * 10 ^ cs.length
          = tmp * (10 ^ cs.length * 10) + (c.toNat - 48) * 10 ^ cs.length := by ring
      omega
    have hsmall : tmp * 10 + (c.toNat - 48) < BASE := by
      have := Nat.mul_le_mul_left (tmp * 10 + (c.toNat - 48)) hpos
      omega
    have hmod : (tmp * INT_BASE % BASE + (c.toNat - '0'.toNat)) % BASE
        = tmp * 10 + (c.toNat - 48) := by
      have h48 : '0'.toNat = 48 := rfl
      rw [h48]
      simp only [INT_BASE, BASE] at *
      omega
    simp only [parse_chunk, hnd, if_false, hmod]
    rw [ih _ (fun x hx => h x (List.mem_cons_of_mem _ hx)) hstep, decimal_value_cons,
      List.length_cons, pow_succ]
    congr 1
    ring

theorem parse_chunk_bad (cs : List Char) : ∀ tmp, (∃ c ∈ cs, ¬ is_digit c) →
    parse_chunk cs tmp = .error .invalid_argument := by
  induction cs with
  | nil => intro tmp h; obtain ⟨c, hc, _⟩ := h; simp at hc
  | cons c cs ih =>
    intro tmp h
    by_cases hd : is_digit c
    · have hnd : ¬ (c < '0' ∨ '9' < c) := by rw [not_digit_iff]; exact not_not.2 hd
      obtain ⟨x, hx, hbad⟩ := h
      rcases List.mem_cons.1 hx with rfl | hx
      · exact absurd hd hbad
      · simp only [parse_chunk, hnd, if_false]
        exact ih _ ⟨x, hx, hbad⟩
    · have hnd : c < '0' ∨ '9' < c := (not_digit_iff c).2 hd
      simp [parse_chunk, hnd]

/-! ## The string constructor -/

theorem parse_step (result : big_integer) (hl : limbs_ok result._data)
    (M tmp : Nat) (hM : M < BASE) (ht : tmp < BASE) :
    ∃ r1, plus (mul_uint result M) (of_unsigned_long_long tmp) = .ok r1 ∧ r1._sign = false
      ∧ limbs_ok r1._data ∧ mag r1._data = mag result._data * M + tmp := by
  obtain ⟨hm, hok, hsg⟩ := mul_uint_spec result M hl hM
  obtain ⟨tm, tn, tsg, _⟩ := of_unsigned_long_long_spec tmp ht
  obtain ⟨r1, e, hs1, hm1, hn1⟩ := add_abs_spec (mul_uint result M)
    (of_unsigned_long_long tmp) hok tn.1
  refine ⟨r1, ?_, by rw [hs1, hsg], hn1.1, by rw [hm1, hm, tm]⟩
  simp [plus, add_with_ignore, hsg, tsg, e]

theorem take_min_length (t : List Char) : t.take (min 9 t.length) = t.take 9 := by
  by_cases h : 9 ≤ t.length
  · rw [Nat.min_eq_left h]
  · rw [Nat.min_eq_right (by omega), List.take_length, List.take_of_length_le (by omega)]

theorem parse_loop_spec (str : List Char) :
    ∀ n i result, limbs_ok result._data → result._sign = false →
      n = (str.length - i + 8) / 9 →
      ((∀ c ∈ str.drop i, is_digit c) →
          ∃ r, parse_loop str n i result = .ok r ∧ r._sign = false ∧ limbs_ok r._data
            ∧ mag r._data
                = mag result._data * 10 ^ (str.length - i) + decimal_value (str.drop i))
        ∧ ((∃ c ∈ str.drop i, ¬ is_digit c) →
            parse_loop str n i result = .error .invalid_argument) := by
  intro n
  induction n with
  | zero =>
    intro i result hl hs hn
    have hlen : str.length - i = 0 := by omega
    have hnil : str.drop i = [] := List.drop_eq_nil_of_le (by omega)
    constructor
    · intro _
      exact ⟨result, rfl, hs, hl, by simp [hlen, hnil, decimal_value]⟩
    · rintro ⟨c, hc, _⟩
      rw [hnil] at hc
      simp at hc
  | succ n ih =>
    intro i result hl hs hn
    have hpos : 1 ≤ str.length - i := by omega
    have htl : (str.drop i).length = str.length - i := List.length_drop _ _
    have hchunk : (str.drop i).take (min DIGITS_CNT (str.length - i)) = (str.drop i).take 9 := by
      rw [← htl]; exact take_min_length _
    have hsplit : str.drop i = (str.drop i).take 9 ++ str.drop (i + 9) := by
      rw [← List.drop_drop, List.take_append_drop]
    have hcl : ((str.drop i).take 9).length = min 9 (str.length - i) := by
      rw [List.length_take, htl]
    have hrl : (str.drop (i + 9)).length = str.length - (i + 9) := List.length_drop _ _
    -- the multiplier of this iteration
    obtain ⟨M, hMdef, hMval, hMlt⟩ : ∃ M,
        (if str.length - i ≥ DIGITS_CNT then mul_uint result INT_MOD
          else mul_uint result (exp INT_BASE (str.length - i))) = mul_uint result M
        ∧ M = 10 ^ ((str.drop i).take 9).length ∧ M < BASE := by
      by_cases h9 : str.length - i ≥ 9
      · refine ⟨INT_MOD, by simp [DIGITS_CNT, h9], ?_, by norm_num [INT_MOD, BASE]⟩
        rw [hcl, Nat.min_eq_left h9]
        norm_num [INT_MOD]
      · refine ⟨exp INT_BASE (str.length - i), by simp [DIGITS_CNT, h9], ?_, ?_⟩
        · rw [hcl, Nat.min_eq_right (by omega), exp_ten _ (by omega)]
        · rw [exp_ten _ (by omega)]
          have : str.length - i ≤ 8 := by omega
          calc 10 ^ (str.length - i) ≤ 10 ^ 8 := Nat.pow_le_pow_right (by norm_num) this
            _ < BASE := by norm_num [BASE]
    have hn' : n = (str.length - (i + 9) + 8) / 9 := by omega
    -- what a chunk of digits contributes
    have hgood : (∀ c ∈ (str.drop i).take 9, is_digit c) →
        ∃ r1, parse_chunk ((str.drop i).take 9) 0 = .ok (decimal_value ((str.drop i).take 9))
          ∧ plus (mul_uint result M) (of_unsigned_long_long
              (decimal_value ((str.drop i).take 9))) = .ok r1
          ∧ r1._sign = false ∧ limbs_ok r1._data
          ∧ mag r1._data = mag result._data * M + decimal_value ((str.drop i).take 9) := by
      intro hd
      have hlt := decimal_value_lt _ hd
      have hlt9 : decimal_value ((str.drop i).take 9) < 10 ^ 9 := by
        calc _ < 10 ^ ((str.drop i).take 9).length := hlt
          _ ≤ 10 ^ 9 := Nat.pow_le_pow_right (by norm_num) (by rw [hcl]; omega)
      have hltB : decimal_value ((str.drop i).take 9) < BASE := by
        simp only [BASE]; omega
      have hpc := parse_chunk_ok ((str.drop i).take 9) 0 hd (by simpa using hltB)
      simp only [zero_mul, zero_add] at hpc
      obtain ⟨r1, e1, hs1, hl1, hm1⟩ := parse_step result hl M _ hMlt hltB
      exact ⟨r1, hpc, e1, hs1, hl1, hm1⟩
    constructor
    · intro hall
      have hd : ∀ c ∈ (str.drop i).take 9, is_digit c :=
        fun c hc => hall c (List.mem_of_mem_take hc)
      have hdr : ∀ c ∈ str.drop (i + 9), is_digit c := by
        intro c hc
        apply hall
        rw [hsplit]
        exact List.mem_append_right _ hc
      obtain ⟨r1, hpc, e1, hs1, hl1, hm1⟩ := hgood hd
      obtain ⟨r, e, hsr, hlr, hmr⟩ := (ih (i + 9) r1 hl1 hs1 hn').1 hdr
      refine ⟨r, ?_, hsr, hlr, ?_⟩
      · simp only [parse_loop, hchunk, hpc, hMdef, e1]
        exact e
      · rw [hmr, hm1, hMval]
        conv_rhs => rw [hsplit, decimal_value_append, hrl]
        have hexp : str.length - i = ((str.drop i).take 9).length + (str.length - (i + 9)) := by
          rw [hcl]; omega
        conv_rhs => rw [hexp, pow_add]
        ring
    · rintro ⟨c, hc, hbad⟩
      by_cases hd : ∀ c ∈ (str.drop i).take 9, is_digit c
      · obtain ⟨r1, hpc, e1, hs1, hl1, _⟩ := hgood hd
        have hc' : c ∈ str.drop (i + 9) := by
          rw [hsplit] at hc
          rcases List.mem_append.1 hc with h | h
          · exact absurd (hd c h) hbad
          · exact h
        have := (ih (i + 9) r1 hl1 hs1 hn').2 ⟨c, hc', hbad⟩
        simp only [parse_loop, hchunk, hpc, hMdef, e1]
        exact this
      · have hex : ∃ c ∈ (str.drop i).take 9, ¬ is_digit c := by
          by_contra hne
          apply hd
          intro c hc
          by_contra hcb
          exact hne ⟨c, hc, hcb⟩
        simp only [parse_loop, hchunk, parse_chunk_bad _ 0 hex]

theorem of_string_spec (s : List Char) :
    (well_formed s → ∃ r, of_string s = .ok r ∧ r._sign = (s.head? == some '-')
        ∧ normalized r ∧ mag r._data = decimal_value (digits_of s))
      ∧ (¬ well_formed s → of_string s = .error .invalid_argument) := by
  have hdrop : s.drop (if (s.head? == some '-') = true then 1 else 0) = digits_of s := by
    unfold digits_of
    by_cases h : s.head? = some '-'
    · simp [h]
    · simp [h]
  have hlen : ((if (s.head? == some '-') = true then 1 else 0) == s.length) = true
      ↔ digits_of s = [] := by
    unfold digits_of
    cases s with
    | nil => simp
    | cons c cs =>
      by_cases h : c = '-'
      · subst h; simp
      · simp [h]
  have hspec := parse_loop_spec s
    ((s.length - (if (s.head? == some '-') = true then 1 else 0) + 8) / 9)
    (if (s.head? == some '-') = true then 1 else 0) zero limbs_ok_nil rfl rfl
  rw [hdrop] at hspec
  constructor
  · rintro ⟨hne, hall⟩
    obtain ⟨r, e, _, hl, hm⟩ := hspec.1 hall
    have hl' : ¬ (((if (s.head? == some '-') = true then 1 else 0) == s.length) = true) :=
      fun h => hne (hlen.1 h)
    refine ⟨trim ⟨r._data, s.head? == some '-'⟩, ?_, rfl, trim_normalized _ hl, ?_⟩
    · simp only [of_string, DIGITS_CNT, hl', if_false, e]
      rfl
    · simp only [trim, mag_trim_data, hm, zero, mag, zero_mul, zero_add]
  · intro hwf
    by_cases hne : digits_of s = []
    · have := hlen.2 hne
      simp only [of_string, this, if_true]
    · have hl' : ¬ (((if (s.head? == some '-') = true then 1 else 0) == s.length) = true) :=
        fun h => hne (hlen.1 h)
      have hex : ∃ c ∈ digits_of s, ¬ is_digit c := by
        by_contra hno
        apply hwf
        refine ⟨hne, fun c hc => ?_⟩
        by_contra hcb
        exact hno ⟨c, hc, hcb⟩
      have := hspec.2 hex
      simp only [of_string, DIGITS_CNT, hl', if_false, this]
      rfl

/-! ## Division by a one-limb divisor -/

theorem eq_zero_literal (b : big_integer) : eq b (of_long_long 0) = (b._data == []) := by
  cases b with
  | mk d s =>
    cases d with
    | nil => simp [eq, eq_zero, length, of_long_long, zero]
    | cons x xs => simp [eq, eq_zero, length, of_long_long, zero]

theorem divide_single (a : big_integer) (v : Nat) (sb : Bool) (hv0 : 0 < v) (hv : v < BASE)
    (ha : limbs_ok a._data) :
    ∃ r, divide a ⟨[v], sb⟩ = .ok r ∧ r._sign = xor a._sign sb
      ∧ mag r._data = mag a._data / v ∧ normalized r := by
  obtain ⟨t, e, hs, hm, hn⟩ := div_uint_spec a v hv0 hv ha
  refine ⟨⟨t._data, xor t._sign sb⟩, ?_, by simp [hs], hm, hn⟩
  simp [divide, abstract_division, eq_zero_literal, length, rd, bind, Except.bind, e, pure,
    Except.pure]

theorem modulo_single (a : big_integer) (v : Nat) (sb : Bool) (hv0 : 0 < v) (hv : v < BASE)
    (ha : normalized a) :
    ∃ r, modulo a ⟨[v], sb⟩ = .ok r ∧ r._sign = a._sign
      ∧ mag r._data = mag a._data % v ∧ normalized r := by
  obtain ⟨p, e, hs, hm, hn⟩ := div_uint_spec a v hv0 hv ha.1
  have hvl : limbs_ok [v] := by simp [limbs_ok, hv]
  obtain ⟨m, em, hsm, hmm, hnm⟩ := times_spec ⟨p._data, xor p._sign sb⟩ ⟨[v], sb⟩ hn.1 hvl
  have hsm' : m._sign = a._sign := by
    rw [hsm, hs]; cases a._sign <;> cases sb <;> rfl
  have hmm' : mag m._data = mag a._data / v * v := by
    rw [hmm, hm]; simp [mag]
  have hle : mag m._data ≤ mag a._data := by
    rw [hmm']; exact Nat.div_mul_le_self _ _
  obtain ⟨r, er, hnr, h⟩ := sub_abs_spec false a m ha hnm
  have hfacts : r._sign = a._sign ∧ mag r._data + mag m._data = mag a._data := by
    rcases h with ⟨_, h1, h2⟩ | ⟨hlt, _, _⟩
    · exact ⟨h1, h2⟩
    · omega
  refine ⟨r, ?_, hfacts.1, ?_, hnr⟩
  · simp [modulo, abstract_division, eq_zero_literal, length, rd, bind, Except.bind, e, em,
      minus, sub_with_ignore, hsm', er]
  · have h1 := hfacts.2
    rw [hmm'] at h1
    have h2 := Nat.div_add_mod' (mag a._data) v
    omega

/-! ## Printing -/

theorem digit_char_spec (d : Nat) (h : d < 10) :
    is_digit (digit_char d) ∧ (digit_char d).toNat - 48 = d
      ∧ (digit_char d = '0' → d = 0) := by
  interval_cases d <;> decide

theorem dv_rev_cons (c : Char) (cs : List Char) :
    decimal_value (c :: cs).reverse = (c.toNat - 48) + 10 * decimal_value cs.reverse := by
  rw [List.reverse_cons, decimal_value_append]
  simp [decimal_value]
  ring

theorem dv_rev_append (a b : List Char) :
    decimal_value (a ++ b).reverse
      = decimal_value a.reverse + 10 ^ a.length * decimal_value b.reverse := by
  rw [List.reverse_append, decimal_value_append, List.length_reverse]
  ring

theorem dv_rev_zeros (k : Nat) : decimal_value (List.replicate k '0').reverse = 0 := by
  induction k with
  | zero => rfl
  | succ k ih =>
    rw [List.replicate_succ, dv_rev_cons, ih]
    rfl

theorem dec_chars_spec : ∀ fuel k r, 1 ≤ k → k ≤ fuel → r < 10 ^ k →
    (dec_digits fuel r).map digit_char ≠ []
      ∧ (∀ c ∈ (dec_digits fuel r).map digit_char, is_digit c)
      ∧ ((dec_digits fuel r).map digit_char).length ≤ k
      ∧ decimal_value ((dec_digits fuel r).map digit_char).reverse = r
      ∧ (r ≠ 0 → ((dec_digits fuel r).map digit_char).getLast? ≠ some '0')
      ∧ (r = 0 → (dec_digits fuel r).map digit_char = ['0']) := by
  intro fuel
  induction fuel with
  | zero => intro k r h1 h2 _; omega
  | succ fuel ih =>
    intro k r h1 h2 hr
    by_cases h10 : r < 10
    · obtain ⟨hd, hv, hz⟩ := digit_char_spec r h10
      simp only [dec_digits, h10, if_true, List.map_cons, List.map_nil]
      refine ⟨by simp, by simpa using hd, by simpa using h1, ?_, ?_, ?_⟩
      · rw [dv_rev_cons]; simp [decimal_value, hv]
      · intro hne h
        simp only [List.getLast?_singleton, Option.some.injEq] at h
        exact hne (hz h)
      · intro h0; subst h0; rfl
    · obtain ⟨k', rfl⟩ : ∃ k', k = k' + 1 := ⟨k - 1, by omega⟩
      have hk' : 1 ≤ k' := by
        rcases Nat.eq_zero_or_pos k' with h0 | h0
        · subst h0; simp at hr; omega
        · exact h0
      have hdiv : r / 10 < 10 ^ k' := by
        rw [pow_succ] at hr
        exact Nat.div_lt_of_lt_mul (by omega)
      obtain ⟨i1, i2, i3, i4, i5, _⟩ := ih k' (r / 10) hk' (by omega) hdiv
      obtain ⟨hd, hv, _⟩ := digit_char_spec (r % 10) (Nat.mod_lt _ (by norm_num))
      simp only [dec_digits, h10, if_false, List.map_cons]
      refine ⟨by simp, ?_, by simpa using i3, ?_, ?_, by intro h0; omega⟩
      · intro c hc
        rcases List.mem_cons.1 hc with rfl | hc
        · exact hd
        · exact i2 c hc
      · rw [dv_rev_cons, i4, hv]
        omega
      · intro _
        have hne0 : r / 10 ≠ 0 := by omega
        have := i5 hne0
        cases hC : (dec_digits fuel (r / 10)).map digit_char with
        | nil => exact absurd hC i1
        | cons c cs =>
          rw [hC] at this
          rw [List.getLast?_cons_cons]
          exact this

theorem ne_zero_literal (b : big_integer) : ne b (of_long_long 0) = (b._data != []) := by
  simp [ne, eq_zero_literal, bne]

theorem data_ne_nil_iff (a : big_integer) (ha : normalized a) :
    a._data ≠ [] ↔ mag a._data ≠ 0 := by
  constructor
  · intro hne
    have := mag_ge_of_normal a._data hne ha.2
    have hp : 0 < BASE ^ (a._data.length - 1) := Nat.pos_pow_of_pos _ (by simp [BASE])
    omega
  · intro h hnil
    rw [hnil] at h
    exact h rfl

theorem small_limb (r : big_integer) (hn : normalized r) (hlt : mag r._data < BASE) :
    (if length r != 0 then r._data.headD 0 else 0) = mag r._data := by
  cases hd : r._data with
  | nil => simp [length, hd, mag]
  | cons x xs =>
    cases xs with
    | nil => simp [length, hd, mag]
    | cons y ys =>
      exfalso
      have := mag_ge_of_normal r._data (by rw [hd]; simp) hn.2
      rw [hd] at this hlt
      simp only [List.length_cons, Nat.add_sub_cancel, pow_succ] at this
      have hp : 1 ≤ BASE ^ ys.length := Nat.one_le_pow _ _ (by simp [BASE])
      have := Nat.mul_le_mul_right BASE hp
      omega

/-- The loop of `to_string` needs one iteration per base-`10^9` digit of the
magnitude, and one iteration to print a zero. -/
theorem to_string_loop_steps : ∀ fuel tmp s, normalized tmp →
    mag tmp._data < 1000000000 ^ fuel → (s = [] → 1 ≤ fuel) →
    ∃ t, to_string_loop fuel tmp s = some (.ok (s ++ t))
      ∧ (∀ c ∈ t, is_digit c)
      ∧ decimal_value t.reverse = mag tmp._data
      ∧ (mag tmp._data ≠ 0 → t.getLast? ≠ none ∧ t.getLast? ≠ some '0')
      ∧ (mag tmp._data = 0 → t = if s = [] then ['0'] else []) := by
  intro fuel
  induction fuel with
  | zero =>
    intro tmp s hn hf hs1
    have hs : s ≠ [] := by
      intro h; have := hs1 h; omega
    have hm : mag tmp._data = 0 := by
      simp only [pow_zero] at hf; omega
    have hd : tmp._data = [] := by
      by_contra hne
      exact (data_ne_nil_iff tmp hn).1 hne hm
    refine ⟨[], ?_, by simp, by simp [decimal_value, hm], fun h => absurd hm h,
      fun _ => by simp [hs]⟩
    simp [to_string_loop, ne_zero_literal, hd, hs]
  | succ fuel ih =>
    intro tmp s hn hf _
    by_cases hcond : tmp._data = [] ∧ s ≠ []
    · obtain ⟨hd, hs⟩ := hcond
      have hm : mag tmp._data = 0 := by rw [hd]; rfl
      refine ⟨[], ?_, by simp, by simp [decimal_value, hm], fun h => absurd hm h,
        fun _ => by simp [hs]⟩
      simp [to_string_loop, ne_zero_literal, hd, hs]
    · have hcond' : (ne tmp (of_long_long 0) || s.isEmpty) = true := by
        rw [ne_zero_literal]
        by_cases hd : tmp._data = []
        · have hs : s = [] := by
            by_contra hs; exact hcond ⟨hd, hs⟩
          simp [hs]
        · simp [hd]
      have hten : of_unsigned_long_long INT_MOD = ⟨[1000000000], false⟩ := by decide
      obtain ⟨rem, erem, _, hmrem, hnrem⟩ :=
        modulo_single tmp 1000000000 false (by norm_num) (by norm_num [BASE]) hn
      obtain ⟨tmp', ediv, _, hmdiv, hndiv⟩ :=
        divide_single tmp 1000000000 false (by norm_num) (by norm_num [BASE]) hn.1
      have hrlt : mag tmp._data % 1000000000 < 1000000000 := Nat.mod_lt _ (by norm_num)
      have hru : (if length rem != 0 then rem._data.headD 0 else 0)
          = mag tmp._data % 1000000000 := by
        rw [small_limb rem hnrem (by rw [hmrem]; simp only [BASE]; omega), hmrem]
      obtain ⟨c1, c2, c3, c4, c5, c6⟩ :=
        dec_chars_spec 10 9 (mag tmp._data % 1000000000) (by norm_num) (by norm_num)
          (by norm_num; exact hrlt)
      have hchunk : (std_to_string (mag tmp._data % 1000000000)).reverse
          = (dec_digits 10 (mag tmp._data % 1000000000)).map digit_char := by
        simp [std_to_string, List.map_reverse]
      set C := (dec_digits 10 (mag tmp._data % 1000000000)).map digit_char with hC
      set Cp := (if ne tmp' (of_long_long 0) = true then
          C ++ List.replicate (DIGITS_CNT - C.length) '0' else C) with hCp
      have hne : s ++ Cp ≠ [] := by
        intro h
        have h2 := (List.append_eq_nil.1 h).2
        rw [hCp] at h2
        split at h2
        · exact c1 (List.append_eq_nil.1 h2).1
        · exact c1 h2
      have hfuel : mag tmp'._data < 1000000000 ^ fuel := by
        rw [hmdiv]
        rw [pow_succ] at hf
        exact Nat.div_lt_of_lt_mul (by rw [Nat.mul_comm]; exact hf)
      obtain ⟨t', e', d1, d2, d3, d4⟩ := ih tmp' (s ++ Cp) hndiv hfuel (fun h => absurd h hne)
      have hloop : to_string_loop (fuel + 1) tmp s = some (.ok (s ++ (Cp ++ t'))) := by
        rw [to_string_loop]
        simp only [hcond', if_true, hten, erem, ediv, hru, hchunk]
        rw [← hCp, e', List.append_assoc]
      have hne' : ne tmp' (of_long_long 0) = true ↔ mag tmp._data / 1000000000 ≠ 0 := by
        rw [ne_zero_literal, ← hmdiv, ← data_ne_nil_iff tmp' hndiv]
        simp
      refine ⟨Cp ++ t', hloop, ?_, ?_, ?_, ?_⟩
      · intro c hc
        rcases List.mem_append.1 hc with h | h
        · rw [hCp] at h
          split at h
          · rcases List.mem_append.1 h with h | h
            · exact c2 c h
            · rw [List.eq_of_mem_replicate h]; decide
          · exact c2 c h
        · exact d1 c h
      · rw [dv_rev_append, d2, hmdiv]
        by_cases hq : mag tmp._data / 1000000000 ≠ 0
        · have hlen : Cp.length = 9 := by
            rw [hCp, if_pos (hne'.2 hq)]
            simp only [List.length_append, List.length_replicate, DIGITS_CNT]
            omega
          have hval : decimal_value Cp.reverse = mag tmp._data % 1000000000 := by
            rw [hCp, if_pos (hne'.2 hq), dv_rev_append, dv_rev_zeros, c4]
            simp
          rw [hlen, hval]
          have := Nat.mod_add_div (mag tmp._data) 1000000000
          omega
        · have hq0 : mag tmp._data / 1000000000 = 0 := not_not.1 hq
          have hval : decimal_value Cp.reverse = mag tmp._data % 1000000000 := by
            rw [hCp, if_neg (fun h => hq (hne'.1 h)), c4]
          rw [hval, hq0]
          have := Nat.mod_add_div (mag tmp._data) 1000000000
          simp only [mul_zero, add_zero]
          omega
      · intro hN
        by_cases hq : mag tmp._data / 1000000000 ≠ 0
        · have := d3 (by rw [hmdiv]; exact hq)
          have ht' : t' ≠ [] := by
            intro h; rw [h] at this; simp at this
          rw [List.getLast?_append_of_ne_nil _ ht']
          exact this
        · have hq0 : mag tmp._data / 1000000000 = 0 := not_not.1 hq
          have ht' : t' = [] := by
            have := d4 (by rw [hmdiv]; exact hq0)
            have hne : s ++ Cp ≠ [] := by
              intro h
              have h2 := (List.append_eq_nil.1 h).2
              rw [hCp] at h2
              split at h2
              · exact c1 (List.append_eq_nil.1 h2).1
              · exact c1 h2
            simpa [hne] using this
          have hCpC : Cp = C := by
            rw [hCp, if_neg (fun h => hq (hne'.1 h))]
          rw [ht', List.append_nil, hCpC]
          have hr : mag tmp._data % 1000000000 ≠ 0 := by
            have := Nat.mod_add_div (mag tmp._data) 1000000000
            rw [hq0] at this
            omega
          refine ⟨?_, c5 hr⟩
          intro h
          rw [List.getLast?_eq_none_iff] at h
          exact c1 h
      · intro hN
        have hs : s = [] := by
          by_contra hs
          apply hcond
          refine ⟨?_, hs⟩
          by_contra hd
          exact (data_ne_nil_iff tmp hn).1 hd hN
        have hq0 : mag tmp._data / 1000000000 = 0 := by rw [hN]
        have hq : ¬ (ne tmp' (of_long_long 0) = true) := fun h => hne'.1 h hq0
        have ht' : t' = [] := by
          have := d4 (by rw [hmdiv]; exact hq0)
          have hne : s ++ Cp ≠ [] := by
            intro h
            have h2 := (List.append_eq_nil.1 h).2
            rw [hCp] at h2
            split at h2
            · exact c1 (List.append_eq_nil.1 h2).1
            · exact c1 h2
          simpa [hne] using this
        have hCpC : Cp = C := by rw [hCp, if_neg hq]
        rw [ht', List.append_nil, hCpC, hs]
        simp only [if_true]
        exact c6 (by rw [hN])

theorem to_string_loop_spec : ∀ fuel tmp s, normalized tmp →
    mag tmp._data + (if s = [] then 1 else 0) ≤ fuel →
    ∃ t, to_string_loop fuel tmp s = some (.ok (s ++ t))
      ∧ (∀ c ∈ t, is_digit c)
      ∧ decimal_value t.reverse = mag tmp._data
      ∧ (mag tmp._data ≠ 0 → t.getLast? ≠ none ∧ t.getLast? ≠ some '0')
      ∧ (mag tmp._data = 0 → t = if s = [] then ['0'] else []) := by
  intro fuel tmp s hn hf
  refine to_string_loop_steps fuel tmp s hn ?_ ?_
  · have h1 : fuel < 1000000000 ^ fuel := Nat.lt_pow_self (by norm_num) fuel
    have h2 : mag tmp._data ≤ fuel := by omega
    omega
  · intro hs
    simp only [hs, if_true] at hf
    omega

/-! ## Which operations can throw -/

theorem bind_no_throw {α β : Type} {x : Except Err α} {f : α → Except Err β}
    (hx : x ≠ .error .invalid_argument) (hf : ∀ a, f a ≠ .error .invalid_argument) :
    (x >>= f) ≠ .error .invalid_argument := by
  cases x with
  | error e => simpa [bind, Except.bind] using hx
  | ok a => simpa [bind, Except.bind] using hf a

theorem rd_no_throw (v : List Nat) (i : Nat) : rd v i ≠ .error .invalid_argument := by
  unfold rd
  split <;> simp

theorem sub_in_pos_loop_no_throw (lhs : List Nat) :
    ∀ rhs carry, sub_in_pos_loop lhs rhs carry ≠ .error .invalid_argument := by
  induction lhs with
  | nil =>
    intro rhs carry
    simp only [sub_in_pos_loop]
    split <;> simp
  | cons x xs ih =>
    intro rhs carry
    simp only [sub_in_pos_loop]
    split
    · split
      · simp
      · rename_i e heq
        intro h
        injection h with h
        subst h
        exact ih _ _ heq
    · simp

/-- The loop of `sub_in_pos` is left only with `carry == 0`. -/
theorem sub_in_pos_loop_carry (lhs : List Nat) :
    ∀ rhs carry res c, sub_in_pos_loop lhs rhs carry = .ok (res, c) → c = 0 := by
  induction lhs with
  | nil =>
    intro rhs carry res c h
    simp only [sub_in_pos_loop] at h
    split at h
    · cases h
    · rename_i hc
      injection h with h
      injection h with _ h2
      omega
  | cons x xs ih =>
    intro rhs carry res c h
    simp only [sub_in_pos_loop] at h
    split at h
    · split at h
      · rename_i rest c' heq
        injection h with h
        injection h with _ h2
        subst h2
        exact ih _ _ _ _ heq
      · cases h
    · rename_i hc
      injection h with h
      injection h with _ h2
      omega

/-- Whenever `sub_in_pos` returns, it returns `false`. -/
theorem sub_in_pos_flag (lhs rhs : List Nat) (pos : Nat) (res : List Nat) (flag : Bool)
    (h : sub_in_pos lhs rhs pos = .ok (res, flag)) : flag = false := by
  unfold sub_in_pos at h
  split at h
  · rename_i rest c heq
    injection h with h
    injection h with _ h2
    have := sub_in_pos_loop_carry _ _ _ _ _ heq
    subst this
    simpa using h2.symm
  · cases h

theorem sub_in_pos_no_throw (lhs rhs : List Nat) (pos : Nat) :
    sub_in_pos lhs rhs pos ≠ .error .invalid_argument := by
  unfold sub_in_pos
  split
  · simp
  · rename_i e heq
    intro h
    injection h with h
    subst h
    exact sub_in_pos_loop_no_throw _ _ _ heq

theorem add_in_pos_no_throw (ign : Bool) (lhs rhs : List Nat) (pos : Nat) :
    add_in_pos ign lhs rhs pos ≠ .error .invalid_argument := by
  unfold add_in_pos
  split
  · simp
  · split <;> simp

theorem add_abs_no_throw (a b : big_integer) : add_abs a b ≠ .error .invalid_argument := by
  unfold add_abs
  split
  · simp
  · rename_i e heq
    intro h
    injection h with h
    subst h
    exact add_in_pos_no_throw _ _ _ _ heq

theorem sub_abs_ge_no_throw (a b : big_integer) :
    sub_abs_ge a b ≠ .error .invalid_argument := by
  unfold sub_abs_ge
  split
  · simp
  · rename_i e heq
    intro h
    injection h with h
    subst h
    exact sub_in_pos_no_throw _ _ _ heq

theorem sub_abs_no_throw (ign : Bool) (a b : big_integer) :
    sub_abs ign a b ≠ .error .invalid_argument := by
  unfold sub_abs
  split
  · exact sub_abs_ge_no_throw _ _
  · split
    · simp
    · rename_i e heq
      intro h
      injection h with h
      subst h
      exact sub_abs_ge_no_throw _ _ heq

theorem minus_no_throw (a b : big_integer) : minus a b ≠ .error .invalid_argument := by
  unfold minus sub_with_ignore
  split
  · exact add_abs_no_throw _ _
  · exact sub_abs_no_throw _ _ _

theorem mul_row_no_throw (ai : Nat) (res : List Nat) :
    ∀ rhs carry, mul_row ai res rhs carry ≠ .error .invalid_argument := by
  induction res with
  | nil =>
    intro rhs carry
    simp only [mul_row]
    split <;> simp
  | cons x xs ih =>
    intro rhs carry
    simp only [mul_row]
    split
    · split
      · simp
      · rename_i e heq
        intro h
        injection h with h
        subst h
        exact ih _ _ heq
    · simp

theorem mul_rows_no_throw (as : List Nat) :
    ∀ rhs result, mul_rows as rhs result ≠ .error .invalid_argument := by
  induction as with
  | nil => intro rhs result; simp [mul_rows]
  | cons a as ih =>
    intro rhs result
    simp only [mul_rows]
    split
    · rename_i e heq
      intro h
      injection h with h
      subst h
      exact mul_row_no_throw _ _ _ _ heq
    · split
      · simp
      · rename_i e heq
        intro h
        injection h with h
        subst h
        exact ih _ _ heq

theorem times_no_throw (a b : big_integer) : times a b ≠ .error .invalid_argument := by
  unfold times
  split
  · simp
  · rename_i e heq
    intro h
    injection h with h
    subst h
    exact mul_rows_no_throw _ _ _ heq

theorem div_uint_loop_no_throw (rhs : Nat) (xs : List Nat) :
    div_uint_loop rhs xs ≠ .error .invalid_argument := by
  induction xs with
  | nil => simp [div_uint_loop]
  | cons x xs ih =>
    simp only [div_uint_loop]
    split
    · rename_i e heq
      intro h
      injection h with h
      subst h
      exact ih heq
    · split <;> simp

theorem div_uint_no_throw (a : big_integer) (rhs : Nat) :
    div_uint a rhs ≠ .error .invalid_argument := by
  unfold div_uint
  split
  · simp
  · rename_i e heq
    intro h
    injection h with h
    subst h
    exact div_uint_loop_no_throw _ _ heq

theorem division_loop_no_throw (divisor : List Nat) (divisor_len : Nat) :
    ∀ j dividend q,
      division_loop divisor divisor_len j dividend q ≠ .error .invalid_argument := by
  intro j
  induction j with
  | zero => intro dividend q; simp [division_loop]
  | succ j ih =>
    intro dividend q
    rw [division_loop]
    refine bind_no_throw (rd_no_throw _ _) (fun u1 => ?_)
    refine bind_no_throw (rd_no_throw _ _) (fun u2 => ?_)
    refine bind_no_throw (rd_no_throw _ _) (fun v1 => ?_)
    have hrest : ∀ pq : Nat,
        (do
          let __discr ← sub_in_pos dividend
            (mul_uint ⟨divisor, false⟩ (ui_cast pq))._data (j + 1 - 1)
          match __discr with
          | (dividend, flag) =>
            if flag = true then do
              let dividend ← add_in_pos true dividend divisor (j + 1 - 1)
              division_loop divisor divisor_len j dividend
                (q ++ [ui_cast ((pq + U64 - 1) % U64)])
            else division_loop divisor divisor_len j dividend (q ++ [ui_cast pq]))
          ≠ .error .invalid_argument := by
      intro pq
      refine bind_no_throw (sub_in_pos_no_throw _ _ _) (fun p => ?_)
      obtain ⟨d, flag⟩ := p
      simp only
      split
      · exact bind_no_throw (add_in_pos_no_throw _ _ _ _) (fun d' => ih _ _)
      · exact ih _ _
    simp only
    split
    · simp [throw, throwThe, MonadExceptOf.throw, bind, Except.bind]
    · simp only [pure_bind]
      refine bind_no_throw (rd_no_throw _ _) (fun v2 => ?_)
      refine bind_no_throw (rd_no_throw _ _) (fun u3 => ?_)
      exact hrest _

theorem abstract_division_no_throw (rr : Bool) (a b : big_integer) (hb : b._data ≠ []) :
    abstract_division rr a b ≠ .error .invalid_argument := by
  unfold abstract_division
  rw [eq_zero_literal]
  have hb' : (b._data == []) = false := by simpa using hb
  simp only [hb', Bool.false_eq_true, if_false]
  split
  · refine bind_no_throw (rd_no_throw _ _) (fun r0 => ?_)
    split
    · refine bind_no_throw (div_uint_no_throw _ _) (fun p => ?_)
      refine bind_no_throw (times_no_throw _ _) (fun m => ?_)
      exact minus_no_throw _ _
    · refine bind_no_throw (div_uint_no_throw _ _) (fun t => ?_)
      simp [pure, Except.pure]
  · split
    · simp
    · refine bind_no_throw (rd_no_throw _ _) (fun back => ?_)
      refine bind_no_throw (division_loop_no_throw _ _ _ _ _) (fun p => ?_)
      obtain ⟨w, q⟩ := p
      show (if rr = true then _ else _) ≠ _
      split
      · refine bind_no_throw (div_uint_no_throw _ _) (fun t => ?_)
        simp [pure, Except.pure]
      · simp [pure, Except.pure]

theorem abstract_division_throw_iff (rr : Bool) (a b : big_integer) :
    abstract_division rr a b = .error .invalid_argument ↔ b._data = [] := by
  constructor
  · intro h
    by_contra hb
    exact abstract_division_no_throw rr a b hb h
  · intro hb
    unfold abstract_division
    rw [eq_zero_literal]
    simp [hb]

theorem value_neg_iff (a : big_integer) (ha : normalized a) :
    value a < 0 ↔ a._sign = true ∧ a._data ≠ [] := by
  rw [data_ne_nil_iff a ha, value_eq]
  cases a._sign
  · simp
  · simp only [if_true, true_and, Left.neg_neg_iff, Nat.cast_pos]
    omega

theorem to_string_spec (fuel : Nat) (a : big_integer) (hn : normalized a)
    (hf : mag a._data < fuel) :
    ∃ s, to_string fuel a = some (.ok ((if value a < 0 then ['-'] else []) ++ s))
      ∧ canonical_decimal s (mag a._data) := by
  obtain ⟨t, e, h1, h2, h3, h4⟩ := to_string_loop_spec fuel a [] hn (by simp; omega)
  have hneg : (a._sign && !eq_zero a) = true ↔ value a < 0 := by
    rw [value_neg_iff a hn]
    cases hd : a._data <;> simp [eq_zero, length, hd]
  refine ⟨t.reverse, ?_, ?_, ?_, ?_, h2⟩
  · simp only [to_string, e, List.nil_append]
    by_cases hv : value a < 0
    · simp [hneg.2 hv, hv]
    · have : ¬ ((a._sign && !eq_zero a) = true) := fun h => hv (hneg.1 h)
      simp [this, hv]
  · intro h
    have ht : t = [] := by simpa using h
    by_cases hm : mag a._data = 0
    · have := h4 hm
      simp [ht] at this
    · have := (h3 hm).1
      simp [ht] at this
  · intro c hc
    exact h1 c (List.mem_reverse.1 hc)
  · intro hh
    rw [List.head?_reverse] at hh
    by_cases hm : mag a._data = 0
    · have := h4 hm
      simp only [if_true] at this
      rw [this]
      rfl
    · exact absurd hh (h3 hm).2

theorem natAbs_value (a : big_integer) : (value a).natAbs = mag a._data := by
  rw [value_eq]
  split <;> simp

/-! ## The claims -/

/-- C1 (the code departs from it).  For `a = 2^95 + 3` and `b = 2^93 + 1`, both
built by the string constructor and normalized, `(a / b) * b + (a % b) == a` has no
value: the long division indexes the working window past its end. -/
theorem division_law_out_of_bounds :
    parse "39614081257132168796771975171" = .ok ⟨[3, 0, 2147483648], false⟩
      ∧ parse "9903520314283042199192993793" = .ok ⟨[1, 0, 536870912], false⟩
      ∧ normalized ⟨[3, 0, 2147483648], false⟩ ∧ normalized ⟨[1, 0, 536870912], false⟩
      ∧ division_law ⟨[3, 0, 2147483648], false⟩ ⟨[1, 0, 536870912], false⟩
          = .error .out_of_bounds := by
  decide

/-- C2 (the code departs from it).  `(2^95 + 3) / (2^93 + 1)` should be `3`; the
trial digit is `4`, the subtraction of `4 * divisor` from the four-limb window
borrows past its last limb, and `sub_in_pos` goes on to index limb 4.  It never
returns `true`, so the add-back of the long division cannot run. -/
theorem divide_out_of_bounds :
    mag [3, 0, 2147483648] / mag [1, 0, 536870912] = 3
      ∧ mul_uint ⟨[3, 0, 2147483648], false⟩ 7 = ⟨[21, 0, 2147483648, 3], false⟩
      ∧ mul_uint ⟨[7, 0, 3758096384], false⟩ 4 = ⟨[28, 0, 2147483648, 3], false⟩
      ∧ sub_in_pos [21, 0, 2147483648, 3] [28, 0, 2147483648, 3] 0 = .error .out_of_bounds
      ∧ divide ⟨[3, 0, 2147483648], false⟩ ⟨[1, 0, 536870912], false⟩
          = .error .out_of_bounds
      ∧ ∀ lhs rhs pos res flag, sub_in_pos lhs rhs pos = .ok (res, flag) → flag = false :=
  ⟨by decide, by decide, by decide, by decide, by decide, sub_in_pos_flag⟩

/-- C3 (the code departs from it).  `(2^95 + 3) % (2^93 + 1)` should be `2^93`; the
remainder is computed by the same long division, which indexes the working window
past its end. -/
theorem modulo_out_of_bounds :
    mag [3, 0, 2147483648] % mag [1, 0, 536870912] = mag [0, 0, 536870912]
      ∧ modulo ⟨[3, 0, 2147483648], false⟩ ⟨[1, 0, 536870912], false⟩
          = .error .out_of_bounds := by
  decide

/-- C4.  `a / b` and `a % b` throw `std::invalid_argument` exactly when the limb
sequence of `b` is empty, whatever its sign flag and whatever the dividend; the
statements `a /= b` and `a %= b` then leave `a` as it was. -/
theorem division_by_zero_iff (a b : big_integer) :
    (divide a b = .error .invalid_argument ↔ b._data = [])
      ∧ (modulo a b = .error .invalid_argument ↔ b._data = [])
      ∧ (b._data = [] →
          divide_assign false a b = (a, some .invalid_argument)
            ∧ divide_assign true a b = (a, some .invalid_argument)) := by
  refine ⟨abstract_division_throw_iff false a b, abstract_division_throw_iff true a b, ?_⟩
  intro hb
  simp [divide_assign, (abstract_division_throw_iff false a b).2 hb,
    (abstract_division_throw_iff true a b).2 hb]

/-- C5.  For normalized `a` and `b` of any signs and limb counts, `a + b` is
computed without fault and its integer value is the sum of the two values. -/
theorem plus_value (a b : big_integer) (ha : normalized a) (hb : normalized b) :
    ∃ r, plus a b = .ok r ∧ value r = value a + value b := by
  obtain ⟨r, e, hv, _⟩ := plus_spec a b ha hb
  exact ⟨r, e, hv⟩

theorem plus_value_witness :
    normalized ⟨[4294967295, 4294967295], true⟩ ∧ normalized ⟨[7], false⟩
      ∧ ∃ r, plus ⟨[4294967295, 4294967295], true⟩ ⟨[7], false⟩ = .ok r
          ∧ value r = value ⟨[4294967295, 4294967295], true⟩ + value ⟨[7], false⟩ :=
  ⟨by decide, by decide, plus_value _ _ (by decide) (by decide)⟩

/-- C6.  For normalized `a` and `b`, `a - b` is computed without fault and its
integer value is the difference of the two values, also when `|a| < |b|` and the
code subtracts the other way round and flips the sign. -/
theorem minus_value (a b : big_integer) (ha : normalized a) (hb : normalized b) :
    ∃ r, minus a b = .ok r ∧ value r = value a - value b := by
  obtain ⟨r, e, hv, _⟩ := minus_spec a b ha hb
  exact ⟨r, e, hv⟩

theorem minus_value_witness :
    normalized ⟨[5], false⟩ ∧ normalized ⟨[0, 0, 1], false⟩
      ∧ ∃ r, minus ⟨[5], false⟩ ⟨[0, 0, 1], false⟩ = .ok r
          ∧ value r = value ⟨[5], false⟩ - value ⟨[0, 0, 1], false⟩ :=
  ⟨by decide, by decide, minus_value _ _ (by decide) (by decide)⟩

/-- C7.  For normalized `a` and `b`, `a * b` is computed without fault (no index
leaves the result buffer) and its integer value is the product of the two values;
a partial sum `result[i + j] + _data[i] * rhs[j] + carry` of 32-bit quantities fits
64 bits and its carry fits 32 bits; and
`parse("123456789123456789") * parse("2") == parse("246913578246913578")`. -/
theorem times_value_product (a b : big_integer) (ha : normalized a) (hb : normalized b) :
    (∃ r, times a b = .ok r ∧ value r = value a * value b)
      ∧ (∀ x ai r carry, x < BASE → ai < BASE → r < BASE → carry < BASE →
          x + ai * r + carry < U64 ∧ (x + ai * r + carry) / BASE < BASE)
      ∧ ∃ x y z p, parse "123456789123456789" = .ok x ∧ parse "2" = .ok y
          ∧ parse "246913578246913578" = .ok z ∧ times x y = .ok p ∧ eq p z = true := by
  obtain ⟨r, e, hv, _⟩ := times_value a b ha.1 hb.1
  refine ⟨⟨r, e, hv⟩, ?_, ⟨[2899336981, 28744523], false⟩, ⟨[2], false⟩,
    ⟨[1503706666, 57489047], false⟩, ⟨[1503706666, 57489047], false⟩,
    by decide, by decide, by decide, by decide, by decide⟩
  intro x ai r carry hx hai hr hc
  have hprod := limb_mul_le ai r hai hr
  generalize ai * r = t at *
  simp only [BASE, U64] at *
  omega

theorem times_value_product_witness :
    normalized ⟨[4294967295, 4294967295], true⟩ ∧ normalized ⟨[4294967295, 2147483648], false⟩
      ∧ (∃ r, times ⟨[4294967295, 4294967295], true⟩ ⟨[4294967295, 2147483648], false⟩ = .ok r
          ∧ value r = value ⟨[4294967295, 4294967295], true⟩
              * value ⟨[4294967295, 2147483648], false⟩) :=
  ⟨by decide, by decide, (times_value_product _ _ (by decide) (by decide)).1⟩

/-- C8.  The string constructor succeeds exactly on an optional leading `-`
followed by one or more digits `0`..`9`, and throws `std::invalid_argument` on
every other text (the empty string, `-` alone, `12a3`, a leading `+`, an inner `-`);
`-0` is accepted, compares equal to `parse("0")` and prints as `0`. -/
theorem of_string_succeeds_iff (s : List Char) :
    ((∃ r, of_string s = .ok r) ↔ well_formed s)
      ∧ (¬ well_formed s → of_string s = .error .invalid_argument)
      ∧ parse "" = .error .invalid_argument ∧ parse "-" = .error .invalid_argument
      ∧ parse "12a3" = .error .invalid_argument ∧ parse "+1" = .error .invalid_argument
      ∧ parse "1-2" = .error .invalid_argument
      ∧ ∃ z z0, parse "-0" = .ok z ∧ parse "0" = .ok z0 ∧ eq z z0 = true
          ∧ ∀ fuel, 0 < fuel → to_string fuel z = some (.ok ['0']) := by
  obtain ⟨h1, h2⟩ := of_string_spec s
  refine ⟨⟨?_, fun h => ?_⟩, h2, by decide, by decide, by decide, by decide, by decide,
    ⟨[], true⟩, ⟨[], false⟩, by decide, by decide, by decide, ?_⟩
  · rintro ⟨r, e⟩
    by_contra hwf
    rw [h2 hwf] at e
    cases e
  · obtain ⟨r, e, _⟩ := h1 h
    exact ⟨r, e⟩
  · intro fuel hf
    obtain ⟨f, rfl⟩ : ∃ f, fuel = f + 1 := ⟨fuel - 1, by omega⟩
    cases f <;> rfl

/-- C9.  For well-formed decimal text of any length, leading zeros allowed, the
constructed big integer has the integer value the text denotes in base 10. -/
theorem of_string_value (s : List Char) (h : well_formed s) :
    ∃ r, of_string s = .ok r ∧ value r = denoted s := by
  obtain ⟨r, e, hs, _, hm⟩ := (of_string_spec s).1 h
  refine ⟨r, e, ?_⟩
  rw [value_eq, hs, hm, denoted]
  by_cases hh : s.head? = some '-'
  · simp [hh]
  · simp [hh]

theorem of_string_value_witness :
    well_formed "-000123456789012345678901234567890".data
      ∧ ∃ r, of_string "-000123456789012345678901234567890".data = .ok r
          ∧ value r = denoted "-000123456789012345678901234567890".data :=
  ⟨by decide, of_string_value _ (by decide)⟩

/-- C10.  For normalized `a`, `to_string(a)` (given a step budget above `|a|`) is
the canonical decimal text of the value: a `-` exactly when the value is negative,
then digits only, no leading zero unless the text is `0`, denoting `|a|`. -/
theorem to_string_canonical (a : big_integer) (fuel : Nat) (hn : normalized a)
    (hf : (value a).natAbs < fuel) :
    ∃ s, to_string fuel a = some (.ok ((if value a < 0 then ['-'] else []) ++ s))
      ∧ canonical_decimal s (value a).natAbs := by
  rw [natAbs_value] at hf ⊢
  exact to_string_spec fuel a hn hf

theorem to_string_canonical_witness :
    normalized ⟨[1312754386, 3279151342, 2397638646, 1], true⟩
      ∧ (value ⟨[1312754386, 3279151342, 2397638646, 1], true⟩).natAbs
          < 340282366920938463463374607431768211456
      ∧ ∃ s, to_string 340282366920938463463374607431768211456
              ⟨[1312754386, 3279151342, 2397638646, 1], true⟩
            = some (.ok ((if value ⟨[1312754386, 3279151342, 2397638646, 1], true⟩ < 0
                then ['-'] else []) ++ s))
          ∧ canonical_decimal s
              (value ⟨[1312754386, 3279151342, 2397638646, 1], true⟩).natAbs :=
  ⟨by decide, by decide, to_string_canonical _ _ (by decide) (by decide)⟩

/-! ## Representations and values -/

theorem getLast_tail_ne {x : Nat} {xs : List Nat} (h : (x :: xs).getLast? ≠ some 0) :
    xs.getLast? ≠ some 0 := by
  cases xs with
  | nil => simp
  | cons y ys => rwa [List.getLast?_cons_cons] at h

theorem mag_eq_zero_nil (a : List Nat) (hl : a.getLast? ≠ some 0) (h : mag a = 0) :
    a = [] := by
  by_contra hne
  have := mag_ge_of_normal a hne hl
  have hp : 0 < BASE ^ (a.length - 1) := Nat.pos_pow_of_pos _ (by simp [BASE])
  omega

/-- A normalized limb sequence is determined by its magnitude. -/
theorem mag_inj (a : List Nat) : ∀ b, limbs_ok a → limbs_ok b → a.getLast? ≠ some 0 →
    b.getLast? ≠ some 0 → mag a = mag b → a = b := by
  induction a with
  | nil =>
    intro b _ _ _ hlb h
    exact (mag_eq_zero_nil b hlb h.symm).symm
  | cons x xs ih =>
    intro b ha hb hla hlb h
    cases b with
    | nil => exact mag_eq_zero_nil _ hla h
    | cons y ys =>
      rw [limbs_ok_cons] at ha hb
      have hx := ha.1
      have hy := hb.1
      simp only [mag, BASE] at h hx hy
      have h1 : x = y := by omega
      have h2 : mag xs = mag ys := by omega
      rw [h1, ih ys ha.2 hb.2 (getLast_tail_ne hla) (getLast_tail_ne hlb) h2]

theorem value_eq_zero_iff (a : big_integer) : value a = 0 ↔ mag a._data = 0 := by
  rw [value_eq]
  split <;> simp

theorem eq_refl_true (a : big_integer) : eq a a = true := by
  simp [eq]

theorem value_of_eq (a b : big_integer) (h : eq a b = true) : value a = value b := by
  simp only [eq, eq_zero, length, Bool.or_eq_true, Bool.and_eq_true, beq_iff_eq,
    List.length_eq_zero] at h
  rcases h with ⟨h1, h2⟩ | ⟨h1, h2⟩
  · simp [value_eq, h1, h2, mag]
  · simp [value_eq, h1, h2]

/-- On normalized operands `operator==` is equality of the integer values. -/
theorem eq_iff_value (a b : big_integer) (ha : normalized a) (hb : normalized b) :
    eq a b = true ↔ value a = value b := by
  constructor
  · exact value_of_eq a b
  · intro h
    by_cases hz : mag a._data = 0
    · have hzb : mag b._data = 0 := by
        rw [← value_eq_zero_iff, ← h, value_eq_zero_iff]; exact hz
      have h1 := mag_eq_zero_nil _ ha.2 hz
      have h2 := mag_eq_zero_nil _ hb.2 hzb
      simp [eq, eq_zero, length, h1, h2]
    · have hm : mag a._data = mag b._data := by
        have := congrArg Int.natAbs h
        rwa [natAbs_value, natAbs_value] at this
      have hd := mag_inj _ _ ha.1 hb.1 ha.2 hb.2 hm
      have hs : a._sign = b._sign := by
        rw [value_eq, value_eq, hm] at h
        rw [hm] at hz
        cases hsa : a._sign <;> cases hsb : b._sign <;> simp_all <;> omega
      simp [eq, hd, hs]

theorem eq_decide_value (a b : big_integer) (ha : normalized a) (hb : normalized b) :
    eq a b = decide (value a = value b) := by
  by_cases h : value a = value b
  · simp [h, (eq_iff_value a b ha hb).2 h]
  · have : ¬ (eq a b = true) := fun e => h ((eq_iff_value a b ha hb).1 e)
    simp [h, this]

/-! ## Ordering -/

theorem gt_loop_spec (a b : List Nat) (s : Bool) (ha : limbs_ok a) (hb : limbs_ok b) :
    ∀ i, i ≤ a.length → i ≤ b.length →
      gt_loop a b s i = (decide (mag (a.take i) ≠ mag (b.take i))
        && xor (decide (mag (b.take i) < mag (a.take i))) s) := by
  intro i
  induction i with
  | zero => intro _ _; simp [gt_loop, mag]
  | succ i ih =>
    intro hia hib
    have hA : mag (a.take i) < BASE ^ i := by
      have := mag_lt (a.take i) (fun x hx => ha x (List.mem_of_mem_take hx))
      rwa [List.length_take, Nat.min_eq_left (by omega)] at this
    have hB : mag (b.take i) < BASE ^ i := by
      have := mag_lt (b.take i) (fun x hx => hb x (List.mem_of_mem_take hx))
      rwa [List.length_take, Nat.min_eq_left (by omega)] at this
    rw [mag_take_succ a i (by omega), mag_take_succ b i (by omega)]
    simp only [gt_loop]
    by_cases hxy : a.getD i 0 = b.getD i 0
    · rw [ih (by omega) (by omega)]
      simp only [hxy, bne_self_eq_false, Bool.false_eq_true, if_false, ne_eq,
        Nat.add_left_inj, Nat.add_lt_add_iff_right]
    · have h1 := cmp_top (BASE ^ i) _ _ _ _ hA hB hxy
      have h2 := cmp_top (BASE ^ i) _ _ _ _ hB hA (fun e => hxy e.symm)
      simp only [bne_iff_ne, ne_eq, hxy, not_false_eq_true, if_true, gt_iff_lt]
      have hne : mag (a.take i) + BASE ^ i * a.getD i 0
          ≠ mag (b.take i) + BASE ^ i * b.getD i 0 := by
        intro e
        have := h1.1 (le_of_eq e.symm)
        have := h2.1 (le_of_eq e)
        omega
      have hlt : (mag (b.take i) + BASE ^ i * b.getD i 0
          < mag (a.take i) + BASE ^ i * a.getD i 0) ↔ b.getD i 0 < a.getD i 0 := by
        constructor
        · intro h; exact h1.1 (le_of_lt h)
        · intro h
          have := h1.2 h
          omega
      simp only [hne, not_false_eq_true, decide_True, Bool.true_and]
      rw [decide_eq_decide.2 hlt]

/-- On normalized operands whose zero carries no sign, `operator>` is the order of
the integer values. -/
theorem gt_spec (a b : big_integer) (ha : normalized a) (hb : normalized b)
    (hza : a._data = [] → a._sign = false) (hzb : b._data = [] → b._sign = false) :
    gt a b = decide (value b < value a) := by
  have hpa : a._sign = true → 0 < mag a._data := by
    intro hs
    rcases Nat.eq_zero_or_pos (mag a._data) with h | h
    · have := hza (mag_eq_zero_nil _ ha.2 h)
      rw [hs] at this; cases this
    · exact h
  have hpb : b._sign = true → 0 < mag b._data := by
    intro hs
    rcases Nat.eq_zero_or_pos (mag b._data) with h | h
    · have := hzb (mag_eq_zero_nil _ hb.2 h)
      rw [hs] at this; cases this
    · exact h
  unfold gt
  by_cases hs : a._sign = b._sign
  · simp only [hs, bne_self_eq_false, Bool.false_eq_true, if_false]
    have hmain : (if (a._data.length != b._data.length) = true
          then xor (decide (a._data.length > b._data.length)) b._sign
          else gt_loop a._data b._data b._sign (length a))
        = (decide (mag a._data ≠ mag b._data)
            && xor (decide (mag b._data < mag a._data)) b._sign) := by
      by_cases hlen : a._data.length = b._data.length
      · simp only [hlen, bne_self_eq_false, Bool.false_eq_true, if_false, length]
        rw [gt_loop_spec a._data b._data b._sign ha.1 hb.1 b._data.length (by omega)
          (by omega)]
        conv_lhs => rw [← hlen, List.take_length, hlen, List.take_length]
      · simp only [bne_iff_ne, ne_eq, hlen, not_false_eq_true, if_true, gt_iff_lt]
        have h1 : mag a._data ≤ mag b._data → a._data.length ≤ b._data.length :=
          length_le_of_mag_le _ _ hb.1 ha.2
        have h2 : mag b._data ≤ mag a._data → b._data.length ≤ a._data.length :=
          length_le_of_mag_le _ _ ha.1 hb.2
        have hne : mag a._data ≠ mag b._data := by
          intro e
          have := h1 (le_of_eq e)
          have := h2 (le_of_eq e.symm)
          omega
        have hiff : b._data.length < a._data.length ↔ mag b._data < mag a._data := by
          constructor
          · intro h; by_contra hc; have := h1 (by omega); omega
          · intro h; by_contra hc; have := h2 (by omega); omega
        simp only [hne, not_false_eq_true, decide_True, Bool.true_and]
        rw [decide_eq_decide.2 hiff]
    rw [hmain, value_eq, value_eq, hs]
    cases hsb : b._sign
    · simp only [Bool.xor_false, Bool.false_eq_true, if_false, Nat.cast_lt]
      by_cases h : mag b._data < mag a._data
      · have : mag a._data ≠ mag b._data := by omega
        simp [h, this]
      · simp [h]
    · simp only [Bool.xor_true, if_true, neg_lt_neg_iff, Nat.cast_lt]
      by_cases h : mag a._data < mag b._data
      · have h1 : mag a._data ≠ mag b._data := by omega
        have h2 : ¬ mag b._data < mag a._data := by omega
        simp [h, h1, h2]
      · by_cases h2 : mag a._data = mag b._data
        · simp [h2]
        · have h3 : mag b._data < mag a._data := by omega
          simp [h, h3]
  · cases hsa : a._sign <;> cases hsb : b._sign
    · rw [hsa, hsb] at hs; exact absurd rfl hs
    · have := hpb hsb
      simp only [value_eq, hsa, hsb, bne_iff_ne, ne_eq, Bool.false_eq_true, not_false_eq_true,
        if_true, if_false, Bool.not_false, reduceCtorEq]
      symm
      rw [decide_eq_true_eq]
      omega
    · simp only [value_eq, hsa, hsb, bne_iff_ne, ne_eq, Bool.false_eq_true, not_false_eq_true,
        if_true, if_false, Bool.not_true, reduceCtorEq]
      symm
      rw [decide_eq_false_iff_not]
      omega
    · rw [hsa, hsb] at hs; exact absurd rfl hs

/-! ## Construction from native integers -/

theorem two_limbs (b : Nat) (hb0 : 0 < b) (hb : b < U64) :
    mag (if (b >>> EXP != 0) = true then [ui_cast b, ui_cast (b >>> EXP)] else [ui_cast b]) = b
      ∧ limbs_ok (if (b >>> EXP != 0) = true then [ui_cast b, ui_cast (b >>> EXP)]
          else [ui_cast b])
      ∧ (if (b >>> EXP != 0) = true then [ui_cast b, ui_cast (b >>> EXP)]
          else [ui_cast b]).getLast? ≠ some 0
      ∧ (if (b >>> EXP != 0) = true then [ui_cast b, ui_cast (b >>> EXP)]
          else [ui_cast b]).length ≤ 2 := by
  have hsh : b >>> EXP = b / 4294967296 := by
    rw [Nat.shiftRight_eq_div_pow]
    rfl
  rw [hsh]
  by_cases h : b / 4294967296 = 0
  · simp only [h, bne_self_eq_false, Bool.false_eq_true, if_false]
    refine ⟨?_, ?_, ?_, by simp⟩
    · simp only [mag, ui_cast, BASE, U64] at *
      omega
    · intro x hx
      simp only [List.mem_singleton] at hx
      subst hx
      exact Nat.mod_lt _ (by simp [BASE])
    · intro e
      simp only [List.getLast?_singleton, Option.some.injEq, ui_cast, BASE, U64] at *
      omega
  · simp only [bne_iff_ne, ne_eq, h, not_false_eq_true, if_true]
    refine ⟨?_, ?_, ?_, by simp⟩
    · simp only [mag, ui_cast, BASE, U64] at *
      omega
    · intro x hx
      simp only [List.mem_cons, List.mem_singleton, List.mem_nil_iff, or_false] at hx
      rcases hx with rfl | rfl <;> exact Nat.mod_lt _ (by simp [BASE])
    · intro e
      simp only [List.getLast?_cons_cons, List.getLast?_singleton, Option.some.injEq, ui_cast,
        BASE, U64] at *
      omega

theorem of_long_long_spec (n : Int) (h1 : -9223372036854775808 ≤ n)
    (h2 : n < 9223372036854775808) :
    value (of_long_long n) = n ∧ normalized (of_long_long n)
      ∧ length (of_long_long n) ≤ 2 ∧ ((of_long_long n)._sign = decide (n < 0)) := by
  by_cases h0 : n = 0
  · subst h0
    exact ⟨by decide, by decide, by decide, by decide⟩
  · have hne : (n != 0) = true := by simpa using h0
    by_cases hneg : n < 0
    · have hb : (if decide (n < 0) = true
          then (U64 - (n % (U64 : Int)).toNat) % U64 else (n % (U64 : Int)).toNat)
          = n.natAbs := by
        simp only [hneg, decide_True, if_true, U64]
        omega
      obtain ⟨t1, t2, t3, t4⟩ := two_limbs n.natAbs (by omega) (by simp only [U64]; omega)
      simp only [of_long_long, hne, if_true, hb]
      refine ⟨?_, ⟨t2, t3⟩, t4, trivial⟩
      rw [value_eq]
      simp only [hneg, decide_True, if_true, t1]
      omega
    · have hb : (if decide (n < 0) = true
          then (U64 - (n % (U64 : Int)).toNat) % U64 else (n % (U64 : Int)).toNat)
          = n.natAbs := by
        simp only [hneg, decide_False, Bool.false_eq_true, if_false, U64]
        omega
      obtain ⟨t1, t2, t3, t4⟩ := two_limbs n.natAbs (by omega) (by simp only [U64]; omega)
      simp only [of_long_long, hne, if_true, hb]
      refine ⟨?_, ⟨t2, t3⟩, t4, trivial⟩
      rw [value_eq]
      simp only [hneg, decide_False, Bool.false_eq_true, if_false, t1]
      omega

theorem of_unsigned_long_long_wide (u : Nat) (h : u < U64) :
    value (of_unsigned_long_long u) = u ∧ normalized (of_unsigned_long_long u)
      ∧ length (of_unsigned_long_long u) ≤ 2 ∧ (of_unsigned_long_long u)._sign = false := by
  have hsh : u >>> EXP = u / BASE := by
    rw [Nat.shiftRight_eq_div_pow]
    rfl
  have hl : limbs_ok [ui_cast u, ui_cast (u >>> EXP)] := by
    intro x hx
    simp only [List.mem_cons, List.mem_singleton, List.mem_nil_iff, or_false] at hx
    rcases hx with rfl | rfl <;> exact Nat.mod_lt _ (by simp [BASE])
  have hm : mag [ui_cast u, ui_cast (u >>> EXP)] = u := by
    rw [hsh]
    simp only [mag, ui_cast, BASE, U64] at *
    omega
  refine ⟨?_, trim_normalized _ hl, ?_, rfl⟩
  · rw [value_eq]
    simp only [of_unsigned_long_long, trim, Bool.false_eq_true, if_false, mag_trim_data, hm]
  · simp only [of_unsigned_long_long, trim, length]
    exact le_trans (length_trim_data_le _) (by simp)

/-! ## Printing and reading back -/

/-- Printing takes one loop iteration per base-`10^9` digit. -/
theorem to_string_steps (fuel : Nat) (a : big_integer) (hn : normalized a)
    (hf : mag a._data < 1000000000 ^ fuel) (h1f : 1 ≤ fuel) :
    ∃ s, to_string fuel a = some (.ok ((if value a < 0 then ['-'] else []) ++ s))
      ∧ canonical_decimal s (mag a._data) := by
  obtain ⟨t, e, h1, h2, h3, h4⟩ := to_string_loop_steps fuel a [] hn hf (fun _ => h1f)
  have hneg : (a._sign && !eq_zero a) = true ↔ value a < 0 := by
    rw [value_neg_iff a hn]
    cases hd : a._data <;> simp [eq_zero, length, hd]
  refine ⟨t.reverse, ?_, ?_, ?_, ?_, h2⟩
  · simp only [to_string, e, List.nil_append]
    by_cases hv : value a < 0
    · simp [hneg.2 hv, hv]
    · have : ¬ ((a._sign && !eq_zero a) = true) := fun h => hv (hneg.1 h)
      simp [this, hv]
  · intro h
    have ht : t = [] := by simpa using h
    by_cases hm : mag a._data = 0
    · have := h4 hm
      simp [ht] at this
    · have := (h3 hm).1
      simp [ht] at this
  · intro c hc
    exact h1 c (List.mem_reverse.1 hc)
  · intro hh
    rw [List.head?_reverse] at hh
    by_cases hm : mag a._data = 0
    · have := h4 hm
      simp only [if_true] at this
      rw [this]
      rfl
    · exact absurd hh (h3 hm).2

/-- Reading back the canonical text of a normalized value whose zero carries no sign
gives the very same representation. -/
theorem of_string_canonical (a : big_integer) (hn : normalized a)
    (hz : a._data = [] → a._sign = false) (s : List Char)
    (hc : canonical_decimal s (mag a._data)) :
    of_string ((if value a < 0 then ['-'] else []) ++ s) = .ok a := by
  obtain ⟨hne, hdig, _, hval⟩ := hc
  have hhead : s.head? ≠ some '-' := by
    cases s with
    | nil => exact absurd rfl hne
    | cons c cs =>
      intro h
      simp only [List.head?_cons, Option.some.injEq] at h
      have := hdig c (List.mem_cons_self _ _)
      rw [h] at this
      exact absurd this (by decide)
  by_cases hv : value a < 0
  · have hsign : a._sign = true := ((value_neg_iff a hn).1 hv).1
    have hwf : well_formed ('-' :: s) := by
      refine ⟨?_, ?_⟩
      · simpa [digits_of] using hne
      · simpa [digits_of] using hdig
    obtain ⟨r, e, hs, hnr, hm⟩ := (of_string_spec ('-' :: s)).1 hwf
    have hd : r._data = a._data := by
      apply mag_inj _ _ hnr.1 hn.1 hnr.2 hn.2
      rw [hm, ← hval]
      simp [digits_of]
    simp only [hv, if_true, List.singleton_append, e]
    congr 1
    cases r; cases a
    simp_all
  · have hsign : a._sign = false := by
      by_contra hs
      have hs' : a._sign = true := by simpa using hs
      have hd : a._data = [] := by
        by_contra hd
        exact hv ((value_neg_iff a hn).2 ⟨hs', hd⟩)
      exact hs (hz hd)
    have hwf : well_formed s := by
      refine ⟨?_, ?_⟩
      · simpa [digits_of, hhead] using hne
      · simpa [digits_of, hhead] using hdig
    obtain ⟨r, e, hs, hnr, hm⟩ := (of_string_spec s).1 hwf
    have hd : r._data = a._data := by
      apply mag_inj _ _ hnr.1 hn.1 hnr.2 hn.2
      rw [hm, ← hval]
      simp [digits_of, hhead]
    have hs' : r._sign = false := by
      rw [hs]
      simpa using hhead
    simp only [hv, if_false, List.nil_append, e]
    congr 1
    cases r; cases a
    simp_all

/-- Printing a normalized value whose zero carries no sign, reading the text back
and printing again: the value read back is the value printed. -/
theorem round_trip (fuel : Nat) (a : big_integer) (hn : normalized a)
    (hz : a._data = [] → a._sign = false) (hf : mag a._data < 1000000000 ^ fuel)
    (h1f : 1 ≤ fuel) :
    ∃ s, to_string fuel a = some (.ok s) ∧ ∃ r, of_string s = .ok r ∧ eq r a = true
      ∧ to_string fuel r = some (.ok s) := by
  obtain ⟨s, e, hc⟩ := to_string_steps fuel a hn hf h1f
  exact ⟨_, e, a, of_string_canonical a hn hz s hc, eq_refl_true a, e⟩

/-! ## Results that are zero -/

theorem negate_normalized (a : big_integer) (h : normalized a) : normalized (negate a) := h

theorem value_negate (a : big_integer) : value (negate a) = -value a := by
  simp only [value_eq, negate]
  cases a._sign <;> simp

theorem eq_of_data_sign (r : big_integer) (d : List Nat) (s : Bool) (hd : r._data = d)
    (hs : r._sign = s) : r = ⟨d, s⟩ := by
  cases r
  simp_all

/-- `a - a` has no limbs and keeps the sign flag of `a`. -/
theorem minus_self (a : big_integer) (ha : normalized a) :
    minus a a = .ok ⟨[], a._sign⟩ := by
  obtain ⟨r, e, hn, h⟩ := sub_abs_spec false a a ha ha
  have hf : r._sign = a._sign ∧ mag r._data = 0 := by
    rcases h with ⟨_, h1, h2⟩ | ⟨hlt, _, _⟩
    · exact ⟨h1, by omega⟩
    · omega
  have hd := mag_eq_zero_nil _ hn.2 hf.2
  rw [← eq_of_data_sign r [] a._sign hd hf.1]
  simp [minus, sub_with_ignore, e]

/-- `a + (-a)` has no limbs and keeps the sign flag of `a`. -/
theorem plus_negate (a : big_integer) (ha : normalized a) :
    plus a (negate a) = .ok ⟨[], a._sign⟩ := by
  obtain ⟨r, e, hn, h⟩ := sub_abs_spec true a (negate a) ha (negate_normalized a ha)
  have hf : r._sign = a._sign ∧ mag r._data = 0 := by
    rcases h with ⟨_, h1, h2⟩ | ⟨hlt, _, _⟩
    · simp only [negate] at h2
      exact ⟨h1, by omega⟩
    · simp only [negate] at hlt
      omega
  have hd := mag_eq_zero_nil _ hn.2 hf.2
  rw [← eq_of_data_sign r [] a._sign hd hf.1]
  have hs : (a._sign != (negate a)._sign) = true := by
    simp only [negate]
    cases a._sign <;> rfl
  simp [plus, add_with_ignore, hs, e]

/-- `0 * b` has no limbs and carries the sign flag of `b`. -/
theorem zero_times (b : big_integer) (hb : normalized b) :
    times (of_long_long 0) b = .ok ⟨[], b._sign⟩ := by
  obtain ⟨r, e, hs, hm, hn⟩ := times_spec (of_long_long 0) b limbs_ok_nil hb.1
  have hz : mag r._data = 0 := by
    rw [hm]
    simp [of_long_long, zero, mag]
  have hd := mag_eq_zero_nil _ hn.2 hz
  have hs' : r._sign = b._sign := by
    rw [hs]
    simp [of_long_long, zero]
  rw [← eq_of_data_sign r [] b._sign hd hs']
  exact e

theorem one_limb (b : big_integer) (hb : normalized b) (hl : length b = 1) :
    ∃ v, b = ⟨[v], b._sign⟩ ∧ 0 < v ∧ v < BASE ∧ mag b._data = v := by
  cases b with
  | mk d s =>
    cases d with
    | nil => simp [length] at hl
    | cons v vs =>
      cases vs with
      | nil =>
        refine ⟨v, rfl, ?_, hb.1 v (List.mem_cons_self _ _), by simp [mag]⟩
        rcases Nat.eq_zero_or_pos v with h | h
        · exact absurd (by simp [h]) hb.2
        · exact h
      | cons w ws => simp [length] at hl

/-- A quotient by a one-limb divisor of larger magnitude has no limbs and the
exclusive-or of the sign flags. -/
theorem divide_small_single (a b : big_integer) (ha : normalized a) (hb : normalized b)
    (hl : length b = 1) (hlt : mag a._data < mag b._data) :
    divide a b = .ok ⟨[], xor a._sign b._sign⟩ := by
  obtain ⟨v, hbv, hv0, hv, hmv⟩ := one_limb b hb hl
  obtain ⟨r, e, hs, hm, hn⟩ := divide_single a v b._sign hv0 hv ha.1
  have hz : mag r._data = 0 := by
    rw [hm]
    exact Nat.div_eq_of_lt (by omega)
  have hd := mag_eq_zero_nil _ hn.2 hz
  rw [← eq_of_data_sign r [] _ hd hs, hbv]
  exact e

/-- A quotient by a divisor of two or more limbs and larger magnitude is the
literal `0`, sign flag clear. -/
theorem divide_small_long (a b : big_integer) (ha : normalized a) (hb : normalized b)
    (hl : 2 ≤ length b) (hlt : mag a._data < mag b._data) :
    divide a b = .ok ⟨[], false⟩ := by
  have hne : b._data ≠ [] := by
    intro h
    simp [length, h] at hl
  have hb' : (b._data == []) = false := by simpa using hne
  have hl1 : (length b == 1) = false := by
    simp only [beq_eq_false_iff_ne, ne_eq]
    omega
  have hgt : gt ⟨b._data, false⟩ ⟨a._data, false⟩ = true := by
    rw [gt_spec ⟨b._data, false⟩ ⟨a._data, false⟩ hb ha (fun _ => rfl) (fun _ => rfl)]
    simp only [value_eq, Bool.false_eq_true, if_false, Nat.cast_lt, decide_eq_true_eq]
    exact hlt
  simp only [divide, abstract_division, eq_zero_literal, hb', Bool.false_eq_true, if_false,
    hl1, hgt, if_true]
  rfl

/-- The remainder by a one-limb divisor that divides `a` has no limbs and keeps the
sign flag of `a`. -/
theorem modulo_divisible_single (a b : big_integer) (ha : normalized a) (hb : normalized b)
    (hl : length b = 1) (hdvd : mag b._data ∣ mag a._data) :
    modulo a b = .ok ⟨[], a._sign⟩ := by
  obtain ⟨v, hbv, hv0, hv, hmv⟩ := one_limb b hb hl
  obtain ⟨r, e, hs, hm, hn⟩ := modulo_single a v b._sign hv0 hv ha
  have hz : mag r._data = 0 := by
    rw [hm, ← hmv]
    exact Nat.mod_eq_zero_of_dvd hdvd
  have hd := mag_eq_zero_nil _ hn.2 hz
  rw [← eq_of_data_sign r [] _ hd hs, hbv]
  exact e

/-- A value without limbs equals the literal `0` and prints as `0`, whatever its
sign flag. -/
theorem no_limbs_is_zero (s : Bool) :
    eq ⟨[], s⟩ (of_long_long 0) = true
      ∧ ∀ fuel, 0 < fuel → to_string fuel ⟨[], s⟩ = some (.ok ['0']) := by
  refine ⟨by cases s <;> rfl, ?_⟩
  intro fuel hf
  obtain ⟨f, rfl⟩ : ∃ f, fuel = f + 1 := ⟨fuel - 1, by omega⟩
  cases s <;> cases f <;> rfl

theorem native_magnitude_steps (m fuel : Nat) (hm : m < U64) (hf : 3 ≤ fuel) :
    m < 1000000000 ^ fuel := by
  have h1 : (1000000000 : Nat) ^ 3 ≤ 1000000000 ^ fuel :=
    Nat.pow_le_pow_right (by norm_num) hf
  have h2 : U64 < (1000000000 : Nat) ^ 3 := by norm_num [U64]
  omega

/-! ## The claims on construction, identities and order -/

/-- C11.  For every signed 64-bit `n` and unsigned 64-bit `u`, with `a` the big
integer built from it: `to_string(a)` (three loop iterations are enough) is read
back by the string constructor as a value `r` with `r == a`, and
`to_string(r)` is `to_string(a)`. -/
theorem round_trip_native (n : Int) (u fuel : Nat) (h1 : -9223372036854775808 ≤ n)
    (h2 : n < 9223372036854775808) (hu : u < 18446744073709551616) (hf : 3 ≤ fuel) :
    (∃ s, to_string fuel (of_long_long n) = some (.ok s)
        ∧ ∃ r, of_string s = .ok r ∧ eq r (of_long_long n) = true
          ∧ to_string fuel r = some (.ok s))
      ∧ (∃ s, to_string fuel (of_unsigned_long_long u) = some (.ok s)
        ∧ ∃ r, of_string s = .ok r ∧ eq r (of_unsigned_long_long u) = true
          ∧ to_string fuel r = some (.ok s)) := by
  obtain ⟨v1, n1, _, s1⟩ := of_long_long_spec n h1 h2
  obtain ⟨v2, n2, _, s2⟩ := of_unsigned_long_long_wide u hu
  constructor
  · apply round_trip fuel _ n1 _ _ (by omega)
    · intro hd
      have hz : value (of_long_long n) = 0 := by
        rw [value_eq_zero_iff, hd]; rfl
      rw [s1]
      simp only [decide_eq_false_iff_not]
      omega
    · apply native_magnitude_steps _ _ _ hf
      rw [← natAbs_value, v1]
      simp only [U64]
      omega
  · apply round_trip fuel _ n2 (fun _ => s2) _ (by omega)
    apply native_magnitude_steps _ _ _ hf
    have : (mag (of_unsigned_long_long u)._data : Int) = u := by
      rw [← v2, value_eq, s2]
      simp
    simp only [U64]
    omega

theorem round_trip_native_witness :
    (∃ s, to_string 3 (of_long_long (-9223372036854775808)) = some (.ok s)
        ∧ ∃ r, of_string s = .ok r ∧ eq r (of_long_long (-9223372036854775808)) = true
          ∧ to_string 3 r = some (.ok s))
      ∧ (∃ s, to_string 3 (of_unsigned_long_long 18446744073709551615) = some (.ok s)
        ∧ ∃ r, of_string s = .ok r
          ∧ eq r (of_unsigned_long_long 18446744073709551615) = true
          ∧ to_string 3 r = some (.ok s)) :=
  round_trip_native (-9223372036854775808) 18446744073709551615 3 (by decide) (by decide)
    (by decide) (by decide)

/-- C12.  The constructor from a signed 64-bit `n` (the minimum `-2^63` included)
gives the integer value `n`, a normalized limb sequence of at most two limbs and a
sign flag set exactly when `n < 0`; the constructor from an unsigned 64-bit `u`
gives the value `u`, normalized, at most two limbs, sign flag clear. -/
theorem native_constructor_value (n : Int) (u : Nat) (h1 : -9223372036854775808 ≤ n)
    (h2 : n < 9223372036854775808) (hu : u < 18446744073709551616) :
    (value (of_long_long n) = n ∧ normalized (of_long_long n)
        ∧ length (of_long_long n) ≤ 2 ∧ ((of_long_long n)._sign = true ↔ n < 0))
      ∧ (value (of_unsigned_long_long u) = u ∧ normalized (of_unsigned_long_long u)
        ∧ length (of_unsigned_long_long u) ≤ 2
        ∧ (of_unsigned_long_long u)._sign = false) := by
  obtain ⟨v1, n1, l1, s1⟩ := of_long_long_spec n h1 h2
  exact ⟨⟨v1, n1, l1, by rw [s1]; simp⟩, of_unsigned_long_long_wide u hu⟩

theorem native_constructor_value_witness :
    (value (of_long_long (-9223372036854775808)) = -9223372036854775808
        ∧ normalized (of_long_long (-9223372036854775808))
        ∧ length (of_long_long (-9223372036854775808)) ≤ 2
        ∧ ((of_long_long (-9223372036854775808))._sign = true
            ↔ (-9223372036854775808 : Int) < 0))
      ∧ (value (of_unsigned_long_long 18446744073709551615) = (18446744073709551615 : Nat)
        ∧ normalized (of_unsigned_long_long 18446744073709551615)
        ∧ length (of_unsigned_long_long 18446744073709551615) ≤ 2
        ∧ (of_unsigned_long_long 18446744073709551615)._sign = false) :=
  native_constructor_value (-9223372036854775808) 18446744073709551615 (by decide)
    (by decide) (by decide)

/-- C13.  For normalized `a`: `a + 0 == a`, `a + (-a) == 0` and `a - a == 0`. -/
theorem additive_identity_inverse (a : big_integer) (ha : normalized a) :
    (∃ r, plus a (of_long_long 0) = .ok r ∧ eq r a = true)
      ∧ (∃ r, plus a (negate a) = .ok r ∧ eq r (of_long_long 0) = true)
      ∧ (∃ r, minus a a = .ok r ∧ eq r (of_long_long 0) = true) := by
  refine ⟨?_, ⟨_, plus_negate a ha, (no_limbs_is_zero _).1⟩,
    ⟨_, minus_self a ha, (no_limbs_is_zero _).1⟩⟩
  obtain ⟨r, e, hv, hn⟩ := plus_spec a (of_long_long 0) ha (by decide)
  refine ⟨r, e, (eq_iff_value r a hn ha).2 ?_⟩
  rw [hv]
  have : value (of_long_long 0) = 0 := by decide
  omega

theorem additive_identity_inverse_witness :
    normalized ⟨[0, 5], true⟩
      ∧ (∃ r, plus ⟨[0, 5], true⟩ (of_long_long 0) = .ok r ∧ eq r ⟨[0, 5], true⟩ = true)
      ∧ (∃ r, plus ⟨[0, 5], true⟩ (negate ⟨[0, 5], true⟩) = .ok r
          ∧ eq r (of_long_long 0) = true)
      ∧ (∃ r, minus ⟨[0, 5], true⟩ ⟨[0, 5], true⟩ = .ok r ∧ eq r (of_long_long 0) = true) :=
  ⟨by decide, additive_identity_inverse _ (by decide)⟩

/-- C14.  For normalized `a`, `b`, `c`: `a * (b + c) == a * b + a * c`, every
operation involved returning without fault. -/
theorem times_distributes (a b c : big_integer) (ha : normalized a) (hb : normalized b)
    (hc : normalized c) :
    ∃ s l ab ac r, plus b c = .ok s ∧ times a s = .ok l ∧ times a b = .ok ab
      ∧ times a c = .ok ac ∧ plus ab ac = .ok r ∧ eq l r = true := by
  obtain ⟨s, es, vs, ns⟩ := plus_spec b c hb hc
  obtain ⟨l, el, vl, nl⟩ := times_value a s ha.1 ns.1
  obtain ⟨ab, eab, vab, nab⟩ := times_value a b ha.1 hb.1
  obtain ⟨ac, eac, vac, nac⟩ := times_value a c ha.1 hc.1
  obtain ⟨r, er, vr, nr⟩ := plus_spec ab ac nab nac
  refine ⟨s, l, ab, ac, r, es, el, eab, eac, er, (eq_iff_value l r nl nr).2 ?_⟩
  rw [vl, vr, vs, vab, vac]
  ring

theorem times_distributes_witness :
    normalized ⟨[4294967295, 7], true⟩ ∧ normalized ⟨[1, 4294967295], false⟩
      ∧ normalized ⟨[2, 4294967295], true⟩
      ∧ ∃ s l ab ac r, plus ⟨[1, 4294967295], false⟩ ⟨[2, 4294967295], true⟩ = .ok s
          ∧ times ⟨[4294967295, 7], true⟩ s = .ok l
          ∧ times ⟨[4294967295, 7], true⟩ ⟨[1, 4294967295], false⟩ = .ok ab
          ∧ times ⟨[4294967295, 7], true⟩ ⟨[2, 4294967295], true⟩ = .ok ac
          ∧ plus ab ac = .ok r ∧ eq l r = true :=
  ⟨by decide, by decide, by decide, times_distributes _ _ _ (by decide) (by decide) (by decide)⟩

/-- C15 (the code departs from it).  `parse("-0")`, `-big_integer(0)` and
`(-1) - (-1)` are zero with the sign flag set; for such an `a` and `b = 0` both
`a == b` and `a < b` hold, and `b > a` holds as well. -/
theorem ordering_negative_zero :
    parse "-0" = .ok ⟨[], true⟩ ∧ negate (of_long_long 0) = ⟨[], true⟩
      ∧ minus (of_long_long (-1)) (of_long_long (-1)) = .ok ⟨[], true⟩
      ∧ eq ⟨[], true⟩ (of_long_long 0) = true ∧ lt ⟨[], true⟩ (of_long_long 0) = true
      ∧ gt (of_long_long 0) ⟨[], true⟩ = true ∧ eq (of_long_long 0) ⟨[], true⟩ = true := by
  decide

/-- C16.  For normalized `a` and `b` whose sign flag is clear when they are zero,
the six comparison operators agree with the order of the integer values. -/
theorem comparisons_agree (a b : big_integer) (ha : normalized a) (hb : normalized b)
    (hza : a._data = [] → a._sign = false) (hzb : b._data = [] → b._sign = false) :
    (lt a b = true ↔ value a < value b) ∧ (gt a b = true ↔ value a > value b)
      ∧ (le a b = true ↔ value a ≤ value b) ∧ (ge a b = true ↔ value a ≥ value b)
      ∧ (eq a b = true ↔ value a = value b) ∧ (ne a b = true ↔ value a ≠ value b) := by
  have h1 := gt_spec a b ha hb hza hzb
  have h2 := gt_spec b a hb ha hzb hza
  have h3 := eq_iff_value a b ha hb
  refine ⟨?_, ?_, ?_, ?_, h3, ?_⟩
  · simp [lt, ge, h2]
  · simp [h1]
  · simp [le, h1]
  · simp [ge, h2]
  · simp only [ne, Bool.not_eq_true', ne_eq, ← h3]
    cases eq a b <;> simp

theorem comparisons_agree_witness :
    normalized ⟨[7, 1], true⟩ ∧ normalized ⟨[9, 1], true⟩
      ∧ (lt ⟨[7, 1], true⟩ ⟨[9, 1], true⟩ = true
          ↔ value ⟨[7, 1], true⟩ < value ⟨[9, 1], true⟩)
      ∧ (gt ⟨[7, 1], true⟩ ⟨[9, 1], true⟩ = true
          ↔ value ⟨[7, 1], true⟩ > value ⟨[9, 1], true⟩) :=
  ⟨by decide, by decide,
    (comparisons_agree ⟨[7, 1], true⟩ ⟨[9, 1], true⟩ (by decide) (by decide) (by decide)
      (by decide)).1,
    (comparisons_agree ⟨[7, 1], true⟩ ⟨[9, 1], true⟩ (by decide) (by decide) (by decide)
      (by decide)).2.1⟩

/-- C17 (the code departs from it).  For the normalized `a = -1`, `b = 2`, `c = -4`,
`e = -(2^33 + 2)` and `f = 2^32 + 1`, the zero results of `a - a`, `a + (-a)`,
`-big_integer(0)`, `parse("-0")`, `0 * a`, `1 / (-2)`, `c % b` and `e % f` all carry
`sign = true`.  Sibling paths do clear the flag: `++a` gives the zero with the flag
clear where `a + 1` keeps it set, and `1 / (-f)`, through `*this = 0`, gives it clear
where `1 / (-2)` keeps it set.  The flag left on a zero changes later results: `++` of
that zero is `-1`, that zero is `< 0` while `== 0`, and `(-0) | 5` is `-4294967291`. -/
theorem zero_keeps_sign :
    normalized ⟨[1], true⟩ ∧ normalized ⟨[2], false⟩ ∧ normalized ⟨[4], true⟩
      ∧ normalized ⟨[2, 2], true⟩ ∧ normalized ⟨[1, 1], false⟩
      ∧ minus ⟨[1], true⟩ ⟨[1], true⟩ = .ok ⟨[], true⟩
      ∧ plus ⟨[1], true⟩ (negate ⟨[1], true⟩) = .ok ⟨[], true⟩
      ∧ negate (of_long_long 0) = ⟨[], true⟩
      ∧ parse "-0" = .ok ⟨[], true⟩
      ∧ times (of_long_long 0) ⟨[1], true⟩ = .ok ⟨[], true⟩
      ∧ divide ⟨[1], false⟩ ⟨[2], true⟩ = .ok ⟨[], true⟩
      ∧ modulo ⟨[4], true⟩ ⟨[2], false⟩ = .ok ⟨[], true⟩
      ∧ modulo ⟨[2, 2], true⟩ ⟨[1, 1], false⟩ = .ok ⟨[], true⟩
      ∧ increment ⟨[1], true⟩ = ⟨[], false⟩
      ∧ plus ⟨[1], true⟩ (of_long_long 1) = .ok ⟨[], true⟩
      ∧ divide ⟨[1], false⟩ ⟨[1, 1], true⟩ = .ok ⟨[], false⟩
      ∧ increment ⟨[], true⟩ = ⟨[1], true⟩
      ∧ eq ⟨[], true⟩ (of_long_long 0) = true
      ∧ lt ⟨[], true⟩ (of_long_long 0) = true
      ∧ bit_or ⟨[], true⟩ ⟨[5], false⟩ = .ok ⟨[4294967291], true⟩ := by
  decide

/-- The sign flag of a zero result, as the code computes it.  For normalized `a` and
`b`, a zero result of the operations below has no limbs, compares `==` to `0` and
prints as `0`, and its sign flag is: the sign
flag of `a` for `a - a`, `a + (-a)` and `a % b` (`b` of one limb dividing `a`); set
for `-big_integer(0)` and `parse("-0")`; the sign flag of `b` for `0 * b`; for
`a / b` with `|a| < |b|`, clear when `b` has two or more limbs and the exclusive-or
of the two sign flags when `b` has one limb. -/
theorem zero_result_sign (a b : big_integer) (ha : normalized a) (hb : normalized b) :
    minus a a = .ok ⟨[], a._sign⟩
      ∧ plus a (negate a) = .ok ⟨[], a._sign⟩
      ∧ negate (of_long_long 0) = ⟨[], true⟩
      ∧ parse "-0" = .ok ⟨[], true⟩
      ∧ times (of_long_long 0) b = .ok ⟨[], b._sign⟩
      ∧ (mag a._data < mag b._data → 2 ≤ length b → divide a b = .ok ⟨[], false⟩)
      ∧ (mag a._data < mag b._data → length b = 1 →
          divide a b = .ok ⟨[], xor a._sign b._sign⟩)
      ∧ (length b = 1 → mag b._data ∣ mag a._data → modulo a b = .ok ⟨[], a._sign⟩)
      ∧ ∀ s, eq ⟨[], s⟩ (of_long_long 0) = true
          ∧ ∀ fuel, 0 < fuel → to_string fuel ⟨[], s⟩ = some (.ok ['0']) :=
  ⟨minus_self a ha, plus_negate a ha, by decide, by decide, zero_times b hb,
    fun hlt hl => divide_small_long a b ha hb hl hlt,
    fun hlt hl => divide_small_single a b ha hb hl hlt,
    fun hl hd => modulo_divisible_single a b ha hb hl hd, no_limbs_is_zero⟩

theorem zero_result_sign_witness :
    normalized ⟨[6], false⟩ ∧ normalized ⟨[1, 2], true⟩
      ∧ minus ⟨[6], false⟩ ⟨[6], false⟩ = .ok ⟨[], false⟩
      ∧ times (of_long_long 0) ⟨[1, 2], true⟩ = .ok ⟨[], true⟩
      ∧ (mag [6] < mag [1, 2] → 2 ≤ length ⟨[1, 2], true⟩ →
          divide ⟨[6], false⟩ ⟨[1, 2], true⟩ = .ok ⟨[], false⟩) :=
  ⟨by decide, by decide,
    (zero_result_sign ⟨[6], false⟩ ⟨[1, 2], true⟩ (by decide) (by decide)).1,
    (zero_result_sign ⟨[6], false⟩ ⟨[1, 2], true⟩ (by decide) (by decide)).2.2.2.2.1,
    (zero_result_sign ⟨[6], false⟩ ⟨[1, 2], true⟩ (by decide) (by decide)).2.2.2.2.2.1⟩

/-- C18.  For normalized `a` and `b`, the results of `a += b`, `a -= b` and `a *= b`
are normalized (32-bit limbs, no most-significant zero limb) and have no limbs at all
when their value is zero. -/
theorem arithmetic_normalized (a b : big_integer) (ha : normalized a) (hb : normalized b) :
    (∃ r, plus a b = .ok r ∧ normalized r ∧ (value r = 0 → r._data = []))
      ∧ (∃ r, minus a b = .ok r ∧ normalized r ∧ (value r = 0 → r._data = []))
      ∧ (∃ r, times a b = .ok r ∧ normalized r ∧ (value r = 0 → r._data = [])) := by
  obtain ⟨r1, e1, _, n1⟩ := plus_spec a b ha hb
  obtain ⟨r2, e2, _, n2⟩ := minus_spec a b ha hb
  obtain ⟨r3, e3, _, n3⟩ := times_value a b ha.1 hb.1
  exact ⟨⟨r1, e1, n1, fun h => mag_eq_zero_nil _ n1.2 ((value_eq_zero_iff r1).1 h)⟩,
    ⟨r2, e2, n2, fun h => mag_eq_zero_nil _ n2.2 ((value_eq_zero_iff r2).1 h)⟩,
    ⟨r3, e3, n3, fun h => mag_eq_zero_nil _ n3.2 ((value_eq_zero_iff r3).1 h)⟩⟩

theorem arithmetic_normalized_witness :
    normalized ⟨[0, 0, 1], false⟩ ∧ normalized ⟨[1], false⟩
      ∧ (∃ r, plus ⟨[0, 0, 1], false⟩ ⟨[1], false⟩ = .ok r ∧ normalized r
          ∧ (value r = 0 → r._data = []))
      ∧ (∃ r, minus ⟨[0, 0, 1], false⟩ ⟨[1], false⟩ = .ok r ∧ normalized r
          ∧ (value r = 0 → r._data = []))
      ∧ (∃ r, times ⟨[0, 0, 1], false⟩ ⟨[1], false⟩ = .ok r ∧ normalized r
          ∧ (value r = 0 → r._data = [])) :=
  ⟨by decide, by decide, arithmetic_normalized _ _ (by decide) (by decide)⟩

/-- C19 (the code departs from it).  `++a` for the normalized `a = 2^32 - 1` leaves
the single limb `0`: a most-significant zero limb, `eq_zero()` false although the
value is zero.  `--a` for `a = -(2^32 - 1)` leaves the same limb. -/
theorem increment_not_normalized :
    normalized ⟨[4294967295], false⟩ ∧ normalized ⟨[4294967295], true⟩
      ∧ increment ⟨[4294967295], false⟩ = ⟨[0], false⟩
      ∧ decrement ⟨[4294967295], true⟩ = ⟨[0], true⟩
      ∧ [0].getLast? = some 0
      ∧ eq_zero (increment ⟨[4294967295], false⟩) = false
      ∧ value (increment ⟨[4294967295], false⟩) = 0
      ∧ eq_zero (decrement ⟨[4294967295], true⟩) = false
      ∧ value (decrement ⟨[4294967295], true⟩) = 0 := by
  decide

/-- C20 (the code departs from it).  With `a = 2^32 - 1`, `++a` is the limb `0`
while `a + 1` is `2^32`; with `a = 2^32`, `--a` is `2^33 - 1` while `a - 1` is
`2^32 - 1`: the carry and the borrow do not cross the limb boundary.  Where no
carry is needed (`a = 5`) the two agree; the increment loop only ever rewrites
the first limb. -/
theorem increment_loses_carry :
    increment ⟨[4294967295], false⟩ = ⟨[0], false⟩
      ∧ plus ⟨[4294967295], false⟩ (of_long_long 1) = .ok ⟨[0, 1], false⟩
      ∧ eq ⟨[0], false⟩ ⟨[0, 1], false⟩ = false
      ∧ decrement ⟨[0, 1], false⟩ = ⟨[4294967295, 1], false⟩
      ∧ minus ⟨[0, 1], false⟩ (of_long_long 1) = .ok ⟨[4294967295], false⟩
      ∧ eq ⟨[4294967295, 1], false⟩ ⟨[4294967295], false⟩ = false
      ∧ increment ⟨[5], false⟩ = ⟨[6], false⟩
      ∧ post_increment ⟨[5], false⟩ = (⟨[5], false⟩, ⟨[6], false⟩)
      ∧ ∀ x xs, increment_loop (x :: xs) 1 = ((x + 1) % BASE :: xs, 0) := by
  refine ⟨by decide, by decide, by decide, by decide, by decide, by decide, by decide,
    by decide, ?_⟩
  intro x xs
  have h0 : ∀ l : List Nat, increment_loop l 0 = (l, 0) := by
    intro l
    cases l <;> simp [increment_loop]
  have hs : ((x + 1) % BASE) >>> EXP = 0 := by
    rw [Nat.shiftRight_eq_div_pow]
    exact Nat.div_eq_of_lt (Nat.mod_lt _ (by norm_num [BASE]))
  simp [increment_loop, hs, ui_cast, h0]

/-! ## Operator `~` -/

theorem increment_loop_zero (l : List Nat) : increment_loop l 0 = (l, 0) := by
  cases l <;> simp [increment_loop]

theorem wrapped_shift (n : Nat) : (n % BASE) >>> EXP = 0 := by
  rw [Nat.shiftRight_eq_div_pow]
  exact Nat.div_eq_of_lt (Nat.mod_lt _ (by norm_num [BASE]))

theorem increment_loop_one (x : Nat) (xs : List Nat) :
    increment_loop (x :: xs) 1 = ((x + 1) % BASE :: xs, 0) := by
  simp [increment_loop, wrapped_shift, ui_cast, increment_loop_zero]

theorem decrement_loop_zero (l : List Nat) : decrement_loop l 0 = l := by
  cases l <;> simp [decrement_loop]

theorem decrement_loop_one (x : Nat) (xs : List Nat) :
    decrement_loop (x :: xs) 1 = (x + BASE - 1) % BASE :: xs := by
  simp [decrement_loop, wrapped_shift, ui_cast, decrement_loop_zero]

/-- `~` of a value with the sign flag clear and at least one limb: the first limb is
incremented modulo `2 ^ 32`, the other limbs are kept, the sign flag is set. -/
theorem complement_nonneg (x : Nat) (xs : List Nat) :
    complement ⟨x :: xs, false⟩ = ⟨(x + 1) % BASE :: xs, true⟩ := by
  simp [complement, decrement, increment_nonneg, increment_loop_one]

/-- `~` of a value with the sign flag set and at least one limb: the first limb is
decremented modulo `2 ^ 32`, the other limbs are kept, the result is trimmed. -/
theorem complement_neg (x : Nat) (xs : List Nat) :
    complement ⟨x :: xs, true⟩ = trim ⟨(x + BASE - 1) % BASE :: xs, false⟩ := by
  simp [complement, decrement, decrement_nonneg, eq_zero, length, decrement_loop_one]

theorem complement_complement_cons (x : Nat) (xs : List Nat) (s : Bool)
    (ha : normalized ⟨x :: xs, s⟩) :
    complement (complement ⟨x :: xs, s⟩) = ⟨x :: xs, s⟩ := by
  have hx : x < BASE := ha.1 x (by simp)
  have hlast : (x :: xs).getLast? ≠ some 0 := ha.2
  cases s with
  | false =>
    rw [complement_nonneg, complement_neg]
    have e : ((x + 1) % BASE + BASE - 1) % BASE = x := by
      simp only [BASE] at *; omega
    rw [e]
    simp [trim, trim_data_of_normal _ hlast]
  | true =>
    rw [complement_neg]
    cases xs with
    | nil =>
      have hx0 : x ≠ 0 := by
        intro h0; subst h0; exact hlast rfl
      by_cases h1 : x = 1
      · subst h1; decide
      · have e : (x + BASE - 1) % BASE = x - 1 := by
          simp only [BASE] at *; omega
        have hne : [x - 1].getLast? ≠ some 0 := by
          simp; omega
        rw [e]
        simp only [trim, trim_data_of_normal _ hne]
        rw [complement_nonneg]
        have e2 : (x - 1 + 1) % BASE = x := by
          simp only [BASE] at *; omega
        rw [e2]
    | cons y ys =>
      have hne : ((x + BASE - 1) % BASE :: y :: ys).getLast? ≠ some 0 := by
        rw [List.getLast?_cons_cons]
        rw [List.getLast?_cons_cons] at hlast
        exact hlast
      simp only [trim, trim_data_of_normal _ hne]
      rw [complement_nonneg]
      have e2 : ((x + BASE - 1) % BASE + 1) % BASE = x := by
        simp only [BASE] at *; omega
      rw [e2]

/-- C22.  For every normalized `a`, of either sign and with zero and negative zero
included, `~(~a) == a` holds under `operator==`. -/
theorem complement_involution (a : big_integer) (ha : normalized a) :
    eq (complement (complement a)) a = true := by
  cases a with
  | mk d s =>
    cases d with
    | nil => cases s <;> decide
    | cons x xs =>
      rw [complement_complement_cons x xs s ha]
      exact eq_refl_true _

theorem complement_involution_witness :
    normalized ⟨[4294967295, 7], true⟩
      ∧ eq (complement (complement ⟨[4294967295, 7], true⟩)) ⟨[4294967295, 7], true⟩ = true :=
  ⟨by decide, complement_involution ⟨[4294967295, 7], true⟩ (by decide)⟩

/-- C28.  For every normalized `a` and every normalized `b` with exactly one limb
(hence non-zero; either sign), `a / b` and `a % b` return: the quotient has magnitude
`floor(|a| / |b|)` and sign flag the exclusive or of the operands' flags, the remainder
has the value `value(a) - value(a / b) * value(b)` and a magnitude below `|b|`. -/
theorem single_limb_division (a b : big_integer) (ha : normalized a) (hb : normalized b)
    (hl : length b = 1) :
    ∃ q r, divide a b = .ok q ∧ modulo a b = .ok r
      ∧ mag q._data = mag a._data / mag b._data
      ∧ q._sign = xor a._sign b._sign
      ∧ value r = value a - value q * value b
      ∧ mag r._data < mag b._data := by
  obtain ⟨v, hbv, hv0, hv, hmv⟩ := one_limb b hb hl
  have hd : b._data = [v] := by
    have := congrArg big_integer._data hbv
    simpa using this
  cases b with
  | mk d sb =>
    simp only at hd
    subst hd
    obtain ⟨q, eq1, hqs, hqm, _⟩ := divide_single a v sb hv0 hv ha.1
    obtain ⟨r, er, hrs, hrm, _⟩ := modulo_single a v sb hv0 hv ha
    have hmb : mag [v] = v := by simp [mag]
    refine ⟨q, r, eq1, er, by simpa [hmb] using hqm, hqs, ?_,
      by simpa [hmb, hrm] using Nat.mod_lt _ hv0⟩
    have hdm : (mag a._data : Int) = v * (mag a._data / v : Nat) + (mag a._data % v : Nat) := by
      exact_mod_cast (Nat.div_add_mod (mag a._data) v).symm
    simp only [value_eq, hqs, hrs, hqm, hrm, hmb]
    generalize (mag a._data / v : Nat) = Q at hdm
    generalize (mag a._data % v : Nat) = R at hdm
    generalize a._sign = sa
    cases sa <;> cases sb <;>
      simp only [Bool.xor_false, Bool.xor_true, Bool.not_false, Bool.not_true, if_true,
        if_false, Bool.false_eq_true] <;>
      rw [hdm] <;> ring

theorem single_limb_division_witness :
    normalized ⟨[5, 3], true⟩ ∧ normalized ⟨[7], false⟩ ∧ length ⟨[7], false⟩ = 1
      ∧ ∃ q r, divide ⟨[5, 3], true⟩ ⟨[7], false⟩ = .ok q
        ∧ modulo ⟨[5, 3], true⟩ ⟨[7], false⟩ = .ok r
        ∧ mag q._data = mag (big_integer._data ⟨[5, 3], true⟩) / mag (big_integer._data ⟨[7], false⟩)
        ∧ q._sign = xor (big_integer._sign ⟨[5, 3], true⟩) (big_integer._sign ⟨[7], false⟩)
        ∧ value r = value ⟨[5, 3], true⟩ - value q * value ⟨[7], false⟩
        ∧ mag r._data < mag (big_integer._data ⟨[7], false⟩) :=
  ⟨by decide, by decide, by decide,
    single_limb_division ⟨[5, 3], true⟩ ⟨[7], false⟩ (by decide) (by decide) (by decide)⟩

/-- C29.  For all normalized `a` and `b`, `a.abs_great_or_eq(b)` is `true` if and only
if the magnitude of `a` is at least the magnitude of `b`; the answer does not depend on
the sign flags. -/
theorem abs_great_or_eq_iff (a b : big_integer) (ha : normalized a) (hb : normalized b) :
    (abs_great_or_eq a b = true ↔ mag b._data ≤ mag a._data)
      ∧ ∀ s t, abs_great_or_eq ⟨a._data, s⟩ ⟨b._data, t⟩ = abs_great_or_eq a b := by
  constructor
  · rw [abs_great_or_eq_spec a b ha hb]
    simp
  · intro s t
    rfl

theorem abs_great_or_eq_iff_witness :
    normalized ⟨[5, 3], true⟩ ∧ normalized ⟨[7, 3], false⟩
      ∧ (abs_great_or_eq ⟨[5, 3], true⟩ ⟨[7, 3], false⟩ = true
          ↔ mag (big_integer._data ⟨[7, 3], false⟩) ≤ mag (big_integer._data ⟨[5, 3], true⟩))
      ∧ ∀ s t, abs_great_or_eq ⟨big_integer._data ⟨[5, 3], true⟩, s⟩
          ⟨big_integer._data ⟨[7, 3], false⟩, t⟩
          = abs_great_or_eq ⟨[5, 3], true⟩ ⟨[7, 3], false⟩ :=
  ⟨by decide, by decide, abs_great_or_eq_iff ⟨[5, 3], true⟩ ⟨[7, 3], false⟩ (by decide) (by decide)⟩

/-- C21 (the code departs from it).  For `a = 2^32 - 1`, normalized, `~a` is the single
limb `0` with the sign flag set, which is not normalized and has value `0`, while
`-(a + 1)` is `-2^32`; `~a == -(a + 1)` is false.  The carry out of the first limb is
lost in the `++` that `--` runs on the magnitude.  For `a = -2^32` the borrow is lost
in the same way and `~a` is `2^33 - 1` where `-(a + 1)` is `2^32 - 1`. -/
theorem complement_loses_carry :
    normalized ⟨[4294967295], false⟩
      ∧ complement ⟨[4294967295], false⟩ = ⟨[0], true⟩
      ∧ plus ⟨[4294967295], false⟩ (of_long_long 1) = .ok ⟨[0, 1], false⟩
      ∧ eq (complement ⟨[4294967295], false⟩) (negate ⟨[0, 1], false⟩) = false
      ∧ ¬ normalized (complement ⟨[4294967295], false⟩)
      ∧ normalized ⟨[0, 1], true⟩
      ∧ complement ⟨[0, 1], true⟩ = ⟨[4294967295, 1], false⟩
      ∧ plus ⟨[0, 1], true⟩ (of_long_long 1) = .ok ⟨[4294967295], true⟩
      ∧ eq (complement ⟨[0, 1], true⟩) (negate ⟨[4294967295], true⟩) = false := by
  decide

/-- C23 (the code departs from it).  For `a = 2^32` and `b = 0`: `a & b` is `0` and
`~(a & b)` is `-1`; `~a` is `-(2^32 + 1)` and `~b` is `-1`, both as they should be;
but `(~a) | (~b)` comes out as `-(2^32 + 1)` instead of `-1`, because the shorter
right operand is not sign-extended.  The two sides are not equal. -/
theorem de_morgan_fails :
    normalized ⟨[0, 1], false⟩ ∧ normalized ⟨[], false⟩
      ∧ bit_and ⟨[0, 1], false⟩ ⟨[], false⟩ = .ok ⟨[], false⟩
      ∧ complement ⟨[], false⟩ = ⟨[1], true⟩
      ∧ complement ⟨[0, 1], false⟩ = ⟨[1, 1], true⟩
      ∧ bit_or ⟨[1, 1], true⟩ ⟨[1], true⟩ = .ok ⟨[1, 1], true⟩
      ∧ eq ⟨[1], true⟩ ⟨[1, 1], true⟩ = false
      ∧ de_morgan_law ⟨[0, 1], false⟩ ⟨[], false⟩ = .ok false := by
  decide

/-- C24 (the code departs from it).  `2^32 & -1` is `0`, not `2^32`: the copy of the
right operand `-1` is converted on its own single limb and the loop reads `0` for its
missing second limb, where the sign extension would be `0xFFFFFFFF`.  With the operands
exchanged the left operand is resized before its conversion and `-1 & 2^32` is `2^32`. -/
theorem bit_and_no_sign_extension :
    normalized ⟨[0, 1], false⟩ ∧ value ⟨[0, 1], false⟩ = 2 ^ 32
      ∧ of_long_long (-1) = ⟨[1], true⟩
      ∧ bit_negation ⟨[1], true⟩ = ⟨[4294967295], true⟩
      ∧ bit_and ⟨[0, 1], false⟩ (of_long_long (-1)) = .ok ⟨[], false⟩
      ∧ value ⟨[], false⟩ = 0
      ∧ bit_and (of_long_long (-1)) ⟨[0, 1], false⟩ = .ok ⟨[0, 1], false⟩ := by
  decide

/-- C25 (the code departs from it).  For `a = 2^31`, one limb with its top bit set,
`a << 0` is `2^32 + 2^31` instead of `2^31`, and `a << 32` is `2^64 + 2^63` instead of
`2^63`: with `small_shift = 0` the limb is shifted right by
`min(EXP - 1, EXP - small_shift) = 31` and its top bit is or-ed into the next limb.
With `k = 1` the result is right. -/
theorem shl_whole_limbs_top_bit :
    normalized ⟨[2147483648], false⟩ ∧ value ⟨[2147483648], false⟩ = 2 ^ 31
      ∧ shl ⟨[2147483648], false⟩ 0 = ⟨[2147483648, 1], false⟩
      ∧ value (shl ⟨[2147483648], false⟩ 0) = 2 ^ 32 + 2 ^ 31
      ∧ shl ⟨[2147483648], false⟩ 32 = ⟨[0, 2147483648, 1], false⟩
      ∧ value (shl ⟨[2147483648], false⟩ 32) = 2 ^ 64 + 2 ^ 63
      ∧ shl ⟨[2147483648], false⟩ 1 = ⟨[0, 1], false⟩ := by
  decide

/-- C26 (the code departs from it).  For `a = 2^32` and `k = 32`: `a << 32` is `2^64`,
as it should be, and `2^64 >> 32` is `2^32 + 2^31`: with `small_shift = 0` the next
limb is shifted left by `min(EXP - 1, EXP - small_shift) = 31` and its lowest bit is
or-ed into the top bit of the limb below.  `(a << k) >> k == a` is false; so it is for
`a = 2^31` and `k = 0`. -/
theorem shl_shr_not_inverse :
    normalized ⟨[0, 1], false⟩
      ∧ shl ⟨[0, 1], false⟩ 32 = ⟨[0, 0, 1], false⟩
      ∧ shr ⟨[0, 0, 1], false⟩ 32 = .ok ⟨[2147483648, 1], false⟩
      ∧ shift_law ⟨[0, 1], false⟩ 32 = .ok false
      ∧ normalized ⟨[2147483648], false⟩
      ∧ shift_law ⟨[2147483648], false⟩ 0 = .ok false := by
  decide

/-- C27 (the code departs from it).  For `a = 2^32` (two limbs) `a >> 0` is
`2^32 + 2^31` instead of `2^32`, and for `a = 2^64` (three limbs) `a >> 32` is
`2^32 + 2^31` instead of `2^32`: with `small_shift = 0` the lowest bit of the next limb
is or-ed into the top bit of each limb.  For `a = -2^32` and `k = 1` the result has no
limbs instead of being `-2^31`: the two conversions by `bit_negation` lose the carry
of their `++`.  `(-7) >> 1` is `-4`. -/
theorem shr_whole_limbs :
    normalized ⟨[0, 1], false⟩
      ∧ shr ⟨[0, 1], false⟩ 0 = .ok ⟨[2147483648, 1], false⟩
      ∧ value ⟨[2147483648, 1], false⟩ = 2 ^ 32 + 2 ^ 31
      ∧ value ⟨[0, 1], false⟩ / 2 ^ 0 = 2 ^ 32
      ∧ normalized ⟨[0, 0, 1], false⟩
      ∧ shr ⟨[0, 0, 1], false⟩ 32 = .ok ⟨[2147483648, 1], false⟩
      ∧ value ⟨[0, 0, 1], false⟩ / 2 ^ 32 = 2 ^ 32
      ∧ normalized ⟨[0, 1], true⟩
      ∧ shr ⟨[0, 1], true⟩ 1 = .ok ⟨[], true⟩
      ∧ value ⟨[0, 1], true⟩ / 2 ^ 1 = -(2 ^ 31)
      ∧ shr (of_long_long (-7)) 1 = .ok (of_long_long (-4)) := by
  decide

/-- C30 (the code departs from it).  `sub_in_pos` never returns `true`: whenever it
returns, the flag is `false`.  Its loop goes on while `carry > 0`, so a borrow that
remains after the operand's limbs indexes the target past its end; this is the call
made by the long division of `2^95 + 3` by `2^93 + 1`.  Without a remaining borrow it
returns `false` with the difference. -/
theorem sub_in_pos_never_true :
    (∀ lhs rhs pos res flag, sub_in_pos lhs rhs pos = .ok (res, flag) → flag = false)
      ∧ mag [21, 0, 2147483648, 3] < mag [28, 0, 2147483648, 3]
      ∧ sub_in_pos [21, 0, 2147483648, 3] [28, 0, 2147483648, 3] 0 = .error .out_of_bounds
      ∧ sub_in_pos [0, 7, 1] [3] 1 = .ok ([0, 4, 1], false)
      ∧ sub_in_pos [0, 7, 1] [8] 1 = .ok ([0, 4294967295, 0], false)
      ∧ sub_in_pos [0, 7] [8] 1 = .error .out_of_bounds :=
  ⟨sub_in_pos_flag, by decide, by decide, by decide, by decide, by decide⟩

/-! ## The scale factor of the long division -/

theorem scale_bounds (t : Nat) (h1 : 1 ≤ t) (ht : t < BASE) :
    1 ≤ BASE / (t + 1) ∧ BASE / (t + 1) ≤ 2 ^ 31 ∧ 2 ^ 31 ≤ t * (BASE / (t + 1))
      ∧ (t + 1) * (BASE / (t + 1)) ≤ BASE := by
  have hdm := Nat.div_add_mod BASE (t + 1)
  have hr := Nat.mod_lt BASE (show 0 < t + 1 by omega)
  have hd1 : 1 ≤ BASE / (t + 1) := Nat.div_pos (by omega) (by omega)
  have hd2 : BASE / (t + 1) ≤ 2 ^ 31 := by
    calc BASE / (t + 1) ≤ BASE / 2 := Nat.div_le_div_left (by omega) (by norm_num)
      _ = 2 ^ 31 := by norm_num [BASE]
  generalize BASE / (t + 1) = d at *
  generalize BASE % (t + 1) = r at *
  refine ⟨hd1, hd2, ?_, by omega⟩
  have hexp : (t + 1) * d = t * d + d := by ring
  rw [hexp] at hdm
  by_cases ht1 : t = 1
  · subst ht1
    simp only [BASE] at *
    omega
  · by_cases hd : d = 1
    · subst hd
      simp only [BASE] at *
      omega
    · have h2t : 2 ≤ t := by omega
      have h2d : 2 ≤ d := by omega
      have hprod : t + d ≤ t * d := by nlinarith
      generalize t * d = p at *
      simp only [BASE] at *
      omega

theorem mul_uint_loop_length (b : Nat) (hb : b < BASE) (xs : List Nat) :
    ∀ carry, limbs_ok xs → carry < BASE → mag xs * b + carry < BASE ^ xs.length →
      (mul_uint_loop b xs carry).length = xs.length := by
  induction xs with
  | nil =>
    intro carry _ _ h
    have : carry = 0 := by simpa [mag] using h
    subst this
    simp [mul_uint_loop]
  | cons x xs ih =>
    intro carry hl hc h
    rw [limbs_ok_cons] at hl
    have hx := hl.1
    have hprod : x * b ≤ (BASE - 1) * (BASE - 1) :=
      Nat.mul_le_mul (by omega) (by omega)
    have hsmall : x * b + carry < U64 := by
      simp only [BASE, U64] at *; omega
    simp only [mul_uint_loop, List.length_cons, Nat.mod_eq_of_lt hsmall, add_left_inj]
    rw [Nat.shiftRight_eq_div_pow, show (2 : Nat) ^ EXP = BASE by norm_num [EXP, BASE]]
    apply ih _ hl.2
    · rw [Nat.div_lt_iff_lt_mul (by norm_num [BASE])]
      simp only [BASE, U64] at *; omega
    · have e : mag (x :: xs) * b = x * b + BASE * (mag xs * b) := by
        show (x + BASE * mag xs) * b = _
        ring
      rw [e, List.length_cons, pow_succ] at h
      generalize mag xs * b = M at *
      generalize BASE ^ xs.length = P at *
      generalize x * b = xb at *
      have hdiv : (xb + carry) / BASE * BASE ≤ xb + carry := Nat.div_mul_le_self _ _
      by_contra hcon
      have hge : P ≤ M + (xb + carry) / BASE := by omega
      have := Nat.mul_le_mul_right BASE hge
      rw [Nat.add_mul] at this
      have e2 : M * BASE = BASE * M := Nat.mul_comm _ _
      omega

theorem getLast_eq_div (l : List Nat) (h : limbs_ok l) (x : Nat)
    (hx : l.getLast? = some x) : x = mag l / BASE ^ (l.length - 1) := by
  induction l using List.reverseRecOn with
  | nil => simp at hx
  | append_singleton l y _ =>
    rw [List.getLast?_concat] at hx
    injection hx with hx
    subst hx
    rw [limbs_ok_append] at h
    have h1 := mag_lt l h.1
    rw [mag_append]
    simp only [List.length_append, List.length_singleton, Nat.add_sub_cancel]
    have hm : mag [y] = y := by simp [mag]
    rw [hm, Nat.add_mul_div_left _ _ (by positivity), Nat.div_eq_of_lt h1, Nat.zero_add]

theorem mag_between (l : List Nat) (h : limbs_ok l) (t : Nat) (ht : l.getLast? = some t) :
    BASE ^ (l.length - 1) * t ≤ mag l ∧ mag l < BASE ^ (l.length - 1) * (t + 1) := by
  induction l using List.reverseRecOn with
  | nil => simp at ht
  | append_singleton l y _ =>
    rw [List.getLast?_concat] at ht
    injection ht with ht
    subst ht
    rw [limbs_ok_append] at h
    have h1 := mag_lt l h.1
    rw [mag_append]
    simp only [List.length_append, List.length_singleton, Nat.add_sub_cancel]
    have hm : mag [y] = y := by simp [mag]
    rw [hm, Nat.mul_add]
    omega

/-- C32.  For every normalized divisor `v` with most-significant limb `t` (two limbs
or more in the long division; one limb is enough here), the scale factor
`d = floor(2^32 / (t + 1))` satisfies `1 ≤ d ≤ 2^31` and fits a limb, and
`mul_uint(v, d)` has as many limbs as `v`, the magnitude `d * |v|`, and a
most-significant limb of `2^31` or more. -/
theorem scale_factor_normalizes (v : big_integer) (hv : normalized v) (t : Nat)
    (ht : v._data.getLast? = some t) :
    1 ≤ BASE / (t + 1) ∧ BASE / (t + 1) ≤ 2 ^ 31
      ∧ ui_cast (BASE / (t + 1)) = BASE / (t + 1)
      ∧ length (mul_uint v (BASE / (t + 1))) = length v
      ∧ mag (mul_uint v (BASE / (t + 1)))._data = BASE / (t + 1) * mag v._data
      ∧ ∃ m, (mul_uint v (BASE / (t + 1)))._data.getLast? = some m ∧ 2 ^ 31 ≤ m := by
  have hne : v._data ≠ [] := by
    intro h0; rw [h0] at ht; simp at ht
  have htm : t ∈ v._data := by
    rw [List.getLast?_eq_getLast _ hne] at ht
    injection ht with ht
    rw [← ht]
    exact List.getLast_mem hne
  have htB : t < BASE := hv.1 t htm
  have ht0 : 1 ≤ t := by
    have : t ≠ 0 := by
      intro h0; subst h0; exact hv.2 ht
    omega
  obtain ⟨hd1, hd2, hdt, hds⟩ := scale_bounds t ht0 htB
  have hdB : BASE / (t + 1) < BASE := by
    have : (2 : Nat) ^ 31 < BASE := by norm_num [BASE]
    omega
  generalize BASE / (t + 1) = d at *
  obtain ⟨hm, hok, _⟩ := mul_uint_spec v d hv.1 hdB
  obtain ⟨hlo, hhi⟩ := mag_between v._data hv.1 t ht
  have hlenpos : 1 ≤ v._data.length := List.length_pos.mpr hne
  have hpow : BASE ^ v._data.length = BASE ^ (v._data.length - 1) * BASE := by
    rw [← pow_succ]; congr 1; omega
  have hfit : mag v._data * d + 0 < BASE ^ v._data.length := by
    rw [hpow, Nat.add_zero]
    calc mag v._data * d < BASE ^ (v._data.length - 1) * (t + 1) * d :=
          Nat.mul_lt_mul_of_pos_right hhi (by omega)
      _ = BASE ^ (v._data.length - 1) * ((t + 1) * d) := by ring
      _ ≤ BASE ^ (v._data.length - 1) * BASE := Nat.mul_le_mul_left _ hds
  have hlen : (mul_uint v d)._data.length = v._data.length :=
    mul_uint_loop_length d hdB v._data 0 hv.1 (by norm_num [BASE]) hfit
  refine ⟨hd1, hd2, Nat.mod_eq_of_lt hdB, hlen, by rw [hm]; ring, ?_⟩
  have hne2 : (mul_uint v d)._data ≠ [] := by
    intro h0; rw [h0] at hlen; simp at hlen; omega
  refine ⟨(mul_uint v d)._data.getLast hne2, List.getLast?_eq_getLast _ hne2, ?_⟩
  rw [getLast_eq_div _ hok _ (List.getLast?_eq_getLast _ hne2), hlen, hm]
  rw [Nat.le_div_iff_mul_le (by positivity)]
  calc 2 ^ 31 * BASE ^ (v._data.length - 1) ≤ t * d * BASE ^ (v._data.length - 1) :=
        Nat.mul_le_mul_right _ hdt
    _ = BASE ^ (v._data.length - 1) * t * d := by ring
    _ ≤ mag v._data * d := Nat.mul_le_mul_right _ hlo

theorem scale_factor_normalizes_witness :
    normalized ⟨[1, 0, 536870912], false⟩
      ∧ (big_integer._data ⟨[1, 0, 536870912], false⟩).getLast? = some 536870912
      ∧ 1 ≤ BASE / (536870912 + 1) ∧ BASE / (536870912 + 1) ≤ 2 ^ 31
      ∧ ui_cast (BASE / (536870912 + 1)) = BASE / (536870912 + 1)
      ∧ length (mul_uint ⟨[1, 0, 536870912], false⟩ (BASE / (536870912 + 1)))
          = length ⟨[1, 0, 536870912], false⟩
      ∧ mag (mul_uint ⟨[1, 0, 536870912], false⟩ (BASE / (536870912 + 1)))._data
          = BASE / (536870912 + 1) * mag (big_integer._data ⟨[1, 0, 536870912], false⟩)
      ∧ ∃ m, (mul_uint ⟨[1, 0, 536870912], false⟩ (BASE / (536870912 + 1)))._data.getLast?
          = some m ∧ 2 ^ 31 ≤ m :=
  ⟨by decide, rfl,
    scale_factor_normalizes ⟨[1, 0, 536870912], false⟩ (by decide) 536870912 rfl⟩

/-! ## Bitwise operators on operands with a clear sign flag -/

theorem bitwise_by_zero (operation : Nat → Nat → Nat) (f : Bool → Bool → Bool)
    (h : f false false = false
      ∧ ∀ x y i, (operation x y).testBit i = f (x.testBit i) (y.testBit i)) :
    operation 0 0 = 0 := by
  apply Nat.eq_of_testBit_eq
  intro i
  rw [h.2, Nat.zero_testBit, h.1]

theorem bitwise_by_lt (operation : Nat → Nat → Nat) (f : Bool → Bool → Bool)
    (h : f false false = false
      ∧ ∀ x y i, (operation x y).testBit i = f (x.testBit i) (y.testBit i))
    (x y : Nat) (hx : x < BASE) (hy : y < BASE) :
    operation x y < BASE := by
  have hx2 : x < 2 ^ 32 := hx
  have hy2 : y < 2 ^ 32 := hy
  show operation x y < 2 ^ 32
  apply Nat.lt_pow_two_of_testBit
  intro i hi
  have hpow : 2 ^ 32 ≤ 2 ^ i := Nat.pow_le_pow_right (show 0 < 2 by norm_num) hi
  have h1 : x < 2 ^ i := lt_of_lt_of_le hx2 hpow
  have h2 : y < 2 ^ i := lt_of_lt_of_le hy2 hpow
  rw [h.2, Nat.testBit_lt_two_pow h1, Nat.testBit_lt_two_pow h2, h.1]

theorem bitwise_by_split (operation : Nat → Nat → Nat) (f : Bool → Bool → Bool)
    (h : f false false = false
      ∧ ∀ x y i, (operation x y).testBit i = f (x.testBit i) (y.testBit i))
    (x y X Y : Nat) (hx : x < BASE) (hy : y < BASE) :
    operation (x + BASE * X) (y + BASE * Y) = operation x y + BASE * operation X Y := by
  have hxy : operation x y < 2 ^ 32 := bitwise_by_lt operation f h x y hx hy
  have hx2 : x < 2 ^ 32 := hx
  have hy2 : y < 2 ^ 32 := hy
  show operation (x + 2 ^ 32 * X) (y + 2 ^ 32 * Y) = operation x y + 2 ^ 32 * operation X Y
  apply Nat.eq_of_testBit_eq
  intro i
  rw [h.2, Nat.add_comm x, Nat.add_comm y, Nat.add_comm (operation x y),
    Nat.testBit_mul_pow_two_add X hx2, Nat.testBit_mul_pow_two_add Y hy2,
    Nat.testBit_mul_pow_two_add _ hxy]
  split
  · rw [h.2]
  · rw [h.2]

theorem mag_head_tail (b : List Nat) : mag b = b.headD 0 + BASE * mag b.tail := by
  cases b <;> simp [mag]

theorem limbs_ok_head_tail (b : List Nat) (hb : limbs_ok b) :
    b.headD 0 < BASE ∧ limbs_ok b.tail := by
  cases b with
  | nil => exact ⟨by norm_num [BASE], by simp [limbs_ok]⟩
  | cons y ys => exact limbs_ok_cons.mp hb

theorem bit_operation_loop_spec (operation : Nat → Nat → Nat) (f : Bool → Bool → Bool)
    (h : f false false = false
      ∧ ∀ x y i, (operation x y).testBit i = f (x.testBit i) (y.testBit i))
    (xs : List Nat) :
    ∀ b, limbs_ok xs → limbs_ok b → b.length ≤ xs.length →
      ∃ r, bit_operation_loop operation xs.length xs b = .ok r
        ∧ mag r = operation (mag xs) (mag b) ∧ limbs_ok r := by
  induction xs with
  | nil =>
    intro b _ _ hlen
    have hb0 : b = [] := List.length_eq_zero.mp (by simpa using hlen)
    subst hb0
    exact ⟨[], rfl, by simp [mag, bitwise_by_zero operation f h], by simp [limbs_ok]⟩
  | cons x xs ih =>
    intro b hxs hb hlen
    rw [limbs_ok_cons] at hxs
    obtain ⟨hh, ht⟩ := limbs_ok_head_tail b hb
    have hlt : b.tail.length ≤ xs.length := by
      rw [List.length_tail]
      simp only [List.length_cons] at hlen
      omega
    obtain ⟨r, e, hm, hok⟩ := ih b.tail hxs.2 ht hlt
    refine ⟨operation x (b.headD 0) :: r, ?_, ?_, ?_⟩
    · simp only [List.length_cons, bit_operation_loop, e]
    · rw [mag_head_tail b]
      show operation x (b.headD 0) + BASE * mag r = operation (x + BASE * mag xs) _
      rw [hm, bitwise_by_split operation f h _ _ _ _ hxs.1 hh]
    · rw [limbs_ok_cons]
      exact ⟨bitwise_by_lt operation f h _ _ hxs.1 hh, hok⟩

theorem resize_grow (d : List Nat) (n : Nat) (h : d.length ≤ n) :
    resize d n = d ++ List.replicate (n - d.length) 0 := by
  unfold resize
  rw [List.take_of_length_le h]

theorem bit_operation_nonneg (operation : Nat → Nat → Nat) (f : Bool → Bool → Bool)
    (h : f false false = false
      ∧ ∀ x y i, (operation x y).testBit i = f (x.testBit i) (y.testBit i))
    (a b : big_integer) (ha : limbs_ok a._data)
    (hb : limbs_ok b._data) (hsa : a._sign = false) (hsb : b._sign = false) :
    ∃ r, bit_operation operation a b = .ok r ∧ r._sign = false ∧ normalized r
      ∧ mag r._data = operation (mag a._data) (mag b._data) := by
  have hle : a._data.length ≤ max a._data.length b._data.length := le_max_left _ _
  have hres := resize_grow a._data _ hle
  have hlen : (resize a._data (max a._data.length b._data.length)).length
      = max a._data.length b._data.length := by
    rw [hres, List.length_append, List.length_replicate]; omega
  have hok : limbs_ok (resize a._data (max a._data.length b._data.length)) := by
    rw [hres, limbs_ok_append]; exact ⟨ha, limbs_ok_replicate_zero _⟩
  have hmag : mag (resize a._data (max a._data.length b._data.length)) = mag a._data := by
    rw [hres, mag_append, mag_replicate_zero]; simp
  obtain ⟨r, e, hm, hr⟩ := bit_operation_loop_spec operation f h
    (resize a._data (max a._data.length b._data.length)) b._data hok hb
    (by rw [hlen]; exact le_max_right _ _)
  rw [hlen] at e
  have h00 := bitwise_by_zero operation f h
  refine ⟨trim ⟨r, false⟩, ?_, rfl, trim_normalized _ hr, ?_⟩
  · simp [bit_operation, length, hsa, hsb, e, h00]
  · show mag (trim_data r) = _
    rw [mag_trim_data, hm, hmag]

theorem bit_operation_comm (operation : Nat → Nat → Nat) (f : Bool → Bool → Bool)
    (h : f false false = false
      ∧ ∀ x y i, (operation x y).testBit i = f (x.testBit i) (y.testBit i))
    (hc : ∀ x y, operation x y = operation y x)
    (a b : big_integer) (ha : limbs_ok a._data)
    (hb : limbs_ok b._data) (hsa : a._sign = false) (hsb : b._sign = false) :
    bit_operation operation a b = bit_operation operation b a := by
  obtain ⟨r, e, hs, hn, hm⟩ := bit_operation_nonneg operation f h a b ha hb hsa hsb
  obtain ⟨r2, e2, hs2, hn2, hm2⟩ := bit_operation_nonneg operation f h b a hb ha hsb hsa
  rw [e, e2]
  have hd : r._data = r2._data :=
    mag_inj _ _ hn.1 hn2.1 hn.2 hn2.2 (by rw [hm, hm2, hc])
  cases r; cases r2
  simp_all

theorem bitwise_by_land : (false && false) = false
      ∧ ∀ x y i, (Nat.land x y).testBit i = (x.testBit i && y.testBit i) :=
  ⟨rfl, fun x y i => Nat.testBit_land x y i⟩

theorem bitwise_by_lor : (false || false) = false
      ∧ ∀ x y i, (Nat.lor x y).testBit i = (x.testBit i || y.testBit i) :=
  ⟨rfl, fun x y i => Nat.testBit_lor x y i⟩

theorem bitwise_by_xor : (false ^^ false) = false
      ∧ ∀ x y i, (Nat.xor x y).testBit i = (x.testBit i ^^ y.testBit i) :=
  ⟨rfl, fun x y i => Nat.testBit_xor x y i⟩

/-- Bitwise operators on operands whose sign flag is clear.  For all normalized `a`
and `b` with a clear sign flag, of any limb counts, `a & b`, `a | b` and `a ^ b`
return a result that has a clear sign flag, is normalized, and has the value of the
bitwise AND / OR / XOR of the two natural numbers; each operator gives the same result
with the operands exchanged. -/
theorem bitwise_nonneg (a b : big_integer) (ha : normalized a) (hb : normalized b)
    (hsa : a._sign = false) (hsb : b._sign = false) :
    (∃ r, bit_and a b = .ok r ∧ r._sign = false ∧ normalized r
        ∧ value r = (((value a).toNat &&& (value b).toNat : Nat) : Int))
      ∧ (∃ r, bit_or a b = .ok r ∧ r._sign = false ∧ normalized r
        ∧ value r = (((value a).toNat ||| (value b).toNat : Nat) : Int))
      ∧ (∃ r, bit_xor a b = .ok r ∧ r._sign = false ∧ normalized r
        ∧ value r = (((value a).toNat ^^^ (value b).toNat : Nat) : Int))
      ∧ bit_and a b = bit_and b a ∧ bit_or a b = bit_or b a ∧ bit_xor a b = bit_xor b a := by
  have hva : (value a).toNat = mag a._data := by simp [value_eq, hsa]
  have hvb : (value b).toNat = mag b._data := by simp [value_eq, hsb]
  rw [hva, hvb]
  refine ⟨?_, ?_, ?_, ?_, ?_, ?_⟩
  · obtain ⟨r, e, hs, hn, hm⟩ :=
      bit_operation_nonneg _ (fun p q => p && q) bitwise_by_land a b ha.1 hb.1 hsa hsb
    exact ⟨r, e, hs, hn, by rw [value_eq, hs, hm]; rfl⟩
  · obtain ⟨r, e, hs, hn, hm⟩ :=
      bit_operation_nonneg _ (fun p q => p || q) bitwise_by_lor a b ha.1 hb.1 hsa hsb
    exact ⟨r, e, hs, hn, by rw [value_eq, hs, hm]; rfl⟩
  · obtain ⟨r, e, hs, hn, hm⟩ :=
      bit_operation_nonneg _ (fun p q => p ^^ q) bitwise_by_xor a b ha.1 hb.1 hsa hsb
    exact ⟨r, e, hs, hn, by rw [value_eq, hs, hm]; rfl⟩
  · exact bit_operation_comm _ (fun p q => p && q) bitwise_by_land Nat.land_comm a b ha.1 hb.1 hsa hsb
  · exact bit_operation_comm _ (fun p q => p || q) bitwise_by_lor Nat.lor_comm a b ha.1 hb.1 hsa hsb
  · exact bit_operation_comm _ (fun p q => p ^^ q) bitwise_by_xor Nat.xor_comm a b ha.1 hb.1 hsa hsb

theorem bitwise_nonneg_witness :
    normalized ⟨[12, 5], false⟩ ∧ normalized ⟨[10], false⟩
      ∧ big_integer._sign ⟨[12, 5], false⟩ = false ∧ big_integer._sign ⟨[10], false⟩ = false
      ∧ (∃ r, bit_and ⟨[12, 5], false⟩ ⟨[10], false⟩ = .ok r ∧ r._sign = false ∧ normalized r
        ∧ value r = (((value ⟨[12, 5], false⟩).toNat &&& (value ⟨[10], false⟩).toNat : Nat) : Int))
      ∧ (∃ r, bit_or ⟨[12, 5], false⟩ ⟨[10], false⟩ = .ok r ∧ r._sign = false ∧ normalized r
        ∧ value r = (((value ⟨[12, 5], false⟩).toNat ||| (value ⟨[10], false⟩).toNat : Nat) : Int))
      ∧ (∃ r, bit_xor ⟨[12, 5], false⟩ ⟨[10], false⟩ = .ok r ∧ r._sign = false ∧ normalized r
        ∧ value r = (((value ⟨[12, 5], false⟩).toNat ^^^ (value ⟨[10], false⟩).toNat : Nat) : Int))
      ∧ bit_and ⟨[12, 5], false⟩ ⟨[10], false⟩ = bit_and ⟨[10], false⟩ ⟨[12, 5], false⟩
      ∧ bit_or ⟨[12, 5], false⟩ ⟨[10], false⟩ = bit_or ⟨[10], false⟩ ⟨[12, 5], false⟩
      ∧ bit_xor ⟨[12, 5], false⟩ ⟨[10], false⟩ = bit_xor ⟨[10], false⟩ ⟨[12, 5], false⟩ :=
  ⟨by decide, by decide, rfl, rfl,
    bitwise_nonneg ⟨[12, 5], false⟩ ⟨[10], false⟩ (by decide) (by decide) rfl rfl⟩

/-- A zero whose sign flag is set is converted like a negative operand:
`(-0) | 5` comes out as `-4294967291`, and `(-0) & 5` as `0`. -/
theorem bit_or_signed_zero :
    bit_or ⟨[], true⟩ ⟨[5], false⟩ = .ok ⟨[4294967291], true⟩
      ∧ bit_and ⟨[], true⟩ ⟨[5], false⟩ = .ok ⟨[], false⟩ := by
  decide

/-! ## Shifts by more whole limbs than the operand has -/

theorem increment_nonneg_length (d : List Nat) (s : Bool) :
    (increment_nonneg ⟨d, s⟩)._data.length ≤ d.length + 1 := by
  cases d with
  | nil => simp [increment_nonneg, increment_loop]
  | cons x xs => simp [increment_nonneg, increment_loop_one]

theorem bit_negation_length (a : big_integer) (hs : a._sign = true) :
    (bit_negation a)._data.length ≤ a._data.length + 1 := by
  have := increment_nonneg_length (a._data.map (fun i => UINT32_MAX - i)) false
  simpa [bit_negation, hs, decrement] using this

theorem rd_past_end (v : List Nat) (i : Nat) (h : v.length ≤ i) :
    rd v i = .error .out_of_bounds := by
  unfold rd
  rw [List.get?_eq_none.mpr h]

theorem shr_past_length (a : big_integer) (k : Nat) (hk : length a < k / EXP)
    (hint : k < 2 ^ 31) : shr a k = .error .out_of_bounds := by
  have hconv : (if a._sign then bit_negation a else a)._data.length ≤ length a + 1 := by
    by_cases hs : a._sign = true
    · simpa [hs, length] using bit_negation_length a hs
    · simp [hs, length]
  have hbig : k / EXP < U64 := by
    have : k / EXP ≤ k := Nat.div_le_self _ _
    simp only [U64]; omega
  obtain ⟨n, hn⟩ : ∃ n, length a + U64 - k / EXP = n + 1 := ⟨length a + U64 - k / EXP - 1, by omega⟩
  have hrd : rd (if a._sign then bit_negation a else a)._data (0 + k / EXP)
      = .error .out_of_bounds := rd_past_end _ _ (by omega)
  unfold shr
  simp only [if_neg (not_le.mpr hk), hn, shr_loop, hrd]

/-- C31 (the code departs from it).  For `a = 2^95 + 3` and `b = 2^93 + 1`, normalized,
`b` of three limbs and `|a| ≥ |b|`, the long division does not stay within bounds.  The
scale factor is `7`; the one step of the main loop, on the scaled operands, takes the
trial digit `4` where the quotient is `3`; `4 * divisor` exceeds the four-limb window,
the subtraction borrows past limb 3, and `sub_in_pos` goes on to index limb 4 of the
window instead of returning `true`; the add-back is never reached.  A division whose
trial digits need no add-back (`2^64` by `2^32 + 1`) returns. -/
theorem long_division_leaves_window :
    normalized ⟨[3, 0, 2147483648], false⟩ ∧ normalized ⟨[1, 0, 536870912], false⟩
      ∧ 2 ≤ length ⟨[1, 0, 536870912], false⟩
      ∧ abs_great_or_eq ⟨[3, 0, 2147483648], false⟩ ⟨[1, 0, 536870912], false⟩ = true
      ∧ BASE / (536870912 + 1) = 7
      ∧ division_loop [7, 0, 3758096384] 3 1 [21, 0, 2147483648, 3] []
          = .error .out_of_bounds
      ∧ divide ⟨[3, 0, 2147483648], false⟩ ⟨[1, 0, 536870912], false⟩
          = .error .out_of_bounds
      ∧ modulo ⟨[3, 0, 2147483648], false⟩ ⟨[1, 0, 536870912], false⟩
          = .error .out_of_bounds
      ∧ divide ⟨[0, 0, 1], false⟩ ⟨[1, 1], false⟩ = .ok ⟨[4294967295], false⟩
      ∧ modulo ⟨[0, 0, 1], false⟩ ⟨[1, 1], false⟩ = .ok ⟨[1], false⟩ := by
  decide

/-- C34 (the code departs from it).  `big_integer(1) >> 64` does not stay within
bounds: `size - big_shift` is `1 - 2` in `size_t`, that is `2^64 - 1`, so the loop is
entered and its first step reads `_data[2]` of a one-limb vector.  So it is for every
`a` and every shift count `k` of an `int` with `floor(k / 32) > length(a)`, of either
sign.  With `floor(k / 32) = length(a)` the results are `0` and `-1`. -/
theorem shr_bound_wraps :
    of_long_long 1 = ⟨[1], false⟩ ∧ normalized ⟨[1], false⟩
      ∧ length ⟨[1], false⟩ + U64 - 64 / EXP = 18446744073709551615
      ∧ rd [1] (0 + 64 / EXP) = .error .out_of_bounds
      ∧ shr (of_long_long 1) 64 = .error .out_of_bounds
      ∧ shr (of_long_long (-1)) 64 = .error .out_of_bounds
      ∧ shr (of_long_long 0) 32 = .error .out_of_bounds
      ∧ (∀ a k, length a < k / EXP → k < 2 ^ 31 → shr a k = .error .out_of_bounds)
      ∧ shr (of_long_long 1) 32 = .ok ⟨[], false⟩
      ∧ shr (of_long_long (-1)) 32 = .ok ⟨[1], true⟩ :=
  ⟨by decide, by decide, by decide, by decide, by decide, by decide, by decide,
    shr_past_length, by decide, by decide⟩

/-- C33 (the code departs from it).  The zero with the sign flag set, as `parse("-0")`
and `x - x` for a negative `x` produce it, is non-negative and normalized, and on it
the three operators do not compute the bitwise operation of the natural numbers:
`7 & (-0)` is `1` instead of `0`, `(-0) | 5` is `-4294967291` instead of `5`,
`7 ^ (-0)` is `-4294967290` instead of `7`, and `7 & (-0)` differs from `(-0) & 7`.
`bit_operation` tests the sign flag alone and converts that zero like a negative
operand. -/
theorem bitwise_signed_zero :
    parse "-0" = .ok ⟨[], true⟩
      ∧ minus ⟨[1], true⟩ ⟨[1], true⟩ = .ok ⟨[], true⟩
      ∧ normalized ⟨[], true⟩ ∧ value ⟨[], true⟩ = 0
      ∧ normalized ⟨[7], false⟩ ∧ normalized ⟨[5], false⟩
      ∧ bit_negation ⟨[], true⟩ = ⟨[1], true⟩
      ∧ bit_and ⟨[7], false⟩ ⟨[], true⟩ = .ok ⟨[1], false⟩
      ∧ bit_and ⟨[], true⟩ ⟨[7], false⟩ = .ok ⟨[], false⟩
      ∧ bit_or ⟨[], true⟩ ⟨[5], false⟩ = .ok ⟨[4294967291], true⟩
      ∧ value ⟨[4294967291], true⟩ = -4294967291
      ∧ bit_xor ⟨[7], false⟩ ⟨[], true⟩ = .ok ⟨[4294967290], true⟩
      ∧ bit_and ⟨[7], false⟩ ⟨[], false⟩ = .ok ⟨[], false⟩
      ∧ bit_or ⟨[], false⟩ ⟨[5], false⟩ = .ok ⟨[5], false⟩ := by
  decide

end BigInteger
